import Mathlib

/-!
# Puppet expression evaluator: a shallow embedding

The definitions below follow `lib/src/compiler/evaluation/evaluator.cc` and
`lib/src/compiler/evaluation/postfix_evaluator.cc`.  Evaluation threads the evaluation
context explicitly and returns `Except`: a thrown exception is `Except.error`.

Sub-expressions are handed to the control functions (`climb_expression`, `case_expression`,
`if_expression`, `selector_expression`, ...) as suspended evaluations, so that each control
function is stated once, for arbitrary operands, and the tree walk `evaluate` instantiates it
with the evaluation of the sub-trees.

The expressions that work on the catalog (resource expressions, resource overrides, EPP render
expressions) run on an `evaluation_state`, which adds the catalog, the queues of deferred work
and the EPP streams to the context; there a thrown exception keeps the state at the point of
the throw, so that what was done before it can be told.  `resource.cc` and `right_shift.cc`
are embedded for the resource types and the right shift of integers.

The operator handlers of `right_shift.cc` and `logical_not.cc` work on an operator context and
report an error together with the AST context it cites.  The members `is_instance` and
`is_specialization` follow `resource.cc`, `any.cc`, `boolean.cc` and `undef.cc`, and
`resource::parse` is embedded with its pattern written out as a matcher on characters.  The
visitor of `map.cc` runs on the evaluation state, with the lambda as a function on it.
-/

namespace puppet

/-! ## Runtime values -/

/-- The operators of `ast::binary_operator`, as listed in the operator table of
`evaluator::evaluate` (the declaration of the enumeration is in `ast.hpp`). -/
inductive binary_operator : Type
  | assignment | divide | equals | greater_than | greater_equals | in_
  | in_edge | in_edge_subscribe | left_shift | less_than | less_equals
  | logical_and | logical_or | match_ | minus | modulo | multiply
  | not_equals | not_match | out_edge | out_edge_subscribe | plus | right_shift
  deriving DecidableEq, Repr

/-- The operators of `ast::unary_operator`, as listed in the unary operator table. -/
inductive unary_operator : Type
  | negate | logical_not | splat
  deriving DecidableEq, Repr

/-- The canonical form of a resource type name, on characters: the constructor of
`types::resource` lower-cases the name and then upper-cases the first character of every
`::`-separated segment.  The flag tells whether the next character starts a segment. -/
def types.canonical_chars : Bool → List Char → List Char
  | _, [] => []
  | _, ':' :: ':' :: rest => ':' :: ':' :: types.canonical_chars true rest
  | true, c :: rest => c.toLower.toUpper :: types.canonical_chars false rest
  | false, c :: rest => c.toLower :: types.canonical_chars false rest

/-- The type `types::resource` of `resource.cc`: a type name and a title, both possibly empty. -/
structure types.resource : Type where
  type_name : String
  title : String
  deriving DecidableEq, Repr

/-- The constructor `resource::resource(type_name, title)`: the type name is made canonical,
the title is kept as it is. -/
def types.resource.make (type_name title : String) : types.resource :=
  ⟨String.mk (types.canonical_chars true type_name.data), title⟩

/-- The member `resource::fully_qualified`. -/
def types.resource.fully_qualified (r : types.resource) : Bool :=
  !r.type_name.isEmpty && !r.title.isEmpty

/-- The member `resource::is_class`. -/
def types.resource.is_class (r : types.resource) : Bool :=
  r.type_name == "Class"

/-- The object a `Runtime` type may hold: a collector, known by its number, or something
else. -/
inductive runtime_object : Type
  | collector (id : Nat)
  | other
  deriving DecidableEq, Repr

/-- The type `types::integer` of `integer.hpp`, `Integer[from, to]`: the two type
parameters. -/
structure types.integer : Type where
  from_ : Int
  to_ : Int
  deriving DecidableEq, Repr

/-- The alternatives of `values::type` the functions embedded here tell apart: `Any`,
`Boolean`, `Undef`, `Integer`, `Resource`, `Class`, `Runtime`; every other type is kept by its
display name. -/
inductive values.type : Type
  | any
  | boolean
  | undef
  | integer (range : types.integer)
  | resource (r : types.resource)
  | klass (title : String)
  | runtime (object : Option runtime_object)
  | other (name : String)
  deriving DecidableEq, Repr

/-- The alternatives of `values::value` used by the evaluator functions embedded here.
Floating point numbers are left out. -/
inductive value : Type
  | undef
  | defaulted
  | boolean (b : Bool)
  | integer (i : Int)
  | string (s : String)
  | regex (pattern : String)
  | array (elements : List value)
  | hash (elements : List (value × value))
  | type (t : values.type)
  | variable (name : String) (v : value)
  deriving Repr

namespace value

/-- Modelled from the spec: `value.hpp` is absent.  A variable is a name together with a
reference to a value, kept for diagnostics only; every accessor looks through it. -/
def dereference : value → value
  | .variable _ v => dereference v
  | v => v

/-- Modelled from the spec: truthiness, `undef` and `false` are falsy and every other value is
truthy. -/
def is_truthy (v : value) : Bool :=
  match v.dereference with
  | undef => false
  | boolean b => b
  | _ => true

/-- Modelled from the spec: whether the value is the `default` sentinel. -/
def is_default (v : value) : Bool :=
  match v.dereference with
  | defaulted => true
  | _ => false

/-- Modelled from the spec: whether the value is `undef`. -/
def is_undef (v : value) : Bool :=
  match v.dereference with
  | undef => true
  | _ => false

/-- Modelled from the spec: `as<std::string>()`, the string held by the value, if any. -/
def as_string (v : value) : Option String :=
  match v.dereference with
  | string s => some s
  | _ => none

/-- Modelled from the spec: `as<values::regex>()`, the pattern of the regex held by the value. -/
def as_regex (v : value) : Option String :=
  match v.dereference with
  | regex p => some p
  | _ => none

/-- Modelled from the spec: `as<values::array>()`, the elements of the array held by the value. -/
def as_array (v : value) : Option (List value) :=
  match v.dereference with
  | array xs => some xs
  | _ => none

/-- Modelled from the spec: `move_as<values::array>()` of `value.hpp` (absent).  Values reachable
through a variable are shared and immutable, so they are copied; an array owned by the evaluator
is moved out, which leaves an empty array behind.  Returns the array and what the value holds
afterwards. -/
def move_as_array : value → Option (List value × value)
  | array xs => some (xs, array [])
  | .variable n v =>
    match (value.variable n v).as_array with
    | some xs => some (xs, .variable n v)
    | none => none
  | _ => none

mutual
/-- Removes every variable wrapper, at every depth. -/
def strip : value → value
  | .variable _ v => strip v
  | array xs => array (strip_list xs)
  | hash kvs => hash (strip_pairs kvs)
  | undef => undef
  | defaulted => defaulted
  | boolean b => boolean b
  | integer i => integer i
  | string s => string s
  | regex p => regex p
  | type n => type n
/-- Removes the variable wrappers of the elements of an array. -/
def strip_list : List value → List value
  | [] => []
  | x :: xs => strip x :: strip_list xs
/-- Removes the variable wrappers of the entries of a hash. -/
def strip_pairs : List (value × value) → List (value × value)
  | [] => []
  | (k, v) :: kvs => (strip k, strip v) :: strip_pairs kvs
end

mutual
/-- Structural comparison of two values without variable wrappers. -/
def same : value → value → Bool
  | undef, undef => true
  | defaulted, defaulted => true
  | boolean a, boolean b => a == b
  | integer a, integer b => a == b
  | string a, string b => a == b
  | regex a, regex b => a == b
  | array a, array b => same_list a b
  | hash a, hash b => same_pairs a b
  | type a, type b => a == b
  | .variable n a, .variable m b => n == m && same a b
  | _, _ => false
/-- Element-wise comparison of two arrays. -/
def same_list : List value → List value → Bool
  | [], [] => true
  | a :: as, b :: bs => same a b && same_list as bs
  | _, _ => false
/-- Entry-wise comparison of two hashes. -/
def same_pairs : List (value × value) → List (value × value) → Bool
  | [], [] => true
  | (k, v) :: as, (l, w) :: bs => same k l && same v w && same_pairs as bs
  | _, _ => false
end

/-- Modelled from the spec: `operator==` on values (`value.cc` is absent), structural equality
across all alternatives, looking through variables. -/
def equals (a b : value) : Bool := same (strip a) (strip b)

end value

/-! ## Exceptions, the evaluation context, suspended evaluations -/

/-- The exceptions thrown by the evaluator: `evaluation_exception` (a user error) and
`std::runtime_error` (an internal error).  The message is the text of the source, format
placeholders included. -/
inductive exception : Type
  | evaluation_exception (message : String)
  | runtime_error (message : String)
  deriving DecidableEq, Repr

/-- The part of `evaluation::context` the functions below read and write: the variables of the
current scope and the match stack. -/
structure context : Type where
  scope : List (String × value)
  match_stack : List (List value)
  deriving Repr

/-- The outcome of an evaluation step: an exception, or a result and the context after it. -/
abbrev outcome (α : Type) : Type := Except exception (α × context)

/-- A suspended evaluation of a sub-expression. -/
abbrev thunk : Type := context → outcome value

namespace context

/-- Modelled from the spec: the constructor of `match_scope` (`context.cc` is absent) pushes a
fresh vector of captures on the match stack. -/
def push_match_scope (s : context) : context :=
  { s with match_stack := [] :: s.match_stack }

/-- Modelled from the spec: the destructor of `match_scope` pops the match stack. -/
def pop_match_scope (s : context) : context :=
  { s with match_stack := s.match_stack.tail }

/-- Modelled from the spec: `scope::get`, the value bound to the name or nothing. -/
def lookup (s : context) (name : String) : Option value :=
  (s.scope.find? (fun kv => kv.1 == name)).map (fun kv => kv.2)

/-- Modelled from the spec: `lookup(size_t)`, the capture group of the innermost match scope. -/
def lookup_match (s : context) (index : Nat) : Option value :=
  match s.match_stack with
  | [] => none
  | captures :: _ => captures.get? index

end context

/-- Leaving a block that holds a `match_scope` object: the destructor pops the match stack when
the block returns a value; an exception propagates. -/
def leave_match_scope {α : Type} : outcome α → outcome α
  | .error e => .error e
  | .ok (v, s1) => .ok (v, s1.pop_match_scope)

/-- Runs a block that holds a `match_scope` object: the scope is created on entry and destroyed
when the block is left. -/
def with_match_scope {α : Type} (block : context → outcome α) (s : context) : outcome α :=
  leave_match_scope (block s.push_match_scope)

/-- The suspended evaluation of an expression that yields `v` without touching the context. -/
def constant (v : value) : thunk := fun s => .ok (v, s)

/-! ## Operators and matching -/

/-- The operator handlers the evaluator dispatches to.  Apart from `right_shift` and
`logical_not` their sources are absent, so the evaluator takes them as a parameter: a handler
receives the operand values and the evaluation context and returns a value or throws. -/
structure operators : Type where
  binary : binary_operator → value → value → context → outcome value
  unary : unary_operator → value → context → outcome value

/-- The function `evaluator::get_precedence`: the precedence of a binary operator, low to high.
Every operator of the enumeration has a case, so the final `throw` is never reached. -/
def get_precedence : binary_operator → Nat
  | .in_edge | .in_edge_subscribe | .out_edge | .out_edge_subscribe => 1
  | .assignment => 2
  | .logical_or => 3
  | .logical_and => 4
  | .greater_than | .greater_equals | .less_than | .less_equals => 5
  | .equals | .not_equals => 6
  | .left_shift | .right_shift => 7
  | .plus | .minus => 8
  | .multiply | .divide | .modulo => 9
  | .match_ | .not_match => 10
  | .in_ => 11

/-- The function `evaluator::is_right_associative`. -/
def is_right_associative (op : binary_operator) : Bool :=
  op == binary_operator.assignment

/-- The six-argument `evaluator::evaluate`: looks the operator up in the table of binary
operators (every operator has an entry) and stores the handler's value in `left`. -/
def evaluate_binary (O : operators) (left : value) (oper : binary_operator) (right : value) :
    context → outcome value :=
  O.binary oper left right

/-- The function `evaluator::is_match`: the match operator for an expected regex, equality
otherwise. -/
def is_match (O : operators) (actual expected : value) (s : context) : outcome Bool :=
  match expected.as_regex with
  | some _ =>
    match actual.as_string with
    | some _ =>
      match O.binary binary_operator.match_ actual expected s with
      | .error e => .error e
      | .ok (r, s1) => .ok (r.is_truthy, s1)
    | none => .ok (false, s)
  | none => .ok (value.equals actual expected, s)

/-! ## Precedence climbing -/

/-- A `binary_expression` of a remainder: the operator and the suspended evaluation of its
operand. -/
structure binary_thunk : Type where
  oper : binary_operator
  operand : thunk

/-- The function `evaluator::climb_expression`.  The iterator `begin` is the list of binary
expressions not yet consumed, `end` is the empty list; the function returns the new `left` and
the new `begin`.  The first argument bounds the number of nested calls and loop iterations and
`none` means that the bound was reached (see `climb_expression_terminates`). -/
def climb_expression (O : operators) :
    Nat → value → Nat → List binary_thunk → context → Option (outcome (value × List binary_thunk))
  | 0, _, _, _, _ => none
  | _ + 1, left, _, [], s => some (.ok ((left, []), s))
  | fuel + 1, left, min_precedence, expression :: rest, s =>
    let precedence := get_precedence expression.oper
    if precedence ≥ min_precedence then
      -- If the operator is a logical and/or operator, attempt short circuiting
      if (expression.oper = binary_operator.logical_and ∧ left.is_truthy = false) ∨
          (expression.oper = binary_operator.logical_or ∧ left.is_truthy = true) then
        some (.ok ((value.boolean (expression.oper == binary_operator.logical_or), []), s))
      else
        -- Evaluate the right side
        match expression.operand s with
        | .error e => some (.error e)
        | .ok (right, s1) =>
          -- Recurse and climb the expression
          let next_precedence := precedence + (if is_right_associative expression.oper then 0 else 1)
          match climb_expression O fuel right next_precedence rest s1 with
          | none => none
          | some (.error e) => some (.error e)
          | some (.ok ((right1, rest1), s2)) =>
            -- Evaluate this part of the expression
            match evaluate_binary O left expression.oper right1 s2 with
            | .error e => some (.error e)
            | .ok (left1, s3) => climb_expression O fuel left1 min_precedence rest1 s3
    else
      some (.ok ((left, expression :: rest), s))

/-- The tail of `evaluator::evaluate(expression const&, bool)`: climbs the whole remainder from
minimum precedence 0 and returns the final `left`.  The bound `remainder.length + 1` is never
reached (`climb_remainder_returns`), so the last case does not occur. -/
def climb_remainder (O : operators) (result : value) (remainder : List binary_thunk)
    (s : context) : outcome value :=
  match climb_expression O (remainder.length + 1) result 0 remainder s with
  | some (.ok ((left, _), s1)) => .ok (left, s1)
  | some (.error e) => .error e
  | none => .error (exception.runtime_error "climb_expression did not return.")

/-! ## Case, if, unless and selector expressions -/

/-- An option of a case proposition or the first expression of a selector case: its suspended
evaluation and whether the expression is a splat (`is_splat()`). -/
structure option_thunk : Type where
  evaluate : thunk
  is_splat : Bool

/-- A proposition of a case expression: its options and the suspended `evaluate_body` of its
body. -/
structure proposition_thunk : Type where
  options : List option_thunk
  body : thunk

/-- The loop `for (auto& element : array)` over an unfolded option: stops at the first element
that matches. -/
def match_elements (O : operators) (actual : value) : List value → context → outcome Bool
  | [], s => .ok (false, s)
  | element :: rest, s =>
    match is_match O actual element s with
    | .error e => .error e
    | .ok (true, s1) => .ok (true, s1)
    | .ok (false, s1) => match_elements O actual rest s1

/-- The test of one evaluated option that is not `default`: a splatted array is unfolded and each
element is tried, then control reaches the match against `option_value` itself, which after
`move_as` holds what the move left behind. -/
def match_option (O : operators) (actual option_value : value) (is_splat : Bool)
    (s : context) : outcome Bool :=
  match option_value.as_array.isSome && is_splat, option_value.move_as_array with
  | true, some (array, moved_from) =>
    match match_elements O actual array s with
    | .error e => .error e
    | .ok (true, s1) => .ok (true, s1)
    | .ok (false, s1) => is_match O actual moved_from s1
  | _, _ => is_match O actual option_value s

/-- The inner loop of the case expression over the options of proposition `i`: returns whether
an option matched, and the default index as it stands. -/
def case_options (O : operators) (result : value) (i : Nat) :
    List option_thunk → Option Nat → context → outcome (Bool × Option Nat)
  | [], default_index, s => .ok ((false, default_index), s)
  | option :: rest, default_index, s =>
    match option.evaluate s with
    | .error e => .error e
    | .ok (option_value, s1) =>
      if option_value.is_default then
        -- Remember where the default is and keep going
        case_options O result i rest (some i) s1
      else
        match match_option O result option_value option.is_splat s1 with
        | .error e => .error e
        | .ok (true, s2) => .ok ((true, default_index), s2)
        | .ok (false, s2) => case_options O result i rest default_index s2

/-- The outer loop of the case expression, at index `i` with `rest` the propositions from `i` on,
followed by the handling of no matching case. -/
def case_propositions (O : operators) (result : value) (propositions : List proposition_thunk) :
    Nat → List proposition_thunk → Option Nat → context → outcome value
  | _, [], default_index, s =>
    match default_index with
    | some d =>
      match propositions.get? d with
      | some proposition => proposition.body s
      | none => .error (exception.runtime_error "default index out of range.")
    | none => .ok (value.undef, s)
  | i, proposition :: rest, default_index, s =>
    match case_options O result i proposition.options default_index s with
    | .error e => .error e
    | .ok ((true, _), s1) => proposition.body s1
    | .ok ((false, d), s1) => case_propositions O result propositions (i + 1) rest d s1

/-- The visitor `evaluator::operator()(case_expression const&)`. -/
def case_expression (O : operators) (conditional : thunk)
    (propositions : List proposition_thunk) : thunk :=
  with_match_scope (fun s =>
    match conditional s with
    | .error e => .error e
    | .ok (result, s1) => case_propositions O result propositions 0 propositions none s1)

/-- An `elsif` of an if expression: the suspended evaluations of its conditional and body. -/
structure elsif_thunk : Type where
  conditional : thunk
  body : thunk

/-- The loop over the `elsifs` of an if expression, followed by the `else` handling. -/
def if_elsifs (else_ : Option thunk) : List elsif_thunk → thunk
  | [], s =>
    match else_ with
    | some body => body s
    | none => .ok (value.undef, s)
  | elsif :: rest, s =>
    match elsif.conditional s with
    | .error e => .error e
    | .ok (c, s1) => if c.is_truthy then elsif.body s1 else if_elsifs else_ rest s1

/-- The visitor `evaluator::operator()(if_expression const&)`. -/
def if_expression (conditional body : thunk) (elsifs : List elsif_thunk)
    (else_ : Option thunk) : thunk :=
  with_match_scope (fun s =>
    match conditional s with
    | .error e => .error e
    | .ok (c, s1) => if c.is_truthy then body s1 else if_elsifs else_ elsifs s1)

/-- The visitor `evaluator::operator()(unless_expression const&)`. -/
def unless_expression (conditional body : thunk) (else_ : Option thunk) : thunk :=
  with_match_scope (fun s =>
    match conditional s with
    | .error e => .error e
    | .ok (c, s1) =>
      if !c.is_truthy then body s1
      else
        match else_ with
        | some else_body => else_body s1
        | none => .ok (value.undef, s1))

/-- A case of a selector expression: `first` is the selector, `second` the result. -/
structure selector_case_thunk : Type where
  first : option_thunk
  second : thunk

/-- The loop of the selector expression over its cases, at index `i` with `rest` the cases from
`i` on, followed by the handling of no matching case. -/
def selector_cases (O : operators) (value_ : value) (cases : List selector_case_thunk) :
    Nat → List selector_case_thunk → Option Nat → context → outcome value
  | _, [], default_index, s =>
    match default_index with
    | none =>
      .error (exception.evaluation_exception "no matching selector case for value '%1%'.")
    | some d =>
      match cases.get? d with
      | some default_case => default_case.second s
      | none => .error (exception.runtime_error "default index out of range.")
  | i, selector_case :: rest, default_index, s =>
    match selector_case.first.evaluate s with
    | .error e => .error e
    | .ok (selector, s1) =>
      if selector.is_default then
        -- Remember where the default case is and keep going
        selector_cases O value_ cases (i + 1) rest (some i) s1
      else
        match match_option O value_ selector selector_case.first.is_splat s1 with
        | .error e => .error e
        | .ok (true, s2) => selector_case.second s2
        | .ok (false, s2) => selector_cases O value_ cases (i + 1) rest default_index s2

/-- The visitor `postfix_visitor::operator()(selector_expression const&)` applied to the current
value `_value`. -/
def selector_expression (O : operators) (value_ : value)
    (cases : List selector_case_thunk) : thunk :=
  with_match_scope (selector_cases O value_ cases 0 cases none)

/-! ## The syntax tree and the tree walk -/

mutual
/-- The node `ast::expression`: a postfix expression followed by binary expressions. -/
inductive expression : Type
  | mk (postfix_ : postfix_expression) (remainder : List binary_expression)
/-- The node `ast::binary_expression`: an operator and its right operand. -/
inductive binary_expression : Type
  | mk (oper : binary_operator) (operand : postfix_expression)
/-- The node `ast::postfix_expression`: a primary expression and its postfix subexpressions. -/
inductive postfix_expression : Type
  | mk (primary : primary_expression) (subexpressions : List postfix_subexpression)
/-- The postfix subexpressions: the selector expression is embedded; access and method call
expressions are evaluated by absent collaborators and stand behind `other`. -/
inductive postfix_subexpression : Type
  | selector_expression (cases : List selector_case)
  | other (tag : Nat)
/-- A case of a selector expression, a pair of expressions. -/
inductive selector_case : Type
  | mk (first : expression) (second : expression)
/-- The alternatives of `ast::primary_expression` whose visitors are embedded; the remaining ones
(hashes, types, function calls, resource, class, collector and EPP expressions) stand behind
`other`. -/
inductive primary_expression : Type
  | undef
  | defaulted
  | boolean (value : Bool)
  | number (value : Int)
  | string (value : String)
  | regex (value : String)
  | variable (name : String)
  | name (value : String)
  | bare_word (value : String)
  | array (elements : List expression)
  | expression (nested : expression)
  | case_expression (conditional : expression) (propositions : List proposition)
  | if_expression (conditional : expression) (body : List expression) (elsifs : List elsif)
      (else_ : Option else_expression)
  | unless_expression (conditional : expression) (body : List expression)
      (else_ : Option else_expression)
  | unary_expression (oper : unary_operator) (operand : postfix_expression)
  | other (tag : Nat)
/-- A proposition of a case expression. -/
inductive proposition : Type
  | mk (options : List expression) (body : List expression)
/-- An `elsif` of an if expression. -/
inductive elsif : Type
  | mk (conditional : expression) (body : List expression)
/-- The `else` of an if or unless expression. -/
inductive else_expression : Type
  | mk (body : List expression)
end

/-- What the tree walk takes from collaborators whose sources are absent: the operator handlers,
the predicates `is_productive` and `is_splat` of the syntax tree, the string interpolator, the
regex compiler (the error text when the pattern is invalid) and the evaluation of the
expressions that are not embedded. -/
structure externals : Type where
  handlers : operators
  is_productive : expression → Bool
  is_splat : expression → Bool
  interpolate : String → thunk
  regex_error : String → Option String
  other_primary : Nat → thunk
  other_postfix : Nat → value → thunk

/-- The conversion `stoi` of a match variable name: the number written by its leading digits. -/
def stoi (name : String) : Nat :=
  ((name.takeWhile Char.isDigit).toNat?).getD 0

/-- The visitor `evaluator::operator()(ast::variable const&)`. -/
def evaluate_variable (name : String) : thunk := fun s =>
  if name.isEmpty then
    .error (exception.evaluation_exception "variable name cannot be empty.")
  else
    let found := if name.front.isDigit then s.lookup_match (stoi name) else s.lookup name
    .ok (value.variable name (found.getD value.undef), s)

mutual
/-- The function `evaluator::evaluate(expression const&, bool)`. -/
def evaluate (X : externals) : expression → Bool → thunk
  | .mk postfix_ remainder, productive => fun s =>
    if productive && !X.is_productive (.mk postfix_ remainder) then
      .error (exception.evaluation_exception
        "unproductive expressions may only appear last in a block.")
    else
      -- Evaluate the postfix expression
      match evaluate_postfix_expression X postfix_ s with
      | .error e => .error e
      | .ok (result, s1) =>
        -- Climb the remainder of the expression
        climb_remainder X.handlers result (remainder_thunks X remainder) s1
/-- The operands of a remainder, suspended. -/
def remainder_thunks (X : externals) : List binary_expression → List binary_thunk
  | [] => []
  | .mk oper operand :: rest => ⟨oper, evaluate_postfix_expression X operand⟩ :: remainder_thunks X rest
/-- The function `postfix_evaluator::evaluate`: the primary expression, then each subexpression
applied to the current value. -/
def evaluate_postfix_expression (X : externals) : postfix_expression → thunk
  | .mk primary subexpressions => fun s =>
    match evaluate_primary X primary s with
    | .error e => .error e
    | .ok (v, s1) => apply_subexpressions X subexpressions v s1
/-- The loop of the `postfix_visitor` constructor over the subexpressions. -/
def apply_subexpressions (X : externals) : List postfix_subexpression → value → thunk
  | [], v => fun s => .ok (v, s)
  | .selector_expression cases :: rest, v => fun s =>
    match selector_expression X.handlers v (selector_case_thunks X cases) s with
    | .error e => .error e
    | .ok (v1, s1) => apply_subexpressions X rest v1 s1
  | .other tag :: rest, v => fun s =>
    match X.other_postfix tag v s with
    | .error e => .error e
    | .ok (v1, s1) => apply_subexpressions X rest v1 s1
/-- The cases of a selector expression, suspended. -/
def selector_case_thunks (X : externals) : List selector_case → List selector_case_thunk
  | [] => []
  | .mk first second :: rest =>
    ⟨⟨evaluate X first false, X.is_splat first⟩, evaluate X second false⟩ ::
      selector_case_thunks X rest
/-- The function `evaluator::evaluate(primary_expression const&)` with the visitors it
dispatches to. -/
def evaluate_primary (X : externals) : primary_expression → thunk
  | .undef => fun s => .ok (value.undef, s)
  | .defaulted => fun s => .ok (value.defaulted, s)
  | .boolean b => fun s => .ok (value.boolean b, s)
  | .number i => fun s => .ok (value.integer i, s)
  | .string text => X.interpolate text
  | .regex pattern => fun s =>
    match X.regex_error pattern with
    | some _ => .error (exception.evaluation_exception "invalid regular expression: %1%")
    | none => .ok (value.regex pattern, s)
  | .variable name => evaluate_variable name
  | .name text => fun s => .ok (value.string text, s)
  | .bare_word text => fun s => .ok (value.string text, s)
  | .array elements => evaluate_elements X elements []
  | .expression nested => evaluate X nested false
  | .case_expression conditional propositions =>
    case_expression X.handlers (evaluate X conditional false) (proposition_thunks X propositions)
  | .if_expression conditional body elsifs else_ =>
    if_expression (evaluate X conditional false) (evaluate_body X body value.undef)
      (elsif_thunks X elsifs) (else_thunk X else_)
  | .unless_expression conditional body else_ =>
    unless_expression (evaluate X conditional false) (evaluate_body X body value.undef)
      (else_thunk X else_)
  | .unary_expression oper operand => fun s =>
    match evaluate_postfix_expression X operand s with
    | .error e => .error e
    | .ok (v, s1) => X.handlers.unary oper v s1
  | .other tag => X.other_primary tag
/-- The loop of `evaluator::operator()(ast::array const&)`: a splatted element that is an array
is unfolded, any other element is appended. -/
def evaluate_elements (X : externals) : List expression → List value → thunk
  | [], array => fun s => .ok (value.array array, s)
  | element :: rest, array => fun s =>
    match evaluate X element false s with
    | .error e => .error e
    | .ok (result, s1) =>
      match X.is_splat element && result.as_array.isSome, result.move_as_array with
      | true, some (unfolded, _) => evaluate_elements X rest (array ++ unfolded) s1
      | _, _ => evaluate_elements X rest (array ++ [result]) s1
/-- The function `evaluator::evaluate_body`: every expression but the last must be productive;
the value of the last expression is returned, `undef` for an empty body. -/
def evaluate_body (X : externals) : List expression → value → thunk
  | [], result => fun s => .ok (result, s)
  | expression :: rest, _ => fun s =>
    match evaluate X expression (!rest.isEmpty) s with
    | .error e => .error e
    | .ok (result, s1) => evaluate_body X rest result s1
/-- The propositions of a case expression, suspended. -/
def proposition_thunks (X : externals) : List proposition → List proposition_thunk
  | [] => []
  | .mk options body :: rest =>
    ⟨option_thunks X options, evaluate_body X body value.undef⟩ :: proposition_thunks X rest
/-- The options of a proposition, suspended. -/
def option_thunks (X : externals) : List expression → List option_thunk
  | [] => []
  | option :: rest => ⟨evaluate X option false, X.is_splat option⟩ :: option_thunks X rest
/-- The `elsif`s of an if expression, suspended. -/
def elsif_thunks (X : externals) : List elsif → List elsif_thunk
  | [] => []
  | .mk conditional body :: rest =>
    ⟨evaluate X conditional false, evaluate_body X body value.undef⟩ :: elsif_thunks X rest
/-- The `else` of an if or unless expression, suspended. -/
def else_thunk (X : externals) : Option else_expression → Option thunk
  | none => none
  | some (.mk body) => some (evaluate_body X body value.undef)
end

/-! ## The evaluation of a syntax tree -/

/-- The part of `ast::syntax_tree` that `evaluate` reads: the names of the parameters, when the
tree has parameters, and the statements. -/
structure syntax_tree : Type where
  parameters : Option (List String)
  statements : List expression

/-- The members that `evaluate(syntax_tree const&, hash*)` calls and whose sources are absent:
the creation of the local scope and its destruction when the function is left, and the call
evaluator that populates the arguments of the tree into the scope. -/
structure tree_collaborators : Type where
  create_local_scope : context → context
  leave_local_scope : context → context
  populate : List String → List (value × value) → context → outcome Unit

/-- The loop `for (auto& statement : tree.statements)`: all top-level statements must be
productive. -/
def evaluate_statements (X : externals) : List expression → context → outcome Unit
  | [], s => .ok ((), s)
  | statement :: rest, s =>
    match evaluate X statement true s with
    | .error e => .error e
    | .ok (_, s1) => evaluate_statements X rest s1

/-- The function `evaluator::evaluate(syntax_tree const&, hash*)`. -/
def evaluate_tree (X : externals) (T : tree_collaborators) (tree : syntax_tree)
    (arguments : Option (List (value × value))) : context → outcome Unit := fun s =>
  match tree.parameters with
  | some parameters =>
    -- Create an ephemeral scope for evaluation
    -- "call" an empty function to populate the arguments into the scope
    match T.populate parameters (arguments.getD []) (T.create_local_scope s) with
    | .error e => .error e
    | .ok (_, s1) =>
      -- Evaluate the statements
      match evaluate_statements X tree.statements s1 with
      | .error e => .error e
      | .ok (_, s2) => .ok ((), T.leave_local_scope s2)
  | none =>
    -- Evaluate the statements
    evaluate_statements X tree.statements s

/-! ## Operator handlers and syntax predicates described by the specification -/

/-- The value of a 64-bit signed integer computation: the result reduced modulo `2^64` into
`[-2^63, 2^63)`. -/
def to_int64 (i : Int) : Int :=
  (i + 2 ^ 63) % 2 ^ 64 - 2 ^ 63

/-- Modelled from the spec: `scope::set` behind the assignment operator (`assignment.cc`,
`scope.cc` are absent).  The left operand must be a variable; binding a name that is already
bound in the scope fails with a redefinition error; the value of the expression is the variable
with its new value. -/
def operators.assignment (left right : value) (s : context) : outcome value :=
  match left with
  | .variable name _ =>
    match s.lookup name with
    | some _ =>
      .error (exception.evaluation_exception
        "cannot assign to $%1%: variable was previously assigned.")
    | none =>
      .ok (value.variable name right.dereference,
        { s with scope := s.scope ++ [(name, right.dereference)] })
  | _ =>
    .error (exception.evaluation_exception
      "cannot assign to %1%: assignment can only be performed on variables.")

/-- Modelled from the spec: the arithmetic operators `+`, `-`, `*`, `/` on two integers
(`plus.cc`, `minus.cc`, `multiply.cc`, `divide.cc` are absent): integer operands give an integer
result, and division by zero is an evaluation error. -/
def operators.arithmetic (oper : binary_operator) (left right : value) (s : context) : outcome value :=
  match left.dereference, right.dereference with
  | .integer a, .integer b =>
    match oper with
    | .plus => .ok (value.integer (to_int64 (a + b)), s)
    | .minus => .ok (value.integer (to_int64 (a - b)), s)
    | .multiply => .ok (value.integer (to_int64 (a * b)), s)
    | _ =>
      if b = 0 then .error (exception.evaluation_exception "cannot divide by zero.")
      else .ok (value.integer (to_int64 (Int.tdiv a b)), s)
  | .integer _, _ =>
    .error (exception.evaluation_exception "expected %1% for arithmetic but found %2%.")
  | _, _ =>
    .error (exception.evaluation_exception "expected %1% for arithmetic but found %2%.")

/-- Modelled from the spec: the operator handlers the scenarios of the specification use
(their sources are absent); the other binary operators and `negate` are those of `rest`.
`logical_not` is the handler of `logical_not.cc`; splat is `to_array`. -/
def spec_operators (rest : operators) : operators where
  binary := fun oper left right s =>
    match oper with
    | .assignment => operators.assignment left right s
    | .plus | .minus | .multiply | .divide => operators.arithmetic oper left right s
    | .logical_and => .ok (value.boolean (left.is_truthy && right.is_truthy), s)
    | .logical_or => .ok (value.boolean (left.is_truthy || right.is_truthy), s)
    | .equals => .ok (value.boolean (value.equals left right), s)
    | .not_equals => .ok (value.boolean (!value.equals left right), s)
    | _ => rest.binary oper left right s
  unary := fun oper operand s =>
    match oper with
    | .logical_not => .ok (value.boolean (!operand.is_truthy), s)
    | .splat =>
      match operand.as_array with
      | some elements => .ok (value.array elements, s)
      | none => .ok (value.array [operand.dereference], s)
    | .negate => rest.unary oper operand s

/-- Modelled from the spec: `expression::is_splat` (`ast.cc` is absent), whether the expression
is an application of the unary splat operator. -/
def is_splat : expression → Bool
  | .mk (.mk (.unary_expression .splat _) []) [] => true
  | _ => false

/-- Modelled from the spec: the collaborators of the tree walk for programs whose strings hold
no interpolation and whose regexes compile; everything else is taken from `rest`. -/
def spec_externals (rest : externals) : externals where
  handlers := spec_operators rest.handlers
  is_productive := rest.is_productive
  is_splat := is_splat
  interpolate := fun text s => .ok (value.string text, s)
  regex_error := fun _ => none
  other_primary := rest.other_primary
  other_postfix := rest.other_postfix

/-! ## Building syntax trees -/

/-- A postfix expression without subexpressions. -/
def primary (p : primary_expression) : postfix_expression := .mk p []

/-- An expression that is a single primary expression. -/
def atom (p : primary_expression) : expression := .mk (primary p) []

/-- The expression `first op₁ x₁ op₂ x₂ ...` with primary operands. -/
def chain (first : primary_expression) (remainder : List (binary_operator × primary_expression)) :
    expression :=
  .mk (primary first) (remainder.map (fun b => .mk b.1 (primary b.2)))

/-- The option `*[1]`: the splat operator applied to the array literal `[1]`. -/
def splat_of_one : expression :=
  atom (.unary_expression .splat (primary (.array [atom (.number 1)])))

/-- The expression `case [] { *[1]: { 'hit' } }`. -/
def case_of_empty_array : expression :=
  atom (.case_expression (atom (.array [])) [.mk [splat_of_one] [atom (.string "hit")]])

/-- The expression `[] ? { *[1] => 'hit' }`. -/
def selector_of_empty_array : expression :=
  .mk (.mk (.array []) [.selector_expression [.mk splat_of_one (atom (.string "hit"))]]) []

/-- The empty evaluation context: no variable is bound and no match scope is open. -/
def empty_context : context := ⟨[], []⟩

/-- Operator handlers that know no operator: every request fails the way the operator tables
fail for an operator without an entry. -/
def no_operators : operators where
  binary := fun _ _ _ _ =>
    .error (exception.evaluation_exception "unspported binary operator '%1%' in binary expression.")
  unary := fun _ _ _ =>
    .error (exception.evaluation_exception "unspported unary operator '%1%'.")

/-- Collaborators for programs that use nothing beyond the embedded expressions. -/
def no_externals : externals where
  handlers := no_operators
  is_productive := fun _ => true
  is_splat := is_splat
  interpolate := fun text s => .ok (value.string text, s)
  regex_error := fun _ => none
  other_primary := fun _ _ => .error (exception.evaluation_exception "unsupported expression.")
  other_postfix := fun _ _ _ => .error (exception.evaluation_exception "unsupported expression.")

/-- The range of a 64-bit signed integer. -/
def is_int64 (i : Int) : Prop := -2 ^ 63 ≤ i ∧ i < 2 ^ 63

/-! ## Resources, the catalog and the evaluation state -/

/-- Modelled from the spec: `as<values::type>()` of `value.hpp` (absent), the type held by the
value, if any. -/
def value.as_type (v : value) : Option values.type :=
  match v.dereference with
  | .type t => some t
  | _ => none

/-- The output operator of `types::resource`: `Resource` for an empty type name, the type name
alone for an empty title, otherwise `Name[title]`. -/
def types.resource.display (r : types.resource) : String :=
  if r.type_name.isEmpty then "Resource"
  else if r.title.isEmpty then r.type_name
  else r.type_name ++ "[" ++ r.title ++ "]"

/-- The table of built-in type names in `resource::is_builtin`. -/
def types.builtin_types : List String :=
  ["Augeas", "Class", "Computer", "Cron", "Exec", "File", "Filebucket", "Group", "Host",
   "Interface", "5klogin", "Macauthorization", "Mailalias", "Maillist", "Mcx", "Mount",
   "Nagios_command", "Nagios_contact", "Nagios_contactgroup", "Nagios_host",
   "Nagios_hostdependency", "Nagios_hostescalation", "Nagios_hostextinfo", "Nagios_hostgroup",
   "Nagios_service", "Nagios_servicedependency", "Nagios_serviceescalation",
   "Nagios_serviceextinfo", "Nagios_servicegroup", "Nagios_timeperiod", "Node", "Notify",
   "Package", "Resources", "Router", "Schedule", "Scheduled_task", "Selboolean", "Selmodule",
   "Service", "Ssh_authorized_key", "Sshkey", "Stage", "Tidy", "User", "Vlan", "Yumrepo", "Zfs",
   "Zone", "Zpool"]

/-- The member `resource::is_builtin`. -/
def types.resource.is_builtin (r : types.resource) : Bool :=
  types.builtin_types.contains r.type_name

/-- The part of an `ast::context` that a diagnostic reports: the path of the file and the
line. -/
structure location : Type where
  path : String
  line : Nat
  deriving DecidableEq, Repr

/-- The operators of `ast::attribute_operator`: `=>` and `+>`. -/
inductive attribute_operator : Type
  | assignment | append
  deriving DecidableEq, Repr

/-- The declaration forms of `ast::resource_status`: bare, `@` and `@@`. -/
inductive resource_status : Type
  | realized | virtualized | exported
  deriving DecidableEq, Repr

/-- A `compiler::attribute`: its name and its value (the AST contexts are left out). -/
structure attribute_ : Type where
  name : String
  value : value
  deriving Repr

/-- The list `compiler::attributes`: pairs of an attribute operator and an attribute. -/
abbrev attributes : Type := List (attribute_operator × attribute_)

/-- A `compiler::resource`: its type, its container, the context of its declaration, the
virtual and exported flags and its attributes in the order they were first set. -/
structure resource : Type where
  type : types.resource
  container : Option types.resource
  context : location
  virtual : Bool
  exported : Bool
  attributes : List attribute_
  deriving Repr

/-- Modelled from the spec: `resource::set` (`resource.cc` is absent), on an ordered attribute
map: an attribute of the same name is replaced in place, a new one is appended. -/
def resource.set (r : resource) (a : attribute_) : resource :=
  { r with attributes :=
      if r.attributes.any (fun b => b.name == a.name) then
        r.attributes.map (fun b => if b.name == a.name then a else b)
      else r.attributes ++ [a] }

/-- The resources of a `compiler::catalog` in declaration order. -/
abbrev catalog : Type := List resource

/-- Modelled from the spec: `catalog::find` (`catalog.cc` is absent), the resource of that
type and title or none. -/
def catalog.find (c : catalog) (t : types.resource) : Option resource :=
  List.find? (fun r => r.type == t) c

/-- Modelled from the spec: `catalog::add(type, container, context, virtual, exported)`
inserts a new resource and returns none on a duplicate. -/
def catalog.add (c : catalog) (t : types.resource) (container : Option types.resource)
    (context : location) (virtual exported : Bool) : Option catalog :=
  match catalog.find c t with
  | some _ => none
  | none => some (c ++ [⟨t, container, context, virtual, exported, []⟩])

/-- A write through the pointer that `catalog::add` returned: the resource of that type is
replaced by its image. -/
def catalog.modify (c : catalog) (t : types.resource) (f : resource → resource) : catalog :=
  List.map (fun r => if r.type == t then f r else r) c

/-- A `resource_override` of `context.hpp`: the overridden type, the context of the expression
and the attributes (the scope is left out). -/
structure resource_override : Type where
  type : types.resource
  context : location
  attributes : attributes

/-- The evaluation context together with the catalog it is bound to: the scopes and match stack
of `context`, the catalog, the queue of resource overrides, the queue of declared defined types
(resource and name of the definition), the attributes handed to collectors and the stack of EPP
output streams (innermost first, each with the values written so far). -/
structure evaluation_state : Type where
  scopes : context
  catalog : catalog
  overrides : List resource_override
  defined_types : List (types.resource × String)
  collector_attributes : List (Nat × attributes)
  epp_streams : List (List value)

/-- The completion of a step that works on the catalog: a value, or a thrown exception, each
with the state at that point (what was added to the catalog before a throw stays added). -/
inductive completion (α : Type) : Type
  | ok (a : α) (st : evaluation_state)
  | thrown (e : exception) (st : evaluation_state)

/-- A suspended evaluation that may read and write the whole evaluation state. -/
abbrev run (α : Type) : Type := evaluation_state → completion α

/-- A suspended evaluation of the tree walk, seen as one on the whole evaluation state. -/
def lift (t : thunk) : run value := fun st =>
  match t st.scopes with
  | .ok (v, c) => .ok v { st with scopes := c }
  | .error e => .thrown e st

/-- The members of the evaluation context and of `types::klass` that the resource expressions
call and whose sources are absent: `klass::normalize`, `context::find_defined_type` (the name of
the definition), the resource of the current scope, `context::evaluate_overrides` and
`context::declare_class`. -/
structure collaborators : Type where
  normalize : String → String
  find_defined_type : String → evaluation_state → Option String
  current_resource : evaluation_state → Option types.resource
  evaluate_overrides : types.resource → run Unit
  declare_class : String → location → run Unit

/-- A `resource_body` of a resource expression: whether its title is syntactically `default`
(`body.title.is_default()`), the suspended evaluation of its title, the suspended
`evaluate_attributes(is_class, body.attributes)` and its context. -/
structure resource_body_thunk : Type where
  title_is_default : Bool
  title : run value
  attributes : Bool → run attributes
  context : location

/-- The function `evaluator::find_default_body`, started with `default_body = nullptr`. -/
def find_default_body :
    List resource_body_thunk → Option resource_body_thunk →
      Except exception (Option resource_body_thunk)
  | [], default_body => .ok default_body
  | body :: rest, default_body =>
    if !body.title_is_default then find_default_body rest default_body
    else
      match default_body with
      | some _ =>
        .error (exception.evaluation_exception
          "only one default body is supported in a resource expression.")
      | none => find_default_body rest (some body)

/-- The function `evaluator::set_attributes` on the resource of type `target` in the catalog. -/
def set_attributes (target : types.resource) : attributes → run Unit
  | [], st => .ok () st
  | (oper, attr) :: rest, st =>
    -- Only support assignment
    if oper ≠ attribute_operator.assignment then
      .thrown (exception.evaluation_exception
        "illegal attribute operation '%1%': only '%2%' is supported in a resource expression.") st
    else
      set_attributes target rest
        { st with catalog := catalog.modify st.catalog target (fun r => r.set attr) }

mutual
/-- Modelled from the spec: `move_as<std::string>(callback)` of `value.hpp` (absent), for a
title that is a string or an array of titles: the strings the callback is called with, in
order, and whether the whole value was made of strings. -/
def title_strings : value → List String × Bool
  | .string s => ([s], true)
  | .array elements => title_strings_list elements
  | .variable _ v => title_strings v
  | _ => ([], false)
/-- The strings of the elements of an array title, up to the first element that is neither a
string nor an array. -/
def title_strings_list : List value → List String × Bool
  | [] => ([], true)
  | element :: rest =>
    match title_strings element with
    | (strings, true) =>
      match title_strings_list rest with
      | (more, complete) => (strings ++ more, complete)
    | (strings, false) => (strings, false)
end

/-- The flags `is_virtual` and `is_exported` that `create_resources` computes from the status
of the expression. -/
def resource_flags (status : resource_status) : Bool × Bool :=
  let is_exported := status == resource_status.exported
  let is_virtual := is_exported || status == resource_status.virtualized
  (is_virtual, is_exported)

/-- What `create_resources` fixes before its loop: the definition of a defined type (none for a
class or a built-in type), the container and the two flags. -/
structure creation : Type where
  is_class : Bool
  type_name : String
  definition : Option String
  container : Option types.resource
  is_virtual : Bool
  is_exported : Bool

/-- The callback of `create_resources`, called with each title: adds the resource to the
catalog and sets its attributes.  Both constructions of the resource type take the title by
`rvalue_cast`, so the second one, on a duplicate, reads the string the first one has emptied. -/
def declare_resource (K : collaborators) (c : creation) (body_context : location)
    (defaults body_attributes : attributes) (resource_title : String)
    (resources : List (types.resource × location)) : run (List (types.resource × location)) :=
  fun st =>
  if resource_title.isEmpty then
    .thrown (exception.evaluation_exception "resource title cannot be empty.") st
  else
    -- Format the title based on the Class type.
    let resource_title := if c.is_class then K.normalize resource_title else resource_title
    let type := types.resource.make c.type_name resource_title
    let moved_from_title := ""
    -- Add the resource to the catalog
    match catalog.add st.catalog type c.container body_context c.is_virtual c.is_exported with
    | none =>
      match catalog.find st.catalog (types.resource.make c.type_name moved_from_title) with
      | none => .thrown (exception.runtime_error "expected previous resource.") st
      | some previous =>
        .thrown (exception.evaluation_exception
          ("resource " ++ previous.type.display ++ " was previously declared at " ++
            previous.context.path ++ ":" ++ toString previous.context.line ++ ".")) st
    | some added =>
      -- Set the default attributes
      match set_attributes type defaults { st with catalog := added } with
      | .thrown e st1 => .thrown e st1
      | .ok _ st1 =>
        -- Set the resource's attributes
        match set_attributes type body_attributes st1 with
        | .thrown e st2 => .thrown e st2
        | .ok _ st2 =>
          -- Add the declared defined type
          let st3 :=
            match c.definition with
            | some definition =>
              { st2 with defined_types := st2.defined_types ++ [(type, definition)] }
            | none => st2
          -- Evaluate any existing overrides for this resource now
          match K.evaluate_overrides type st3 with
          | .thrown e st4 => .thrown e st4
          | .ok _ st4 => .ok (resources ++ [(type, body_context)]) st4

/-- The calls of the callback for the strings of one title, in order. -/
def declare_resources (K : collaborators) (c : creation) (body_context : location)
    (defaults body_attributes : attributes) :
    List String → List (types.resource × location) → run (List (types.resource × location))
  | [], resources, st => .ok resources st
  | resource_title :: rest, resources, st =>
    match declare_resource K c body_context defaults body_attributes resource_title resources st with
    | .thrown e st1 => .thrown e st1
    | .ok resources1 st1 =>
      declare_resources K c body_context defaults body_attributes rest resources1 st1

/-- The loop of `create_resources` over the bodies of the expression. -/
def create_bodies (K : collaborators) (c : creation) (defaults : attributes) :
    List resource_body_thunk → List (types.resource × location) →
      run (List (types.resource × location))
  | [], resources, st => .ok resources st
  | body :: rest, resources, st =>
    match body.title st with
    | .thrown e st1 => .thrown e st1
    | .ok title st1 =>
      -- If the default title, ignore (we've already evaluated the default attributes)
      if title.is_default then create_bodies K c defaults rest resources st1
      else
        -- Evaluate the attributes
        match body.attributes c.is_class st1 with
        | .thrown e st2 => .thrown e st2
        | .ok body_attributes st2 =>
          -- Add each resource to the catalog
          match declare_resources K c body.context defaults body_attributes
              (title_strings title).1 resources st2 with
          | .thrown e st3 => .thrown e st3
          | .ok resources1 st3 =>
            if (title_strings title).2 then create_bodies K c defaults rest resources1 st3
            else
              .thrown (exception.evaluation_exception
                "expected %1% or an array of %1% for resource title.") st3

/-- The function `evaluator::create_resources`. -/
def create_resources (K : collaborators) (is_class : Bool) (type_name : String)
    (status : resource_status) (bodies : List resource_body_thunk) (defaults : attributes) :
    run (List (types.resource × location)) := fun st =>
  -- Lookup a defined type if not a built-in or class
  let lookup : Except exception (Option String) :=
    if !is_class && !(types.resource.make type_name "").is_builtin then
      match K.find_defined_type type_name st with
      | some definition => .ok (some definition)
      | none => .error (exception.evaluation_exception "type '%1%' has not been defined.")
    else .ok none
  match lookup with
  | .error e => .thrown e st
  | .ok definition =>
    -- If a class, don't set a container; one will be associated when the class is declared
    let container := if is_class then none else K.current_resource st
    create_bodies K
      ⟨is_class, type_name, definition, container, (resource_flags status).1,
        (resource_flags status).2⟩
      defaults bodies [] st

/-- The loop that declares the classes of the created resources. -/
def declare_classes (K : collaborators) : List (types.resource × location) → run Unit
  | [], st => .ok () st
  | (type, context) :: rest, st =>
    match K.declare_class type.title context st with
    | .thrown e st1 => .thrown e st1
    | .ok _ st1 => declare_classes K rest st1

/-- The type name and the `is_class` flag that the resource expression reads off the value of
its type: a string, or a `Resource` type without a title; the name stays empty otherwise. -/
def resource_type_name (type_value : value) : String × Bool :=
  match type_value.as_string with
  | some type_name => (type_name, type_name == "class")
  | none =>
    match type_value.as_type with
    | some (.resource r) => if r.title.isEmpty then (r.type_name, r.is_class) else ("", false)
    | _ => ("", false)

/-- The visitor `evaluator::operator()(resource_expression const&)`. -/
def resource_expression (K : collaborators) (type : run value) (status : resource_status)
    (bodies : List resource_body_thunk) : run value := fun st =>
  -- Evaluate the type name
  match type st with
  | .thrown e st1 => .thrown e st1
  | .ok type_value st1 =>
    let type_name := (resource_type_name type_value).1
    let is_class := (resource_type_name type_value).2
    -- Ensure there was a valid type name
    if type_name.isEmpty then
      .thrown (exception.evaluation_exception
        "expected %1% or qualified %2% for resource type but found %3%.") st1
    else if is_class && status == resource_status.virtualized then
      .thrown (exception.evaluation_exception "classes cannot be virtual resources.") st1
    else if is_class && status == resource_status.exported then
      .thrown (exception.evaluation_exception "classes cannot be exported resources.") st1
    else
      -- Get the default body attributes
      match find_default_body bodies none with
      | .error e => .thrown e st1
      | .ok default_body =>
        let default_attributes : completion attributes :=
          match default_body with
          | some body => body.attributes is_class st1
          | none => .ok [] st1
        match default_attributes with
        | .thrown e st2 => .thrown e st2
        | .ok defaults st2 =>
          -- Create the resources in the expression
          match create_resources K is_class type_name status bodies defaults st2 with
          | .thrown e st3 => .thrown e st3
          | .ok resources st3 =>
            -- Declare classes now
            let declared : completion Unit :=
              if is_class then declare_classes K resources st3 else .ok () st3
            match declared with
            | .thrown e st4 => .thrown e st4
            | .ok _ st4 =>
              -- Return an array of the resource types
              .ok (value.array (resources.map (fun r => value.type (.resource r.1)))) st4

/-- The lambda `to_resource_type` of the resource override expression: `Class` types and
resource types named `Class` are refused, other types that are not resource types as well. -/
def to_resource_type : values.type → Except exception types.resource
  | .klass _ =>
    .error (exception.evaluation_exception "cannot override attributes of a class resource.")
  | .resource r =>
    if r.is_class then
      .error (exception.evaluation_exception "cannot override attributes of a class resource.")
    else .ok r
  | _ => .error (exception.evaluation_exception "expected qualified %1% but found %2%.")

/-- Modelled from the spec: `context::add(resource_override)` (`context.cc` is absent): the
override is queued, and the overrides of its target are evaluated at once when the target is
already in the catalog. -/
def add_override (K : collaborators) (override : resource_override) : run Unit := fun st =>
  let st1 := { st with overrides := st.overrides ++ [override] }
  match catalog.find st1.catalog override.type with
  | some _ => K.evaluate_overrides override.type st1
  | none => .ok () st1

/-- The loop of the resource override expression over the elements of an array reference. -/
def override_elements (K : collaborators) (context : location) (attrs : attributes) :
    List value → run Unit
  | [], st => .ok () st
  | element :: rest, st =>
    match element.as_type with
    | some type =>
      match to_resource_type type with
      | .error e => .thrown e st
      | .ok target =>
        if !target.fully_qualified then
          .thrown (exception.evaluation_exception
            "resource defaults expressions are not yet implemented.") st
        else
          match add_override K ⟨target, context, attrs⟩ st with
          | .thrown e st1 => .thrown e st1
          | .ok _ st1 => override_elements K context attrs rest st1
    | none =>
      .thrown (exception.evaluation_exception
        "expected qualified %1% for array element but found %2%.") st

/-- The visitor `evaluator::operator()(resource_override_expression const&)`: `reference` and
`attrs` are the suspended evaluations of the reference and of
`evaluate_attributes(false, expression.attributes)`. -/
def resource_override_expression (K : collaborators) (reference : run value)
    (attrs : run attributes) (context : location) : run value := fun st =>
  -- Evaluate the resource reference
  match reference st with
  | .thrown e st1 => .thrown e st1
  | .ok reference_value st1 =>
    -- Evaluate the attributes
    match attrs st1 with
    | .thrown e st2 => .thrown e st2
    | .ok evaluated st2 =>
      match reference_value.as_array with
      | some elements =>
        match override_elements K context evaluated elements st2 with
        | .thrown e st3 => .thrown e st3
        | .ok _ st3 => .ok reference_value st3
      | none =>
        match reference_value.as_type with
        | some (.runtime (some (.collector id))) =>
          -- The value is a collector; set the attributes
          .ok reference_value
            { st2 with collector_attributes :=
                st2.collector_attributes.filter (fun entry => entry.1 != id) ++ [(id, evaluated)] }
        | some type =>
          match to_resource_type type with
          | .error e => .thrown e st2
          | .ok target =>
            if !target.fully_qualified then
              .thrown (exception.evaluation_exception
                "resource defaults expressions are not yet implemented.") st2
            else
              match add_override K ⟨target, context, evaluated⟩ st2 with
              | .thrown e st3 => .thrown e st3
              | .ok _ st3 => .ok reference_value st3
        | none =>
          .thrown (exception.evaluation_exception
            "expected qualified %1% for resource reference but found %2%.") st2

/-! ## EPP render expressions -/

/-- Modelled from the spec: `context::epp_write` (declared in `context.hpp`, defined in the
absent `context.cc`): the value is written to the current stream; the result is false when
there is no stream to write to. -/
def epp_write (v : value) (st : evaluation_state) : Bool × evaluation_state :=
  match st.epp_streams with
  | [] => (false, st)
  | stream :: outer => (true, { st with epp_streams := (stream ++ [v]) :: outer })

/-- The visitor `evaluator::operator()(epp_render_expression const&)`. -/
def epp_render_expression (expression : run value) : run value := fun st =>
  match expression st with
  | .thrown e st1 => .thrown e st1
  | .ok v st1 =>
    if !(epp_write v st1).1 then
      .thrown (exception.evaluation_exception "EPP expressions are not supported.")
        (epp_write v st1).2
    else .ok value.undef (epp_write v st1).2

/-- The visitor `evaluator::operator()(epp_render_block const&)`: `block` is the suspended
`evaluate_body(expression.block)`. -/
def epp_render_block (block : run value) : run value := fun st =>
  match block st with
  | .thrown e st1 => .thrown e st1
  | .ok v st1 =>
    if !(epp_write v st1).1 then
      .thrown (exception.evaluation_exception "EPP expressions are not supported.")
        (epp_write v st1).2
    else .ok value.undef (epp_write v st1).2

/-- The visitor `evaluator::operator()(epp_render_string const&)`. -/
def epp_render_string (text : String) : run value := fun st =>
  if !(epp_write (value.string text) st).1 then
    .thrown (exception.evaluation_exception "EPP expressions are not supported.")
      (epp_write (value.string text) st).2
  else .ok value.undef (epp_write (value.string text) st).2

/-! ## The right shift operator -/

/-- The negation of a 64-bit signed integer, reduced modulo `2^64`. -/
def negate64 (a : Int) : Int :=
  to_int64 (-a)

/-- The left shift `a << count` of a 64-bit signed integer, reduced modulo `2^64`. -/
def shift_left64 (a count : Int) : Int :=
  to_int64 (a * 2 ^ count.toNat)

/-- The right shift `a >> count` of a 64-bit signed integer: the arithmetic shift, that is the
quotient rounded down. -/
def shift_right64 (a count : Int) : Int :=
  a / 2 ^ count.toNat

/-- The member `right_shift_visitor::operator()(int64_t, int64_t)` of `right_shift.cc`. -/
def right_shift_integers (left right : Int) : Int :=
  -- If right < 0. reverse direction
  -- If left is negative, keep the sign bit
  if right < 0 ∧ left < 0 then negate64 (shift_left64 (negate64 left) (negate64 right))
  else if right < 0 then shift_left64 left (negate64 right)
  else if left < 0 then negate64 (shift_right64 (negate64 left) right)
  else shift_right64 left right

/-- The empty evaluation state: an empty catalog, no queued work, no EPP stream. -/
def empty_state : evaluation_state :=
  ⟨empty_context, [], [], [], [], []⟩

/-- Collaborators for a context without defined types and without queued overrides: class
titles are kept as they are, and declaring a class has no effect on the catalog. -/
def plain_collaborators : collaborators where
  normalize := fun title => title
  find_defined_type := fun _ _ => none
  current_resource := fun _ => none
  evaluate_overrides := fun _ st => .ok () st
  declare_class := fun _ _ st => .ok () st

/-- The suspended evaluation of an expression that yields `v` and leaves the state alone. -/
def yield {α : Type} (v : α) : run α := fun st => .ok v st

/-! ## Notions used to state the properties of the resource expressions -/

/-- The state in which a step ended, normally or by a throw. -/
def completion.state {α : Type} : completion α → evaluation_state
  | .ok _ st => st
  | .thrown _ st => st

/-- The resource after `resource::set` was called with each attribute of the list, in order. -/
def resource.set_all (r : resource) (attrs : puppet.attributes) : resource :=
  attrs.foldl (fun r p => r.set p.2) r

/-- The catalog after each attribute of the list, in order, was set on the resource of type
`target`. -/
def catalog.set_all (c : catalog) (target : types.resource) (attrs : attributes) : catalog :=
  attrs.foldl (fun c p => catalog.modify c target (fun r => r.set p.2)) c

/-- Every attribute of the list is written with the operator `=>`. -/
def all_assignment (attrs : attributes) : Prop :=
  ∀ p ∈ attrs, p.1 = attribute_operator.assignment

/-- The step keeps the property `P` of the state, whether it returns or throws. -/
def preserves {α : Type} (P : evaluation_state → Prop) (step : run α) : Prop :=
  ∀ st, P st → P (step st).state

/-- Every resource of the catalog that was not declared in `old` carries the flags that the
declaration form `status` stands for. -/
def created_with_flags (old : catalog) (status : resource_status)
    (st : evaluation_state) : Prop :=
  ∀ r ∈ st.catalog, (∃ r0 ∈ old, r0.type = r.type) ∨
    (r.virtual = (resource_flags status).1 ∧ r.exported = (resource_flags status).2)

/-- The type is a `Class` type or a resource type whose type name is `Class`. -/
def is_class_reference (t : values.type) : Prop :=
  (∃ title, t = values.type.klass title) ∨ (∃ r, t = values.type.resource r ∧ r.is_class = true)

/-- The resource that `create_resources` leaves in the catalog for a fresh title: added with
the container and flags fixed before the loop, then given the attributes of the list in
order. -/
def new_resource (c : creation) (body_context : location) (type : types.resource)
    (attrs : attributes) : resource :=
  (⟨type, c.container, body_context, c.is_virtual, c.is_exported, []⟩ : resource).set_all attrs

/-- The entries of the queue of declared defined types for the resources of the given titles. -/
def declared_for (c : creation) (titles : List String) : List (types.resource × String) :=
  match c.definition with
  | some definition => titles.map (fun t => (types.resource.make c.type_name t, definition))
  | none => []

/-- The title under which the callback of `create_resources` adds a resource: the title of a
class is normalised first. -/
def effective_title (K : collaborators) (is_class : Bool) (title : String) : String :=
  if is_class then K.normalize title else title

/-- What `create_resources` fixes before its loop when the type is a class, a built-in type or
a defined type. -/
def creation_of (K : collaborators) (is_class : Bool) (type_name : String)
    (status : resource_status) (st : evaluation_state) : creation :=
  ⟨is_class, type_name,
    if is_class || (types.resource.make type_name "").is_builtin then none
    else K.find_defined_type type_name st,
    if is_class then none else K.current_resource st,
    (resource_flags status).1, (resource_flags status).2⟩

/-- A resource body whose title and attributes are given values, declared at line `line` of
`site.pp`. -/
def literal_body (title : value) (attrs : attributes) (line : Nat) : resource_body_thunk :=
  ⟨title.is_default, yield title, fun _ => yield attrs, ⟨"site.pp", line⟩⟩

/-- The bodies of
`notify { default: loglevel => 'info', message => 'd'; ['x', 'y']: message => 'hi'; 'z': }`. -/
def notify_bodies : List resource_body_thunk :=
  [literal_body value.defaulted
     [(.assignment, ⟨"loglevel", value.string "info"⟩),
      (.assignment, ⟨"message", value.string "d"⟩)] 1,
   literal_body (value.array [value.string "x", value.string "y"])
     [(.assignment, ⟨"message", value.string "hi"⟩)] 2,
   literal_body (value.string "z") [] 3]

/-- The resource `Notify[title]` declared bare at line `line` of `site.pp`, outside any
container. -/
def notify (title : String) (line : Nat) (attrs : List attribute_) : resource :=
  ⟨⟨"Notify", title⟩, none, ⟨"site.pp", line⟩, false, false, attrs⟩

/-- The end of the resource expression, after `create_resources`: the classes of the created
resources are declared and the array of the created types is returned. -/
def return_created (K : collaborators) (is_class : Bool) :
    completion (List (types.resource × location)) → completion value
  | .thrown e st => .thrown e st
  | .ok resources st =>
    match (if is_class then declare_classes K resources st else .ok () st) with
    | .thrown e st1 => .thrown e st1
    | .ok _ st1 => .ok (value.array (resources.map (fun r => value.type (.resource r.1)))) st1

/-- An evaluation that renders the string `mark` to the EPP stream before it yields `v`: the
stream then tells in which order such evaluations took place. -/
def after_rendering {α : Type} (mark : String) (v : α) : run α := fun st =>
  match epp_render_string mark st with
  | .thrown e st1 => .thrown e st1
  | .ok _ st1 => .ok v st1

/-- The bodies of `notify { 'x': message => 'm'; default: message => 'd', loglevel => 'info' }`
where the evaluation of each title and of each list of attributes leaves a mark. -/
def marked_bodies : List resource_body_thunk :=
  [⟨false, after_rendering "title of x" (value.string "x"),
     fun _ => after_rendering "attributes of x" [(.assignment, ⟨"message", value.string "m"⟩)],
     ⟨"site.pp", 1⟩⟩,
   ⟨true, after_rendering "title of default" value.defaulted,
     fun _ => after_rendering "attributes of default"
       [(.assignment, ⟨"message", value.string "d"⟩),
        (.assignment, ⟨"loglevel", value.string "info"⟩)],
     ⟨"site.pp", 2⟩⟩]

/-! ## The operator handlers of `right_shift.cc` and `logical_not.cc` -/

/-- The part of `binary_operator_context` the handlers read: the two operands, each with the
AST context of its expression. -/
structure binary_operator_context : Type where
  left : value
  left_context : location
  right : value
  right_context : location

/-- The part of `unary_operator_context` the handlers read: the operand and the AST context of
its expression. -/
structure unary_operator_context : Type where
  operand : value
  operand_context : location

/-- An exception together with the AST context it was constructed with, which is what the
diagnostic cites. -/
structure located_exception : Type where
  error : exception
  context : location
  deriving DecidableEq, Repr

/-- Modelled from the spec: `as<int64_t>()` of `value.hpp` (absent), the integer held by the
value, if any. -/
def value.as_integer (v : value) : Option Int :=
  match v.dereference with
  | .integer i => some i
  | _ => none

/-- The visitor `right_shift_visitor` of `right_shift.cc`, applied to the alternatives held by
the two operands: the overload for two integers, the overload for an integer on the left and
anything else on the right, and the overload for everything else. -/
def right_shift_visitor (c : binary_operator_context) :
    value → value → Except located_exception value
  | .integer left, .integer right => .ok (value.integer (right_shift_integers left right))
  | .integer _, _ =>
    .error ⟨exception.evaluation_exception
      "expected %1% for bitwise right shift but found %2%.", c.right_context⟩
  | _, _ =>
    .error ⟨exception.evaluation_exception
      "expected %1% for bitwise right shift but found %2%.", c.left_context⟩

/-- The operator `right_shift::operator()`: the visitor is applied to the two operands.
The application of a visitor to a value is in `value.hpp`, which is absent; as every accessor
of a value it is taken to look through variables. -/
def right_shift (c : binary_operator_context) : Except located_exception value :=
  right_shift_visitor c c.left.dereference c.right.dereference

/-- The operator `logical_not::operator()` of `logical_not.cc`. -/
def logical_not (c : unary_operator_context) : value :=
  value.boolean (!c.operand.is_truthy)

/-! ## The types `Resource`, `Any`, `Boolean` and `Undef` -/

/-- The member `resource::is_instance`. -/
def types.resource.is_instance (self : types.resource) (v : value) : Bool :=
  -- Check for type
  match v.as_type with
  | none => false
  | some t =>
    -- Check for resource type
    match t with
    | .resource r =>
      -- If no type, the given value is a 'resource'
      if self.type_name.isEmpty then true
      -- Check type name
      else if self.type_name != r.type_name then false
      else self.title.isEmpty || self.title == r.title
    | _ => false

/-- The member `resource::is_specialization`. -/
def types.resource.is_specialization (self : types.resource) (other : values.type) : Bool :=
  -- Check that the other Resource is specialized
  match other with
  | .resource r =>
    -- If this resource has no type name, the other is specialized if it does have one
    if self.type_name.isEmpty then !r.type_name.isEmpty
    -- Otherwise, the types need to be the same
    else if self.type_name != r.type_name then false
    -- Otherwise, the other one is a specialization if this does not have a title but the
    -- other one does
    else self.title.isEmpty && !r.title.isEmpty
  | _ => false

/-- The member `any::is_instance` of `any.cc`: all values are an instance of `Any`. -/
def types.any.is_instance (_ : value) : Bool := true

/-- The member `any::is_specialization` of `any.cc`: all types except for `Any` are
specializations of `Any`. -/
def types.any.is_specialization (other : values.type) : Bool :=
  match other with
  | .any => false
  | _ => true

/-- Modelled from the spec: `as<bool>()` of `value.hpp` (absent), the boolean held by the
value, if any. -/
def value.as_boolean (v : value) : Option Bool :=
  match v.dereference with
  | .boolean b => some b
  | _ => none

/-- The member `boolean::is_instance` of `boolean.cc`: whether the value holds a boolean (the
pointer returned by `as<bool>()` is not null). -/
def types.boolean.is_instance (v : value) : Bool := v.as_boolean.isSome

/-- The member `boolean::is_specialization` of `boolean.cc`: no specializations for
`Boolean`. -/
def types.boolean.is_specialization (_ : values.type) : Bool := false

/-- The member `undef::is_instance` of `undef.cc`. -/
def types.undef.is_instance (v : value) : Bool := v.is_undef

/-- The member `undef::is_specialization` of `undef.cc`: no specializations of `Undef`. -/
def types.undef.is_specialization (_ : values.type) : Bool := false

/-- The member `is_instance` of the alternative a `values::type` holds, for the alternatives
whose sources are embedded above; `rest` stands for the members of the other alternatives. -/
def values.type.is_instance (rest : values.type → value → Bool) :
    values.type → value → Bool
  | .any, v => types.any.is_instance v
  | .boolean, v => types.boolean.is_instance v
  | .undef, v => types.undef.is_instance v
  | .resource r, v => r.is_instance v
  | t, v => rest t v

/-- The member `is_specialization` of the alternative a `values::type` holds, for the
alternatives whose sources are embedded above; `rest` stands for the members of the other
alternatives. -/
def values.type.is_specialization (rest : values.type → values.type → Bool) :
    values.type → values.type → Bool
  | .any, u => types.any.is_specialization u
  | .boolean, u => types.boolean.is_specialization u
  | .undef, u => types.undef.is_specialization u
  | .resource r, u => r.is_specialization u
  | t, u => rest t u

/-! ## Parsing a resource type specification -/

/-- The character class `[A-Z]` of the specification pattern. -/
def types.is_upper_letter (c : Char) : Bool := c.isUpper

/-- The character class `\w` of the specification pattern: letters, digits and the
underscore. -/
def types.is_word_character (c : Char) : Bool := c.isAlphanum || c == '_'

/-- The characters `boost::trim` removes: the space and the control characters from the
horizontal tab to the carriage return. -/
def types.is_space (c : Char) : Bool := c == ' ' || (9 ≤ c.toNat && c.toNat ≤ 13)

/-- Whether the characters match `(?:(?:::)?[A-Z]\w*)+`, the first group of the pattern in
`resource::parse`.  The flag tells whether a first repetition was read: from then on `\w*` may
take further characters, and the name may end. -/
def types.match_type_name : Bool → List Char → Bool
  | started, [] => started
  | _, ':' :: ':' :: c :: rest => types.is_upper_letter c && types.match_type_name true rest
  | true, c :: rest => types.is_word_character c && types.match_type_name true rest
  | false, c :: rest => types.is_upper_letter c && types.match_type_name true rest

/-- The call of `regex_match` with `^((?:(?:::)?[A-Z]\w*)+)\[([^\]]+)\]$` in `resource::parse`:
the two groups, when the whole specification matches.  The first group cannot hold a `[`, so
it ends at the first `[`; the second group cannot hold a `]`, so it is what stands between
that `[` and the `]` that ends the specification, and it is not empty.  The theorem
`match_specification_iff` compares the matcher with the pattern. -/
def types.match_specification (specification : List Char) : Option (List Char × List Char) :=
  let name := specification.takeWhile (fun c => c != '[')
  match specification.dropWhile (fun c => c != '[') with
  | '[' :: rest =>
    if types.match_type_name false name && rest.getLast? == some ']' &&
        !rest.dropLast.isEmpty && rest.dropLast.all (fun c => c != ']') then
      some (name, rest.dropLast)
    else none
  | _ => none

/-- The call `boost::trim(title)`: white space is removed at both ends. -/
def types.trim (title : List Char) : List Char :=
  ((title.dropWhile types.is_space).reverse.dropWhile types.is_space).reverse

/-- The quotes are stripped from the title when it starts and ends with the same quote, double
or single: `title.substr(1, title.size() - 2)`, which is empty for a title of one quote. -/
def types.strip_quotes (title : List Char) : List Char :=
  if (title.head? == some (Char.ofNat 34) && title.getLast? == some (Char.ofNat 34)) ||
      (title.head? == some (Char.ofNat 39) && title.getLast? == some (Char.ofNat 39)) then
    (title.drop 1).dropLast
  else title

/-- The function `resource::parse`. -/
def types.resource.parse (specification : String) : Option types.resource :=
  match types.match_specification specification.data with
  | none => none
  | some (name, title) =>
    -- Strip quotes if present in the title
    some (types.resource.make (String.mk name) (String.mk (types.strip_quotes (types.trim title))))

/-! ## The function `map` -/

/-- Modelled from the spec: `integer::each` (`integer.cc` is absent), from its declaration in
`integer.hpp`: the structure represents the type `Integer[from, to]`, whose instances are the
integers from `from` to `to`, both included, and `each` calls the callback for each integer in
the range.  The pairs of index and value it hands to the callback, in order: the values go
from `from` up to `to` and the index counts from 0; a range with `to` below `from` has no
integer. -/
def types.integer.each (range : types.integer) : List (Int × Int) :=
  if range.to_ < range.from_ then []
  else
    (List.range ((range.to_ - range.from_).toNat + 1)).map
      (fun i : Nat => ((i : Int), range.from_ + (i : Int)))

/-- The part of `ast::lambda` that `map` reads: the names of the parameters and the AST
context. -/
structure lambda_expression : Type where
  parameters : List String
  context : location

/-- The part of `function_call_context` that `map` reads: the name of the function, the
arguments, the lambda if one was given, and `yield`, which calls the lambda with the given
arguments. -/
structure function_call_context : Type where
  name : String
  arguments : List value
  lambda : Option lambda_expression
  yield : List value → run value

/-- The members of `map_visitor`: the call context and the number of parameters of the
lambda. -/
structure map_visitor : Type where
  context : function_call_context
  lambda_parameter_count : Nat

namespace map_visitor

/-- The loop in `map_visitor::enumerate`: `pairs` are the calls of the callback still to come,
`result` is the array built so far. -/
def enumerate_loop (V : map_visitor) : List (Int × Int) → List value → run value
  | [], result => fun st => .ok (value.array result) st
  | (index, v) :: pairs, result => fun st =>
    let arguments :=
      if V.lambda_parameter_count = 1 then [value.integer v]
      else [value.integer index, value.integer v]
    match V.context.yield arguments st with
    | .thrown e st1 => .thrown e st1
    | .ok yielded st1 => enumerate_loop V pairs (result ++ [yielded]) st1

/-- The member `map_visitor::enumerate`. -/
def enumerate (V : map_visitor) (range : types.integer) : run value :=
  V.enumerate_loop range.each []

/-- The overload `map_visitor::operator()(int64_t)`. -/
def integer (V : map_visitor) (argument : Int) : run value :=
  if argument ≤ 0 then fun st => .ok (value.array []) st
  else V.enumerate ⟨0, argument⟩

/-- The loop of `map_visitor::operator()(values::array const&)`: `i` is the index of the next
element, `elements` are the elements from there on, `result` is the array built so far. -/
def array_loop (V : map_visitor) : Nat → List value → List value → run value
  | _, [], result => fun st => .ok (value.array result) st
  | i, element :: elements, result => fun st =>
    let arguments :=
      if V.lambda_parameter_count = 1 then [element]
      else [value.integer (i : Int), element]
    match V.context.yield arguments st with
    | .thrown e st1 => .thrown e st1
    | .ok yielded st1 => array_loop V (i + 1) elements (result ++ [yielded]) st1

/-- The overload `map_visitor::operator()(values::array const&)`. -/
def array (V : map_visitor) (argument : List value) : run value :=
  V.array_loop 0 argument []

/-- The loop of `map_visitor::operator()(values::hash const&)`: `entries` are the entries
still to come, in the order of iteration of the hash, `result` is the array built so far. -/
def hash_loop (V : map_visitor) : List (value × value) → List value → run value
  | [], result => fun st => .ok (value.array result) st
  | (key, v) :: entries, result => fun st =>
    let arguments :=
      if V.lambda_parameter_count = 1 then [value.array [key, v]]
      else [key, v]
    match V.context.yield arguments st with
    | .thrown e st1 => .thrown e st1
    | .ok yielded st1 => hash_loop V entries (result ++ [yielded]) st1

/-- The overload `map_visitor::operator()(values::hash const&)`. -/
def hash (V : map_visitor) (argument : List (value × value)) : run value :=
  V.hash_loop argument []

end map_visitor

/-! ## The attributes of a resource body -/

/-- Modelled from the spec: `as<values::hash>()` of `value.hpp` (absent), the entries of the
hash held by the value, if any. -/
def value.as_hash (v : value) : Option (List (value × value)) :=
  match v.dereference with
  | .hash entries => some entries
  | _ => none

/-- Modelled from the spec: `to_array(false)` of `value.hpp` (absent): an array is returned as
it is, any other value is wrapped in an array of one element. -/
def value.to_array (v : value) : value :=
  match v.as_array with
  | some elements => value.array elements
  | none => value.array [v]

/-- The types `validate_attribute` checks the metaparameters against. -/
inductive metaparameter_type : Type
  | string_array | audit | relationship | loglevel | boolean | string
  deriving DecidableEq, Repr

/-- The member `is_instance` of the type of a metaparameter: that of `Boolean` is embedded,
`rest` stands for the others, whose sources are absent. -/
def metaparameter_type.is_instance (rest : metaparameter_type → value → Bool) :
    metaparameter_type → value → Bool
  | .boolean, v => types.boolean.is_instance v
  | t, v => rest t v

/-- The part of `ast::attribute` that the evaluator reads: the name, the operator and the
suspended evaluation of the value. -/
structure attribute_expression : Type where
  name : String
  oper : attribute_operator
  value : run value

/-- The function `evaluator::validate_attribute`: it returns the value as the function leaves
it (a metaparameter that takes an array is wrapped in one) or throws. -/
def validate_attribute (rest : metaparameter_type → value → Bool) (name : String)
    (v : value) : Except exception value :=
  -- Ignore undef attributes
  if v.is_undef then .ok v
  else
    -- Perform metaparameter checks
    let wrapped := if v.as_array.isSome then v else v.to_array
    let checked : Option metaparameter_type × value :=
      if name = "alias" then (some .string_array, wrapped)
      else if name = "audit" then (some .audit, v)
      else if name = "before" ∨ name = "notify" ∨ name = "require" ∨ name = "subscribe" then
        (some .relationship, wrapped)
      else if name = "loglevel" then (some .loglevel, v)
      else if name = "noop" then (some .boolean, v)
      else if name = "schedule" then (some .string, v)
      else if name = "stage" then (some .string, v)
      else if name = "tag" then (some .string_array, wrapped)
      else (none, v)
    -- Validate the type of the parameter
    match checked.1 with
    | some type =>
      if !type.is_instance rest checked.2 then
        .error (exception.evaluation_exception
          "expected %1% for attribute '%2%' but found %3%.")
      else .ok checked.2
    | none => .ok checked.2

/-- The loop of `evaluator::splat_attribute` over the entries of the hash: `attrs` is the list
of attributes and `names` the set of names, as they stand. -/
def splat_entries (rest : metaparameter_type → value → Bool) (oper : attribute_operator) :
    List (value × value) → attributes → List String →
      Except exception (attributes × List String)
  | [], attrs, names => .ok (attrs, names)
  | (key, v) :: entries, attrs, names =>
    match key.as_string with
    | none =>
      .error (exception.evaluation_exception
        "expected all keys in hash to be %1% but found %2%.")
    | some name =>
      if names.contains name then
        .error (exception.evaluation_exception "attribute '%1%' already exists in the list.")
      else
        -- Validate the attribute value
        match validate_attribute rest name v with
        | .error e => .error e
        -- Add the attribute to the list
        | .ok validated =>
          splat_entries rest oper entries (attrs ++ [(oper, ⟨name, validated⟩)])
            (names ++ [name])

/-- The function `evaluator::splat_attribute`. -/
def splat_attribute (rest : metaparameter_type → value → Bool)
    (expression : attribute_expression) (attrs : attributes) (names : List String) :
    run (attributes × List String) := fun st =>
  -- Evaluate what must be a hash
  match expression.value st with
  | .thrown e st1 => .thrown e st1
  | .ok v st1 =>
    match v.as_hash with
    | none => .thrown (exception.evaluation_exception "expected a %1% but found %2%.") st1
    | some hash =>
      -- Set each element of the hash as an attribute
      match splat_entries rest expression.oper hash attrs names with
      | .error e => .thrown e st1
      | .ok r => .ok r st1

/-- The loop of `evaluator::evaluate_attributes`: `attrs` is the list of attributes and
`names` the set of names, as they stand. -/
def evaluate_attributes_loop (rest : metaparameter_type → value → Bool) (is_class : Bool) :
    List attribute_expression → attributes → List String → run attributes
  | [], attrs, _ => fun st => .ok attrs st
  | expression :: expressions, attrs, names => fun st =>
    -- Check for setting the title via an attribute
    if expression.name = "title" then
      .thrown (exception.evaluation_exception "title is not a valid parameter name.") st
    -- Splat the attribute if named '*'
    else if expression.name = "*" then
      match splat_attribute rest expression attrs names st with
      | .thrown e st1 => .thrown e st1
      | .ok r st1 => evaluate_attributes_loop rest is_class expressions r.1 r.2 st1
    -- Check for the "stage" attribute for non-classes
    else if !is_class && expression.name = "stage" then
      .thrown (exception.evaluation_exception "attribute 'stage' is only valid for classes.")
        st
    else if names.contains expression.name then
      .thrown (exception.evaluation_exception "attribute '%1%' already exists in the list.")
        st
    else
      -- Evaluate and validate the attribute value
      match expression.value st with
      | .thrown e st1 => .thrown e st1
      | .ok v st1 =>
        match validate_attribute rest expression.name v with
        | .error e => .thrown e st1
        -- Add an attribute to the list
        | .ok validated =>
          evaluate_attributes_loop rest is_class expressions
            (attrs ++ [(expression.oper, ⟨expression.name, validated⟩)])
            (names ++ [expression.name]) st1

/-- The function `evaluator::evaluate_attributes`. -/
def evaluate_attributes (rest : metaparameter_type → value → Bool) (is_class : Bool)
    (expressions : List attribute_expression) : run attributes :=
  evaluate_attributes_loop rest is_class expressions [] []

/-! ## The function `map`: the call and the remaining overloads -/

/-- The members of the runtime library that `map` calls and whose sources are absent:
`values::enumerate_string` (the strings it hands to the callback, in order) and
`integer::enumerable`. -/
structure enumeration : Type where
  enumerate_string : String → List String
  enumerable : types.integer → Bool

namespace map_visitor

/-- The callback of `map_visitor::operator()(string const&)`, called for each string that
`enumerate_string` hands to it: `i` is the index of the next string, which only a lambda of
two parameters advances, `result` is the array built so far. -/
def string_loop (V : map_visitor) : Int → List String → List value → run value
  | _, [], result => fun st => .ok (value.array result) st
  | i, codepoint :: codepoints, result => fun st =>
    let arguments :=
      if V.lambda_parameter_count = 1 then [value.string codepoint]
      else [value.integer i, value.string codepoint]
    match V.context.yield arguments st with
    | .thrown e st1 => .thrown e st1
    | .ok yielded st1 =>
      string_loop V (if V.lambda_parameter_count = 1 then i else i + 1) codepoints
        (result ++ [yielded]) st1

/-- The overload `map_visitor::operator()(string const&)`. -/
def string (V : map_visitor) (E : enumeration) (argument : String) : run value :=
  V.string_loop 0 (E.enumerate_string argument) []

/-- The overload `map_visitor::operator()(types::integer const&)`. -/
def integer_type (V : map_visitor) (E : enumeration) (argument : types.integer) : run value :=
  if !E.enumerable argument then
    fun st => .thrown (exception.evaluation_exception "%1% is not enumerable.") st
  else V.enumerate argument

/-- The overload `template <typename T> map_visitor::operator()(T const&)`, which takes every
alternative without an overload of its own. -/
def not_enumerable : run value := fun st =>
  .thrown (exception.evaluation_exception
    "expected enumerable type for first argument but found %1%.") st

/-- The overload `map_visitor::operator()(values::type const&)`: the visitor is applied to the
alternative that the type holds. -/
def type (V : map_visitor) (E : enumeration) : values.type → run value
  | .integer range => V.integer_type E range
  | _ => not_enumerable

/-- The visitor applied to a value, `boost::apply_visitor(map_visitor(context), value)`: the
overload of the alternative the value holds, looking through variables. -/
def apply (V : map_visitor) (E : enumeration) (argument : value) : run value :=
  match argument.dereference with
  | .string text => V.string E text
  | .integer i => V.integer i
  | .array elements => V.array elements
  | .hash entries => V.hash entries
  | .type t => V.type E t
  | _ => not_enumerable

end map_visitor

/-- The function `map::operator()`. -/
def map (E : enumeration) (c : function_call_context) : run value := fun st =>
  -- Check the argument count
  match c.arguments with
  | [argument] =>
    -- Check the lambda
    match c.lambda with
    | none =>
      .thrown (exception.evaluation_exception
        "expected a lambda to '%1%' function but one was not given.") st
    | some lambda =>
      if lambda.parameters.length = 0 ∨ lambda.parameters.length > 2 then
        .thrown (exception.evaluation_exception
          "expected 1 or 2 lambda parameters but %1% were given.") st
      else map_visitor.apply ⟨c, lambda.parameters.length⟩ E argument st
  | _ =>
    .thrown (exception.evaluation_exception
      "expected 1 argument to '%1%' function but %2% were given.") st

/-! ## The list collector -/

/-- The member `_list` of `list_collector`: the types of the resources still to collect, each
with the AST context of its reference. -/
structure list_collector : Type where
  list : List (types.resource × location)

namespace list_collector

/-- The member `list_collector::detect_uncollected`.  The message is the text of the source
with the first uncollected resource type written in place of `%1%`. -/
def detect_uncollected (c : list_collector) : Except located_exception Unit :=
  match c.list with
  | [] => .ok ()
  | front :: _ =>
    -- Throw an exception for the first uncollected resource
    .error ⟨exception.evaluation_exception
      ("resource " ++ front.1.display ++ " does not exist in the catalog."), front.2⟩

/-- The loop of `list_collector::collect`: `kept` are the entries the iterator has passed,
`remaining` the entries from the iterator on.  It returns the list as the loop leaves it, by
its end or by an exception of `collect_resource`, and the completion.  The member
`collector::collect_resource` is absent and taken as a parameter. -/
def collect_loop (collect_resource : resource → run Unit) :
    List (types.resource × location) → List (types.resource × location) →
      evaluation_state → list_collector × completion Unit
  | kept, [], st => (⟨kept⟩, .ok () st)
  | kept, entry :: remaining, st =>
    match catalog.find st.catalog entry.1 with
    | none => collect_loop collect_resource (kept ++ [entry]) remaining st
    | some found =>
      -- Collect the resource
      match collect_resource found st with
      | .thrown e st1 => (⟨kept ++ entry :: remaining⟩, .thrown e st1)
      -- Remove from the list
      | .ok _ st1 => collect_loop collect_resource kept remaining st1

/-- The member `list_collector::collect`. -/
def collect (collect_resource : resource → run Unit) (c : list_collector) :
    evaluation_state → list_collector × completion Unit :=
  collect_loop collect_resource [] c.list

end list_collector

/-! ## Notions used to state the properties of the types and of `map` -/

/-- The segments of a name: it is split at every `::`, from the left. -/
def types.split_segments : List Char → List (List Char)
  | [] => [[]]
  | ':' :: ':' :: rest => [] :: types.split_segments rest
  | c :: rest =>
    match types.split_segments rest with
    | [] => [[c]]
    | segment :: segments => (c :: segment) :: segments

/-- The segments joined again, with `::` between them. -/
def types.join_segments : List (List Char) → List Char
  | [] => []
  | [segment] => segment
  | segment :: segments => segment ++ ':' :: ':' :: types.join_segments segments

/-- A segment with its first character in upper case. -/
def types.capitalize : List Char → List Char
  | [] => []
  | c :: rest => c.toUpper :: rest

/-- The canonical form of a type name as the specification words it: the name in lower case,
with the first character of every `::`-separated segment in upper case. -/
def types.canonical_by_specification (name : String) : String :=
  String.mk (types.join_segments
    ((types.split_segments (name.data.map Char.toLower)).map types.capitalize))

/-- Two names differ only in the case of their letters. -/
def types.same_up_to_case (a b : String) : Prop :=
  a.data.map Char.toLower = b.data.map Char.toLower

/-- The constructs of the pattern in `resource::parse`: a character class, literal text, one
pattern after another, `?`, `+` and `*`. -/
inductive pattern : Type
  | one (allowed : Char → Bool)
  | text (characters : List Char)
  | sequence (first second : pattern)
  | optional (inner : pattern)
  | many (inner : pattern)
  | any_number (inner : pattern)

/-- The characters that a pattern accepts as a whole. -/
inductive pattern.accepts : pattern → List Char → Prop
  | one {allowed : Char → Bool} {c : Char} : allowed c = true → accepts (.one allowed) [c]
  | text {characters : List Char} : accepts (.text characters) characters
  | sequence {p q : pattern} {x y : List Char} :
    accepts p x → accepts q y → accepts (.sequence p q) (x ++ y)
  | absent {p : pattern} : accepts (.optional p) []
  | present {p : pattern} {x : List Char} : accepts p x → accepts (.optional p) x
  | zero {p : pattern} : accepts (.any_number p) []
  | more {p : pattern} {x y : List Char} :
    accepts p x → accepts (.any_number p) y → accepts (.any_number p) (x ++ y)
  | many {p : pattern} {x y : List Char} :
    accepts p x → accepts (.any_number p) y → accepts (.many p) (x ++ y)

/-- One repetition of the name pattern, `(?:::)?[A-Z]\w*`. -/
def types.segment_pattern : pattern :=
  .sequence (.optional (.text [':', ':']))
    (.sequence (.one types.is_upper_letter) (.any_number (.one types.is_word_character)))

/-- The first group of the pattern in `resource::parse`, `(?:(?:::)?[A-Z]\w*)+`. -/
def types.name_pattern : pattern := .many types.segment_pattern

/-- The second group of the pattern in `resource::parse`, `[^\]]+`. -/
def types.title_pattern : pattern := .many (.one (fun c => c != ']'))

/-- The pattern of `resource::parse`, `^((?:(?:::)?[A-Z]\w*)+)\[([^\]]+)\]$`, which
`regex_match` matches against the whole specification. -/
def types.specification_pattern : pattern :=
  .sequence types.name_pattern
    (.sequence (.text ['[']) (.sequence types.title_pattern (.text [']'])))

/-- The function `f` is called once with each list of arguments, in the order of the list, each
call in the state the call before it left; the results are collected in the same order.  An
exception thrown by a call ends the calls. -/
def call_in_order (f : List value → run value) : List (List value) → run (List value)
  | [] => fun st => .ok [] st
  | arguments :: rest => fun st =>
    match f arguments st with
    | .thrown e st1 => .thrown e st1
    | .ok v st1 =>
      match call_in_order f rest st1 with
      | .thrown e st2 => .thrown e st2
      | .ok vs st2 => .ok (v :: vs) st2

/-- The completion with a function applied to its result. -/
def completion.map {α β : Type} (g : α → β) : completion α → completion β
  | .ok a st => .ok (g a) st
  | .thrown e st => .thrown e st

/-- A lambda that renders its arguments to the EPP stream, which then tells with what and in
which order it was called, and returns them as an array. -/
def recording_lambda (arguments : List value) : run value := fun st =>
  match epp_render_expression (yield (value.array arguments)) st with
  | .thrown e st1 => .thrown e st1
  | .ok _ st1 => .ok (value.array arguments) st1

/-- The visitor of a call of `map` with the recording lambda, taken to have `count`
parameters. -/
def recording_visitor (count : Nat) : map_visitor :=
  ⟨⟨"map", [], some ⟨List.replicate count "x", ⟨"site.pp", 1⟩⟩, recording_lambda⟩, count⟩

/-- Whether `map` takes the value as its first argument: a string, an integer, an array, a
hash or an enumerable Integer type. -/
def is_enumerable_argument (E : enumeration) (argument : value) : Bool :=
  match argument.dereference with
  | .string _ => true
  | .integer _ => true
  | .array _ => true
  | .hash _ => true
  | .type (.integer range) => E.enumerable range
  | _ => false

/-- The function `collect_resource` neither adds a resource to the catalog nor removes one:
after a call that returns, the catalog finds a resource of a type exactly when it did
before. -/
def keeps_resources (collect_resource : resource → run Unit) : Prop :=
  ∀ (r : resource) (st st1 : evaluation_state), collect_resource r st = .ok () st1 →
    ∀ t : types.resource, (catalog.find st1.catalog t).isSome = (catalog.find st.catalog t).isSome

/-- The function `collect_resource` is called once for each entry, in the order of the list,
with the resource the catalog then holds for the entry, each call in the state the call before
it left.  An exception thrown by a call ends the calls. -/
def collect_in_order (collect_resource : resource → run Unit) :
    List (types.resource × location) → run Unit
  | [] => fun st => .ok () st
  | entry :: rest => fun st =>
    match catalog.find st.catalog entry.1 with
    | none => collect_in_order collect_resource rest st
    | some found =>
      match collect_resource found st with
      | .thrown e st1 => .thrown e st1
      | .ok _ st1 => collect_in_order collect_resource rest st1

/-- A `collect_resource` that realizes the resource: the virtual flag is cleared. -/
def realize (found : resource) : run Unit := fun st =>
  let realized := catalog.modify st.catalog found.type (fun r => ⟨r.type, r.container,
    r.context, false, r.exported, r.attributes⟩)
  .ok () { st with catalog := realized }

/-- The collector of `File['/b']` and `File['/a']`, in that order. -/
def pending_files : list_collector :=
  ⟨[(types.resource.make "file" "/b", ⟨"site.pp", 1⟩),
    (types.resource.make "file" "/a", ⟨"site.pp", 2⟩)]⟩

/-- The state whose catalog holds the virtual resource `File['/a']` and nothing else. -/
def virtual_file_state : evaluation_state :=
  { empty_state with
    catalog := [⟨types.resource.make "file" "/a", none, ⟨"site.pp", 5⟩, true, false, []⟩] }

/-- The state whose catalog holds the realized resource `File['/a']` and nothing else. -/
def realized_file_state : evaluation_state :=
  { empty_state with
    catalog := [⟨types.resource.make "file" "/a", none, ⟨"site.pp", 5⟩, false, false, []⟩] }

/-- The members of the runtime library for the witnesses: a string is enumerated character by
character and every Integer type is enumerable. -/
def plain_enumeration : enumeration :=
  ⟨fun text => text.data.map (fun c => String.mk [c]), fun _ => true⟩

/-- A call of `map` with the recording lambda, the given arguments and the given parameters
of the lambda. -/
def recording_call (arguments : List value) (parameters : List String) :
    function_call_context :=
  ⟨"map", arguments, some ⟨parameters, ⟨"site.pp", 1⟩⟩, recording_lambda⟩

/-- A call of `map` with the given arguments and a lambda of one parameter that returns its
argument list as an array. -/
def echo_call (arguments : List value) : function_call_context :=
  ⟨"map", arguments, some ⟨["x"], ⟨"site.pp", 1⟩⟩, fun a => yield (value.array a)⟩

/-- The names of the attributes of a list. -/
def attribute_names (attrs : attributes) : List String := attrs.map (fun a => a.2.name)

/-! ## Notions used to state the properties of the control expressions -/

/-- Collaborators for the witnesses of productivity: an expression with a binary operator
(an assignment, say) counts as productive, an expression without one does not. -/
def statement_externals : externals :=
  { spec_externals no_externals with
    is_productive := fun e => match e with
      | .mk _ [] => false
      | .mk _ _ => true }


/-- The conditions of the branches are evaluated in order, starting in context `s`; each
yields a falsy value, and the last leaves the context `t`. -/
inductive falsy_run : List elsif_thunk → context → context → Prop
  | nil (s : context) : falsy_run [] s s
  | cons (branch : elsif_thunk) (rest : List elsif_thunk) (c : value) (s s1 t : context) :
      branch.conditional s = .ok (c, s1) → c.is_truthy = false → falsy_run rest s1 t →
      falsy_run (branch :: rest) s t

/-- The function `climb_expression` together with a record of the operators it applies: for
each call of the six-argument `evaluate`, in the order of the calls, the number of binary
expressions that stand after the applied one in the remainder, which tells the applied
expression. -/
def climb_expression_trace (O : operators) :
    Nat → value → Nat → List binary_thunk → context →
      Option (outcome (value × List binary_thunk) × List Nat)
  | 0, _, _, _, _ => none
  | _ + 1, left, _, [], s => some (.ok ((left, []), s), [])
  | fuel + 1, left, min_precedence, expression :: rest, s =>
    let precedence := get_precedence expression.oper
    if precedence ≥ min_precedence then
      if (expression.oper = binary_operator.logical_and ∧ left.is_truthy = false) ∨
          (expression.oper = binary_operator.logical_or ∧ left.is_truthy = true) then
        some (.ok ((value.boolean (expression.oper == binary_operator.logical_or), []), s), [])
      else
        match expression.operand s with
        | .error e => some (.error e, [])
        | .ok (right, s1) =>
          let next_precedence := precedence + (if is_right_associative expression.oper then 0 else 1)
          match climb_expression_trace O fuel right next_precedence rest s1 with
          | none => none
          | some (.error e, applied) => some (.error e, applied)
          | some (.ok ((right1, rest1), s2), applied) =>
            match evaluate_binary O left expression.oper right1 s2 with
            | .error e => some (.error e, applied ++ [rest.length])
            | .ok (left1, s3) =>
              match climb_expression_trace O fuel left1 min_precedence rest1 s3 with
              | none => none
              | some (r, applied1) => some (r, applied ++ rest.length :: applied1)
    else
      some (.ok ((left, expression :: rest), s), [])

/-- Operator handlers that return their right operand and never fail. -/
def right_operand_operators : operators where
  binary := fun _ _ right s => .ok (right, s)
  unary := fun _ operand s => .ok (operand, s)

/-- The remainder of `1 + 2 - 3`. -/
def sum_then_difference : List binary_thunk :=
  [⟨.plus, constant (value.integer 2)⟩, ⟨.minus, constant (value.integer 3)⟩]

/-- The remainder of `1 + 2 * 3 or 4 - 5`. -/
def sum_product_or_difference : List binary_thunk :=
  [⟨.plus, constant (value.integer 2)⟩, ⟨.multiply, constant (value.integer 3)⟩,
    ⟨.logical_or, constant (value.integer 4)⟩, ⟨.minus, constant (value.integer 5)⟩]

/-- What a climb that returned has done to the remainder `ops`, given the iterator `rest1` it
returned and its record `applied`: it consumed a first part of the remainder and applied each
binary expression of that part exactly once; what follows is either the iterator it returned,
which is empty or starts with an operator below the minimum precedence, or a logical operator
that short-circuited together with all that follows it, skipped with the iterator at the
end. -/
def climb_record (ops rest1 : List binary_thunk) (min_precedence : Nat) (applied : List Nat) :
    Prop :=
  ∃ consumed : List binary_thunk,
    ((ops = consumed ++ rest1 ∧
        ∀ e rest2, rest1 = e :: rest2 → get_precedence e.oper < min_precedence) ∨
      (∃ sc skipped, ops = consumed ++ sc :: skipped ∧ rest1 = [] ∧
        (sc.oper = binary_operator.logical_and ∨ sc.oper = binary_operator.logical_or))) ∧
    applied.Perm (List.range' (ops.length - consumed.length) consumed.length)

/-! ## The operator-precedence tree of the specification -/

/-- The precedence of the operator table of the specification, low to high: edge operators (1),
assignment (2), `or` (3), `and` (4), relational (5), equality (6), shift (7), additive (8),
multiplicative (9), match (10), `in` (11). -/
def table_precedence : binary_operator → Nat
  | .in_edge | .in_edge_subscribe | .out_edge | .out_edge_subscribe => 1
  | .assignment => 2
  | .logical_or => 3
  | .logical_and => 4
  | .greater_than | .greater_equals | .less_than | .less_equals => 5
  | .equals | .not_equals => 6
  | .left_shift | .right_shift => 7
  | .plus | .minus => 8
  | .multiply | .divide | .modulo => 9
  | .match_ | .not_match => 10
  | .in_ => 11

/-- The associativity of the specification: assignment is right-associative, all other
operators are left-associative. -/
def table_right_associative : binary_operator → Bool
  | .assignment => true
  | _ => false

/-- An operator-precedence tree: the leaves are the operands of an expression, suspended, and
an inner node is an operator with its two operands. -/
inductive operator_tree : Type
  | leaf (operand : thunk)
  | node (oper : binary_operator) (left right : operator_tree)

/-- The operators of a tree, from left to right. -/
def operator_tree.operator_list : operator_tree → List binary_operator
  | .leaf _ => []
  | .node oper left right => left.operator_list ++ oper :: right.operator_list

/-- The expression a tree stands for: its first operand and the binary expressions that follow
it, from left to right. -/
def operator_tree.flatten : operator_tree → thunk × List binary_thunk
  | .leaf operand => (operand, [])
  | .node oper left right =>
    (left.flatten.1, left.flatten.2 ++ ⟨oper, right.flatten.1⟩ :: right.flatten.2)

/-- The evaluation of a tree bottom-up, the operands from left to right: the left operand of a
node, then its right operand, then the handler of its operator. -/
def operator_tree.evaluate (O : operators) : operator_tree → thunk
  | .leaf operand => operand
  | .node oper left right => fun s =>
    match left.evaluate O s with
    | .error e => .error e
    | .ok (l, s1) =>
      match right.evaluate O s1 with
      | .error e => .error e
      | .ok (r, s2) => evaluate_binary O l oper r s2

/-- Whether the operator `p` may stand in the left operand of the operator `o` without
parentheses: it has a higher precedence, or the same precedence when `o` is left-associative. -/
def binds_left (p o : binary_operator) : Bool :=
  table_precedence o < table_precedence p ||
    (table_precedence p == table_precedence o && !table_right_associative o)

/-- Whether the operator `p` may stand in the right operand of the operator `o` without
parentheses: it has a higher precedence, or the same precedence when `o` is
right-associative. -/
def binds_right (p o : binary_operator) : Bool :=
  table_precedence o < table_precedence p ||
    (table_precedence p == table_precedence o && table_right_associative o)

/-- Whether a tree is an operator-precedence tree for the table of the specification: at each
node, every operator of the left operand may stand there, and so may every operator of the
right operand. -/
def operator_tree.is_precedence_tree : operator_tree → Bool
  | .leaf _ => true
  | .node oper left right =>
    left.operator_list.all (fun p => binds_left p oper) &&
      right.operator_list.all (fun p => binds_right p oper) &&
      left.is_precedence_tree && right.is_precedence_tree

/-- Adds the binary expression `oper operand` at the right end of a tree: the new operator goes
into the right operand of the root while it may stand there, and takes the tree as its left
operand when it may not. -/
def operator_tree.insert : operator_tree → binary_operator → thunk → operator_tree
  | .leaf first, oper, operand => .node oper (.leaf first) (.leaf operand)
  | .node o left right, oper, operand =>
    if binds_right oper o then .node o left (right.insert oper operand)
    else .node oper (.node o left right) (.leaf operand)

/-- The operator-precedence tree of an expression, built from its first operand by adding its
binary expressions from left to right. -/
def reference_tree (first : thunk) (remainder : List binary_thunk) : operator_tree :=
  remainder.foldl (fun tree e => tree.insert e.oper e.operand) (.leaf first)

/-- The minimum precedence `climb_expression` climbs the right operand of an operator with. -/
def next_precedence (oper : binary_operator) : Nat :=
  get_precedence oper + (if is_right_associative oper then 0 else 1)

/-- The function `climb_expression` with the bound that `climb_remainder` gives it. -/
def climb (O : operators) (left : value) (min_precedence : Nat) (ops : List binary_thunk)
    (s : context) : outcome (value × List binary_thunk) :=
  match climb_expression O (ops.length + 1) left min_precedence ops s with
  | some r => r
  | none => .error (exception.runtime_error "climb_expression did not return.")

/-- The evaluation of the first operand of a tree followed by the climb of its binary
expressions and of the binary expressions `more`. -/
def climb_from (O : operators) (tree : operator_tree) (min_precedence : Nat)
    (more : List binary_thunk) (s : context) : outcome (value × List binary_thunk) :=
  match tree.flatten.1 s with
  | .error e => .error e
  | .ok (v, s1) => climb O v min_precedence (tree.flatten.2 ++ more) s1

/-- The operators of the remainder of an expression, from left to right. -/
def remainder_operators : List binary_expression → List binary_operator
  | [] => []
  | .mk oper _ :: rest => oper :: remainder_operators rest

/-- Operator handlers that return the pair of their operands and record it at the end of the
scope, under the name `applied`. -/
def recording_operators : operators where
  binary := fun _ left right s =>
    .ok (value.array [left, right],
      ⟨s.scope ++ [("applied", value.array [left, right])], s.match_stack⟩)
  unary := fun _ operand s => .ok (operand, s)

/-- Collaborators with the recording operator handlers. -/
def recording_externals : externals where
  handlers := recording_operators
  is_productive := fun _ => true
  is_splat := is_splat
  interpolate := fun text s => .ok (value.string text, s)
  regex_error := fun _ => none
  other_primary := fun _ _ => .error (exception.evaluation_exception "unsupported expression.")
  other_postfix := fun _ _ _ => .error (exception.evaluation_exception "unsupported expression.")

/-- The remainder of `1 - 2 * 3 - 4`. -/
def difference_of_product : List binary_expression :=
  [.mk .minus (primary (.number 2)), .mk .multiply (primary (.number 3)),
    .mk .minus (primary (.number 4))]

/-! ## Theorems -/

/-- A value in the 64-bit range is left unchanged by the reduction modulo `2^64`. -/
theorem to_int64_of_is_int64 (i : Int) (h : is_int64 i) : to_int64 i = i := by
  unfold to_int64
  unfold is_int64 at h
  omega

/-- With more fuel than binary expressions left, `climb_expression` returns, and the iterator
it returns is not behind the one it was given. -/
theorem climb_expression_terminates (O : operators) :
    ∀ (fuel : Nat) (left : value) (min_precedence : Nat) (rest : List binary_thunk) (s : context),
      rest.length < fuel →
      ∃ r, climb_expression O fuel left min_precedence rest s = some r ∧
        ∀ v rest1 s1, r = .ok ((v, rest1), s1) → rest1.length ≤ rest.length := by
  intro fuel
  induction fuel with
  | zero => intro left min_precedence rest s h; omega
  | succ fuel ih =>
    intro left min_precedence rest s hlen
    cases rest with
    | nil =>
      refine ⟨.ok ((left, []), s), by simp [climb_expression], ?_⟩
      intro v rest1 s1 h
      simp only [Except.ok.injEq, Prod.mk.injEq] at h
      simp [← h.1.2]
    | cons expression rest =>
      simp only [List.length_cons] at hlen
      have hlen1 : rest.length < fuel := by omega
      simp only [climb_expression]
      split
      · split
        · refine ⟨_, rfl, ?_⟩
          intro v rest1 s1 h
          simp only [Except.ok.injEq, Prod.mk.injEq] at h
          simp [← h.1.2]
        · cases hop : expression.operand s with
          | error e => exact ⟨_, rfl, by intro v rest1 s1 h; simp at h⟩
          | ok r =>
            obtain ⟨right, s1⟩ := r
            obtain ⟨r1, h1, hb1⟩ := ih right
              (get_precedence expression.oper + if is_right_associative expression.oper = true then 0 else 1)
              rest s1 hlen1
            cases r1 with
            | error e =>
              simp only [h1]
              exact ⟨_, rfl, by intro v rest1 s1 h; simp at h⟩
            | ok r1 =>
              obtain ⟨⟨right1, rest1⟩, s2⟩ := r1
              have hle : rest1.length ≤ rest.length := hb1 _ _ _ rfl
              cases hbin : evaluate_binary O left expression.oper right1 s2 with
              | error e =>
                simp only [h1, hbin]
                exact ⟨_, rfl, by intro v rest1 s1 h; simp at h⟩
              | ok r2 =>
                obtain ⟨left1, s3⟩ := r2
                obtain ⟨r3, h3, hb3⟩ := ih left1 min_precedence rest1 s3 (by omega)
                simp only [h1, hbin]
                refine ⟨r3, h3, ?_⟩
                intro v rest2 s4 h
                have := hb3 v rest2 s4 h
                simp only [List.length_cons]
                omega
      · refine ⟨_, rfl, ?_⟩
        intro v rest1 s1 h
        simp only [Except.ok.injEq, Prod.mk.injEq] at h
        simp [← h.1.2]

/-- The climb started by `evaluate` never runs out of fuel. -/
theorem climb_remainder_returns (O : operators) (result : value) (remainder : List binary_thunk)
    (s : context) :
    climb_expression O (remainder.length + 1) result 0 remainder s ≠ none := by
  obtain ⟨r, h, _⟩ := climb_expression_terminates O (remainder.length + 1) result 0 remainder s
    (by omega)
  simp [h]

/-- Claim C4: `get_precedence` returns the precedence of the table for every binary operator: 1
for the four edge operators, 2 for assignment, 3 for `or`, 4 for `and`, 5 for the relational
operators, 6 for equality, 7 for the shifts, 8 for plus and minus, 9 for multiply, divide and
modulo, 10 for match and not-match, 11 for `in`. -/
theorem get_precedence_table :
    (get_precedence .in_edge = 1 ∧ get_precedence .in_edge_subscribe = 1 ∧
      get_precedence .out_edge = 1 ∧ get_precedence .out_edge_subscribe = 1) ∧
    get_precedence .assignment = 2 ∧
    get_precedence .logical_or = 3 ∧
    get_precedence .logical_and = 4 ∧
    (get_precedence .greater_than = 5 ∧ get_precedence .greater_equals = 5 ∧
      get_precedence .less_than = 5 ∧ get_precedence .less_equals = 5) ∧
    (get_precedence .equals = 6 ∧ get_precedence .not_equals = 6) ∧
    (get_precedence .left_shift = 7 ∧ get_precedence .right_shift = 7) ∧
    (get_precedence .plus = 8 ∧ get_precedence .minus = 8) ∧
    (get_precedence .multiply = 9 ∧ get_precedence .divide = 9 ∧ get_precedence .modulo = 9) ∧
    (get_precedence .match_ = 10 ∧ get_precedence .not_match = 10) ∧
    get_precedence .in_ = 11 ∧
    (∀ op : binary_operator, 1 ≤ get_precedence op ∧ get_precedence op ≤ 11) := by
  refine ⟨by decide, by decide, by decide, by decide, by decide, by decide, by decide, by decide,
    by decide, by decide, by decide, ?_⟩
  intro op
  cases op <;> decide

/-- Claim C1: in the tree walk with the arithmetic of the specification, `a + b * c` evaluates
to `a + (b * c)` and `a * b + c` to `(a * b) + c` whenever the results fit in 64 bits, and
`$x = 2 + 3 * 4` binds `$x` to 14. -/
theorem arithmetic_precedence (rest : externals) (a b c : Int) (s : context)
    (hbc : is_int64 (b * c)) (habc : is_int64 (a + b * c))
    (hab : is_int64 (a * b)) (habc2 : is_int64 (a * b + c)) :
    evaluate (spec_externals rest)
        (chain (.number a) [(.plus, .number b), (.multiply, .number c)]) false s
      = .ok (value.integer (a + b * c), s) ∧
    evaluate (spec_externals rest)
        (chain (.number a) [(.multiply, .number b), (.plus, .number c)]) false s
      = .ok (value.integer (a * b + c), s) ∧
    evaluate (spec_externals rest)
        (chain (.variable "x") [(.assignment, .number 2), (.plus, .number 3),
          (.multiply, .number 4)]) false empty_context
      = .ok (value.variable "x" (value.integer 14), ⟨[("x", value.integer 14)], []⟩) ∧
    context.lookup ⟨[("x", value.integer 14)], []⟩ "x" = some (value.integer 14) := by
  have h1 : evaluate (spec_externals rest)
        (chain (.number a) [(.plus, .number b), (.multiply, .number c)]) false s
      = .ok (value.integer (to_int64 (a + to_int64 (b * c))), s) := rfl
  have h2 : evaluate (spec_externals rest)
        (chain (.number a) [(.multiply, .number b), (.plus, .number c)]) false s
      = .ok (value.integer (to_int64 (to_int64 (a * b) + c)), s) := rfl
  refine ⟨?_, ?_, rfl, rfl⟩
  · rw [h1, to_int64_of_is_int64 _ hbc, to_int64_of_is_int64 _ habc]
  · rw [h2, to_int64_of_is_int64 _ hab, to_int64_of_is_int64 _ habc2]

/-- Witness of claim C1 at `a = 2`, `b = 3`, `c = 4`. -/
theorem arithmetic_precedence_witness :
    is_int64 (3 * 4) ∧ is_int64 (2 + 3 * 4) ∧ is_int64 (2 * 3) ∧ is_int64 (2 * 3 + 4) ∧
    evaluate (spec_externals no_externals)
        (chain (.number 2) [(.plus, .number 3), (.multiply, .number 4)]) false empty_context
      = .ok (value.integer 14, empty_context) ∧
    evaluate (spec_externals no_externals)
        (chain (.number 2) [(.multiply, .number 3), (.plus, .number 4)]) false empty_context
      = .ok (value.integer 10, empty_context) :=
  have h1 : is_int64 (3 * 4) := by unfold is_int64; omega
  have h2 : is_int64 (2 + 3 * 4) := by unfold is_int64; omega
  have h3 : is_int64 (2 * 3) := by unfold is_int64; omega
  have h4 : is_int64 (2 * 3 + 4) := by unfold is_int64; omega
  ⟨h1, h2, h3, h4,
    (arithmetic_precedence no_externals 2 3 4 empty_context h1 h2 h3 h4).1,
    (arithmetic_precedence no_externals 2 3 4 empty_context h1 h2 h3 h4).2.1⟩

/-- Claim C2: when `climb_expression` reaches an `and` whose left operand is falsy, or an `or`
whose left operand is truthy, it returns `false`, respectively `true`, in the unchanged context,
whatever the right operand is: the operand is not evaluated.  In particular
`$x = false and (1/0)` binds `$x` to `false`, although `1/0` alone is a division by zero. -/
theorem short_circuit_skips_right_operand (O : operators) (fuel : Nat) (left : value)
    (min_precedence : Nat) (operand : thunk) (rest : List binary_thunk) (s : context) :
    (left.is_truthy = false → min_precedence ≤ 4 →
      climb_expression O (fuel + 1) left min_precedence (⟨.logical_and, operand⟩ :: rest) s
        = some (.ok ((value.boolean false, []), s))) ∧
    (left.is_truthy = true → min_precedence ≤ 3 →
      climb_expression O (fuel + 1) left min_precedence (⟨.logical_or, operand⟩ :: rest) s
        = some (.ok ((value.boolean true, []), s))) ∧
    (∀ X : externals,
      evaluate (spec_externals X)
          (chain (.variable "x") [(.assignment, .boolean false),
            (.logical_and, .expression (chain (.number 1) [(.divide, .number 0)]))])
          false empty_context
        = .ok (value.variable "x" (value.boolean false), ⟨[("x", value.boolean false)], []⟩) ∧
      evaluate (spec_externals X) (chain (.number 1) [(.divide, .number 0)]) false empty_context
        = .error (exception.evaluation_exception "cannot divide by zero.")) := by
  refine ⟨?_, ?_, fun X => ⟨rfl, rfl⟩⟩
  · intro hl hmin
    simp [climb_expression, get_precedence, hl, hmin]
  · intro hl hmin
    simp [climb_expression, get_precedence, hl, hmin]

/-- Witness of claim C2: a falsy left operand of `and` and a truthy left operand of `or`, each
before an operand whose evaluation would fail. -/
theorem short_circuit_skips_right_operand_witness :
    climb_expression no_operators 1 (value.boolean false) 0
        [⟨.logical_and, fun _ => .error (exception.evaluation_exception "cannot divide by zero.")⟩]
        empty_context
      = some (.ok ((value.boolean false, []), empty_context)) ∧
    climb_expression no_operators 1 (value.integer 0) 0
        [⟨.logical_or, fun _ => .error (exception.evaluation_exception "cannot divide by zero.")⟩]
        empty_context
      = some (.ok ((value.boolean true, []), empty_context)) :=
  ⟨(short_circuit_skips_right_operand no_operators 0 (value.boolean false) 0
      (fun _ => .error (exception.evaluation_exception "cannot divide by zero.")) []
      empty_context).1 rfl (by decide),
    (short_circuit_skips_right_operand no_operators 0 (value.integer 0) 0
      (fun _ => .error (exception.evaluation_exception "cannot divide by zero.")) []
      empty_context).2.1 rfl (by decide)⟩

/-- Claim C3, the behaviour of the code: once the left operand of `and` is falsy the whole
remainder is dropped, so `false and b or c` evaluates to `false` for all booleans `b`, `c`, and
`false and true or true` evaluates to `false`, not to `(false and true) or true = true`; when
the `and` does not short-circuit the `or` is applied, `true and false or true` is `true`. -/
theorem and_short_circuit_drops_or (rest : externals) (b c : Bool) (s : context) :
    evaluate (spec_externals rest)
        (chain (.boolean false) [(.logical_and, .boolean b), (.logical_or, .boolean c)]) false s
      = .ok (value.boolean false, s) ∧
    evaluate (spec_externals rest)
        (chain (.boolean false) [(.logical_and, .boolean true), (.logical_or, .boolean true)])
        false s
      ≠ .ok (value.boolean ((false && true) || true), s) ∧
    evaluate (spec_externals rest)
        (chain (.boolean true) [(.logical_and, .boolean false), (.logical_or, .boolean true)])
        false s
      = .ok (value.boolean ((true && false) || true), s) := by
  have h : ∀ b c, evaluate (spec_externals rest)
        (chain (.boolean false) [(.logical_and, .boolean b), (.logical_or, .boolean c)]) false s
      = .ok (value.boolean false, s) := fun _ _ => rfl
  refine ⟨h b c, ?_, rfl⟩
  rw [h true true]
  simp

/-- Claim C5: operators of equal precedence other than assignment are applied left to right, so
`a - b - c` evaluates to `(a - b) - c`; assignment is right-associative, in `$a = $b = v` the
handler is first applied to `$b` and `v` and then to `$a` and the result of the inner
assignment. -/
theorem associativity (rest : externals) (a b c : Int) (s : context)
    (hab : is_int64 (a - b)) (habc : is_int64 ((a - b) - c)) :
    evaluate (spec_externals rest)
        (chain (.number a) [(.minus, .number b), (.minus, .number c)]) false s
      = .ok (value.integer ((a - b) - c), s) ∧
    (∀ (O : operators) (op1 op2 : binary_operator) (x y z : value) (t : context),
      get_precedence op1 = get_precedence op2 → op1 ≠ .assignment →
      op1 ≠ .logical_and → op1 ≠ .logical_or → op2 ≠ .logical_and → op2 ≠ .logical_or →
      climb_remainder O x [⟨op1, constant y⟩, ⟨op2, constant z⟩] t
        = match O.binary op1 x y t with
          | .error e => .error e
          | .ok (r, t1) => O.binary op2 r z t1) ∧
    (∀ (O : operators) (x y z : value) (t : context),
      climb_remainder O x [⟨.assignment, constant y⟩, ⟨.assignment, constant z⟩] t
        = match O.binary .assignment y z t with
          | .error e => .error e
          | .ok (r, t1) => O.binary .assignment x r t1) ∧
    evaluate (spec_externals rest)
        (chain (.variable "a") [(.assignment, .variable "b"), (.assignment, .number 5)])
        false empty_context
      = .ok (value.variable "a" (value.integer 5),
          ⟨[("b", value.integer 5), ("a", value.integer 5)], []⟩) := by
  have h1 : evaluate (spec_externals rest)
        (chain (.number a) [(.minus, .number b), (.minus, .number c)]) false s
      = .ok (value.integer (to_int64 (to_int64 (a - b) - c)), s) := rfl
  refine ⟨?_, ?_, ?_, rfl⟩
  · rw [h1, to_int64_of_is_int64 _ hab, to_int64_of_is_int64 _ habc]
  · intro O op1 op2 x y z t hprec hassign hand1 hor1 hand2 hor2
    have hra1 : is_right_associative op1 = false := by
      simp [is_right_associative, hassign]
    have hlt : ¬ (get_precedence op2 ≥ get_precedence op2 + 1) := by omega
    cases h : O.binary op1 x y t with
    | error e =>
      simp [climb_remainder, climb_expression, evaluate_binary, constant, hprec, hra1,
        hand1, hor1, hand2, hor2, h]
    | ok r =>
      obtain ⟨r, t1⟩ := r
      cases h2 : O.binary op2 r z t1 with
      | error e =>
        simp [climb_remainder, climb_expression, evaluate_binary, constant, hprec, hra1,
          hand1, hor1, hand2, hor2, h, h2]
      | ok r2 =>
        obtain ⟨r2, t2⟩ := r2
        simp [climb_remainder, climb_expression, evaluate_binary, constant, hprec, hra1,
          hand1, hor1, hand2, hor2, h, h2]
  · intro O x y z t
    cases h : O.binary .assignment y z t with
    | error e =>
      simp [climb_remainder, climb_expression, evaluate_binary, constant, get_precedence,
        is_right_associative, h]
    | ok r =>
      obtain ⟨r, t1⟩ := r
      cases h2 : O.binary .assignment x r t1 with
      | error e =>
        simp [climb_remainder, climb_expression, evaluate_binary, constant, get_precedence,
          is_right_associative, h, h2]
      | ok r2 =>
        obtain ⟨r2, t2⟩ := r2
        simp [climb_remainder, climb_expression, evaluate_binary, constant, get_precedence,
          is_right_associative, h, h2]

/-- Witness of claim C5: `10 - 4 - 3` is `3`, not `10 - (4 - 3) = 9`. -/
theorem associativity_witness :
    is_int64 (10 - 4) ∧ is_int64 ((10 - 4) - 3) ∧
    evaluate (spec_externals no_externals)
        (chain (.number 10) [(.minus, .number 4), (.minus, .number 3)]) false empty_context
      = .ok (value.integer 3, empty_context) :=
  have h1 : is_int64 (10 - 4) := by unfold is_int64; omega
  have h2 : is_int64 ((10 - 4) - 3) := by unfold is_int64; omega
  ⟨h1, h2, (associativity no_externals 10 4 3 empty_context h1 h2).1⟩

/-- Claim C10: `is_match` follows the equal-or-regex-match rule.  With an expected regex it
returns `false` without raising for an actual value that is not a string, and for a string the
truthiness of the match operator's result; otherwise it returns `actual == expected`. -/
theorem is_match_rule (O : operators) (actual expected : value) (s : context) :
    (∀ pattern, expected.as_regex = some pattern → actual.as_string = none →
      is_match O actual expected s = .ok (false, s)) ∧
    (∀ pattern text, expected.as_regex = some pattern → actual.as_string = some text →
      is_match O actual expected s
        = match O.binary .match_ actual expected s with
          | .error e => .error e
          | .ok (r, s1) => .ok (r.is_truthy, s1)) ∧
    (∀ pattern s1, expected.as_regex = some pattern →
      (is_match O actual expected s = .ok (true, s1) ↔
        actual.as_string.isSome = true ∧
          ∃ r, O.binary .match_ actual expected s = .ok (r, s1) ∧ r.is_truthy = true)) ∧
    (expected.as_regex = none →
      is_match O actual expected s = .ok (value.equals actual expected, s)) := by
  refine ⟨?_, ?_, ?_, ?_⟩
  · intro pattern hre hstr
    simp [is_match, hre, hstr]
  · intro pattern text hre hstr
    simp [is_match, hre, hstr]
  · intro pattern s1 hre
    cases hstr : actual.as_string with
    | none => simp [is_match, hre, hstr]
    | some text =>
      cases hop : O.binary .match_ actual expected s with
      | error e => simp [is_match, hre, hstr, hop]
      | ok r =>
        obtain ⟨r, s2⟩ := r
        simp only [is_match, hre, hstr, hop, Option.isSome_some, true_and, Except.ok.injEq,
          Prod.mk.injEq, exists_eq_left']
        constructor
        · rintro ⟨h1, h2⟩
          exact ⟨r, ⟨rfl, h2⟩, h1⟩
        · rintro ⟨r1, ⟨h1, h2⟩, h3⟩
          subst h1
          exact ⟨h3, h2⟩
  · intro hre
    simp [is_match, hre]

/-- Witness of claim C10: an integer never matches a regex, and two strings are compared for
equality. -/
theorem is_match_rule_witness :
    (value.regex "a+").as_regex = some "a+" ∧ (value.integer 5).as_string = none ∧
    is_match no_operators (value.integer 5) (value.regex "a+") empty_context
      = .ok (false, empty_context) ∧
    (value.string "a").as_regex = none ∧
    is_match no_operators (value.string "z") (value.string "a") empty_context
      = .ok (value.equals (value.string "z") (value.string "a"), empty_context) :=
  ⟨rfl, rfl,
    (is_match_rule no_operators (value.integer 5) (value.regex "a+") empty_context).1
      "a+" rfl rfl,
    rfl,
    (is_match_rule no_operators (value.string "z") (value.string "a") empty_context).2.2.2 rfl⟩

/-- The if expression treats its own conditional and body like a first `elsif`. -/
theorem if_expression_eq_if_elsifs (conditional body : thunk) (elsifs : List elsif_thunk)
    (else_ : Option thunk) (s : context) :
    if_expression conditional body elsifs else_ s
      = leave_match_scope (if_elsifs else_ (⟨conditional, body⟩ :: elsifs) s.push_match_scope) := by
  simp only [if_expression, with_match_scope, if_elsifs]

/-- A run of falsy conditions is skipped by the loop over the branches. -/
theorem if_elsifs_skip_falsy_run (else_ : Option thunk) (pre post : List elsif_thunk)
    (s t : context) (h : falsy_run pre s t) :
    if_elsifs else_ (pre ++ post) s = if_elsifs else_ post t := by
  induction h with
  | nil s => rfl
  | cons branch rest c s s1 t hc hfalse _ ih =>
    simp only [List.cons_append, if_elsifs, hc, hfalse]
    simpa using ih

/-- Claim C9: an if expression evaluates the body of the first branch (the `if`, then each
`elsif` in order) whose condition is truthy, whatever the later branches are; when every
condition is falsy it evaluates the else body, or yields undef without an else.  An unless
expression evaluates its body when its condition is falsy, otherwise its else body, or undef
without an else. -/
theorem if_unless_branches (conditional body : thunk) (elsifs : List elsif_thunk)
    (else_ : Option thunk) (s : context) :
    (∀ (pre post : List elsif_thunk) (branch : elsif_thunk) (c : value) (s1 s2 : context),
      ⟨conditional, body⟩ :: elsifs = pre ++ branch :: post →
      falsy_run pre s.push_match_scope s1 →
      branch.conditional s1 = .ok (c, s2) → c.is_truthy = true →
      if_expression conditional body elsifs else_ s = leave_match_scope (branch.body s2)) ∧
    (∀ s1 : context, falsy_run (⟨conditional, body⟩ :: elsifs) s.push_match_scope s1 →
      if_expression conditional body elsifs else_ s
        = leave_match_scope
            (match else_ with
             | some else_body => else_body s1
             | none => .ok (value.undef, s1))) ∧
    (∀ (c : value) (s1 : context), conditional s.push_match_scope = .ok (c, s1) →
      unless_expression conditional body else_ s
        = leave_match_scope
            (if c.is_truthy = false then body s1
             else
               match else_ with
               | some else_body => else_body s1
               | none => .ok (value.undef, s1))) := by
  refine ⟨?_, ?_, ?_⟩
  · intro pre post branch c s1 s2 hsplit hrun hc htrue
    rw [if_expression_eq_if_elsifs, hsplit, if_elsifs_skip_falsy_run else_ pre _ _ _ hrun]
    simp only [if_elsifs, hc, htrue, if_true]
  · intro s1 hrun
    rw [if_expression_eq_if_elsifs]
    have h := if_elsifs_skip_falsy_run else_ _ [] _ _ hrun
    rw [List.append_nil] at h
    rw [h]
    cases else_ <;> rfl
  · intro c s1 hc
    simp only [unless_expression, with_match_scope, hc]
    cases htruthy : c.is_truthy <;> simp

/-- Witness of claim C9: `if false {1} elsif 7 {2} elsif (fails) {3} else {4}` yields 2 and
never evaluates the third condition; `if false {1}` yields undef; `unless false {1}` yields 1. -/
theorem if_unless_branches_witness :
    if_expression (constant (value.boolean false)) (constant (value.integer 1))
        [⟨constant (value.integer 7), constant (value.integer 2)⟩,
         ⟨fun _ => .error (exception.evaluation_exception "cannot divide by zero."),
           constant (value.integer 3)⟩]
        (some (constant (value.integer 4))) empty_context
      = .ok (value.integer 2, empty_context) ∧
    if_expression (constant (value.boolean false)) (constant (value.integer 1)) [] none
        empty_context
      = .ok (value.undef, empty_context) ∧
    unless_expression (constant (value.boolean false)) (constant (value.integer 1)) none
        empty_context
      = .ok (value.integer 1, empty_context) :=
  ⟨(if_unless_branches (constant (value.boolean false)) (constant (value.integer 1))
      [⟨constant (value.integer 7), constant (value.integer 2)⟩,
       ⟨fun _ => .error (exception.evaluation_exception "cannot divide by zero."),
         constant (value.integer 3)⟩]
      (some (constant (value.integer 4))) empty_context).1
      [⟨constant (value.boolean false), constant (value.integer 1)⟩]
      [⟨fun _ => .error (exception.evaluation_exception "cannot divide by zero."),
         constant (value.integer 3)⟩]
      ⟨constant (value.integer 7), constant (value.integer 2)⟩
      (value.integer 7) empty_context.push_match_scope empty_context.push_match_scope
      rfl
      (falsy_run.cons _ _ (value.boolean false) _ _ _ rfl rfl (falsy_run.nil _))
      rfl rfl,
    (if_unless_branches (constant (value.boolean false)) (constant (value.integer 1)) [] none
      empty_context).2.1 empty_context.push_match_scope
      (falsy_run.cons _ _ (value.boolean false) _ _ _ rfl rfl (falsy_run.nil _)),
    (if_unless_branches (constant (value.boolean false)) (constant (value.integer 1)) []
      none empty_context).2.2 (value.boolean false) empty_context.push_match_scope rfl⟩

/-- Claim C8, the behaviour of the code: after the elements of a splatted array option have
been tried without success, control reaches the match against the option value itself, which
the move has left an empty array.  The option `*[1]` evaluates to `[1]`, its only element does
not match the selector value `[]`, and yet `case [] { *[1]: { 'hit' } }` and
`[] ? { *[1] => 'hit' }` both yield `'hit'`. -/
theorem splat_option_falls_through (X : externals) (s : context) :
    evaluate (spec_externals X) splat_of_one false s = .ok (value.array [value.integer 1], s) ∧
    is_splat splat_of_one = true ∧
    match_elements (spec_externals X).handlers (value.array []) [value.integer 1] s
      = .ok (false, s) ∧
    evaluate (spec_externals X) case_of_empty_array false empty_context
      = .ok (value.string "hit", empty_context) ∧
    evaluate (spec_externals X) selector_of_empty_array false empty_context
      = .ok (value.string "hit", empty_context) :=
  ⟨rfl, rfl, rfl, rfl, rfl⟩

/-- The negation of a 64-bit integer other than the least one is the mathematical negation. -/
theorem negate64_of_gt (a : Int) (h1 : -2 ^ 63 < a) (h2 : a < 2 ^ 63) : negate64 a = -a := by
  unfold negate64 to_int64
  omega

/-- Claim C19 as stated fails at the least 64-bit integer: its negation overflows, so
`-2^63 >> 1` comes out as `2^62`, which is positive and is not the truncated quotient
`-2^62`. -/
theorem right_shift_least_integer_positive :
    is_int64 (-2 ^ 63) ∧ (-2 ^ 63 : Int) < 0 ∧
    right_shift_integers (-2 ^ 63) 1 = 2 ^ 62 ∧
    0 < right_shift_integers (-2 ^ 63) 1 ∧
    right_shift_integers (-2 ^ 63) 1 ≠ Int.tdiv (-2 ^ 63) (2 ^ (1 : Int).toNat) := by
  have h : right_shift_integers (-2 ^ 63) 1 = 2 ^ 62 := by
    simp [right_shift_integers, negate64, shift_right64, to_int64]
  refine ⟨by unfold is_int64; omega, by omega, h, ?_, ?_⟩
  · rw [h]; omega
  · rw [h]; decide

/-- Claim C19, amended: for `-2^63 < left < 0` and `0 ≤ right < 64` the right shift yields
`-((-left) >> right)`, which is `left` divided by `2^right` truncated toward zero, and is never
positive. -/
theorem right_shift_negative_left (left right : Int)
    (hmin : -2 ^ 63 < left) (hneg : left < 0) (hr0 : 0 ≤ right) (_hr : right < 64) :
    right_shift_integers left right = -((-left) / 2 ^ right.toNat) ∧
    right_shift_integers left right = Int.tdiv left (2 ^ right.toNat) ∧
    right_shift_integers left right ≤ 0 := by
  have hpow : (0 : Int) ≤ 2 ^ right.toNat := by positivity
  have hq0 : 0 ≤ (-left) / 2 ^ right.toNat := Int.ediv_nonneg (by omega) hpow
  have hq1 : (-left) / 2 ^ right.toNat ≤ -left := Int.ediv_le_self _ (by omega)
  have h : right_shift_integers left right = -((-left) / 2 ^ right.toNat) := by
    unfold right_shift_integers
    rw [if_neg (by omega), if_neg (by omega), if_pos hneg]
    rw [negate64_of_gt left hmin (by omega)]
    unfold shift_right64
    rw [negate64_of_gt _ (by omega) (by omega)]
  refine ⟨h, ?_, ?_⟩
  · rw [h]
    have : left = -(-left) := by omega
    conv_rhs => rw [this, Int.neg_tdiv, Int.tdiv_eq_ediv (by omega) hpow]
  · rw [h]; omega

/-- Witness of claim C19: `-8 >> 1` is `-4` and `-1 >> 1` is `0`. -/
theorem right_shift_negative_left_witness :
    right_shift_integers (-8) 1 = -4 ∧ right_shift_integers (-1) 1 = 0 :=
  ⟨(right_shift_negative_left (-8) 1 (by omega) (by omega) (by omega) (by omega)).1.trans
      (by decide),
    (right_shift_negative_left (-1) 1 (by omega) (by omega) (by omega) (by omega)).1.trans
      (by decide)⟩

/-- Claim C20: for `-64 < right < 0` the right shift reverses direction: it yields
`left << (-right)` for `left ≥ 0` and `-((-left) << (-right))` for `left < 0`, which is
`left * 2^(-right)` whenever that product fits in 64 bits. -/
theorem right_shift_negative_right (left right : Int)
    (hl : is_int64 left) (hneg : right < 0) (hr : -64 < right)
    (hfit : is_int64 (left * 2 ^ (-right).toNat)) :
    (0 ≤ left → right_shift_integers left right = shift_left64 left (-right)) ∧
    (left < 0 →
      right_shift_integers left right = negate64 (shift_left64 (negate64 left) (-right))) ∧
    right_shift_integers left right = left * 2 ^ (-right).toNat := by
  have hnr : negate64 right = -right := negate64_of_gt right (by omega) (by omega)
  unfold is_int64 at hl hfit
  have hpow : (2 : Int) ≤ 2 ^ (-right).toNat := by
    have h1 : 1 ≤ (-right).toNat := by omega
    calc (2 : Int) = 2 ^ 1 := by norm_num
      _ ≤ 2 ^ (-right).toNat := by
        exact pow_le_pow_right₀ (by norm_num) h1
  refine ⟨?_, ?_, ?_⟩
  · intro h0
    unfold right_shift_integers
    rw [if_neg (by omega), if_pos hneg, hnr]
  · intro h0
    unfold right_shift_integers
    rw [if_pos ⟨hneg, h0⟩, hnr]
  · by_cases h0 : left < 0
    · have hmin : -2 ^ 63 < left := by
        by_contra hcon
        have : left * 2 ^ (-right).toNat ≤ left * 2 := by
          apply Int.mul_le_mul_of_nonpos_left (by omega) hpow
        omega
      unfold right_shift_integers
      rw [if_pos ⟨hneg, h0⟩, hnr, negate64_of_gt left hmin (by omega)]
      unfold negate64 shift_left64 to_int64
      have hp : -left * 2 ^ (-right).toNat = -(left * 2 ^ (-right).toNat) := by ring
      rw [hp]
      generalize left * 2 ^ (-right).toNat = p at hfit
      omega
    · unfold right_shift_integers
      rw [if_neg (by omega), if_pos hneg, hnr]
      unfold shift_left64 to_int64
      generalize left * 2 ^ (-right).toNat = p at hfit
      omega

/-- Witness of claim C20: `3 >> -2` is `12` and `-3 >> -2` is `-12`. -/
theorem right_shift_negative_right_witness :
    right_shift_integers 3 (-2) = 12 ∧ right_shift_integers (-3) (-2) = -12 :=
  ⟨(right_shift_negative_right 3 (-2) (by unfold is_int64; omega) (by omega) (by omega)
      (by unfold is_int64; simp)).2.2.trans (by decide),
    (right_shift_negative_right (-3) (-2) (by unfold is_int64; omega) (by omega) (by omega)
      (by unfold is_int64; simp)).2.2.trans (by decide)⟩

/-- Claim C18: each EPP render expression raises the evaluation error exactly when the context
has no EPP output stream, and otherwise appends its value to the current stream and yields
undef. -/
theorem epp_render_needs_stream (expression : run value) (text : String)
    (st st1 : evaluation_state) (v : value) (h : expression st = .ok v st1) :
    (st1.epp_streams = [] →
      epp_render_expression expression st
        = .thrown (exception.evaluation_exception "EPP expressions are not supported.") st1 ∧
      epp_render_block expression st
        = .thrown (exception.evaluation_exception "EPP expressions are not supported.") st1) ∧
    (∀ stream outer, st1.epp_streams = stream :: outer →
      epp_render_expression expression st
        = .ok value.undef { st1 with epp_streams := (stream ++ [v]) :: outer } ∧
      epp_render_block expression st
        = .ok value.undef { st1 with epp_streams := (stream ++ [v]) :: outer }) ∧
    (st.epp_streams = [] →
      epp_render_string text st
        = .thrown (exception.evaluation_exception "EPP expressions are not supported.") st) ∧
    (∀ stream outer, st.epp_streams = stream :: outer →
      epp_render_string text st
        = .ok value.undef { st with epp_streams := (stream ++ [value.string text]) :: outer }) := by
  refine ⟨?_, ?_, ?_, ?_⟩
  · intro hs
    simp [epp_render_expression, epp_render_block, h, epp_write, hs]
  · intro stream outer hs
    simp [epp_render_expression, epp_render_block, h, epp_write, hs]
  · intro hs
    simp [epp_render_string, epp_write, hs]
  · intro stream outer hs
    simp [epp_render_string, epp_write, hs]

/-- Witness of claim C18: rendering `'a'` fails outside EPP and is written to the stream inside
it. -/
theorem epp_render_needs_stream_witness :
    epp_render_expression (yield (value.string "a")) empty_state
      = .thrown (exception.evaluation_exception "EPP expressions are not supported.")
          empty_state ∧
    epp_render_expression (yield (value.string "a")) { empty_state with epp_streams := [[]] }
      = .ok value.undef { empty_state with epp_streams := [[value.string "a"]] } :=
  ⟨((epp_render_needs_stream (yield (value.string "a")) "a" empty_state empty_state
      (value.string "a") rfl).1 rfl).1,
    ((epp_render_needs_stream (yield (value.string "a")) "a"
      { empty_state with epp_streams := [[]] } { empty_state with epp_streams := [[]] }
      (value.string "a") rfl).2.1 [] [] rfl).1⟩

/-- The loop of `set_attributes` over a list in two parts runs the first part, then the
second. -/
theorem set_attributes_append (target : types.resource) (pre rest : attributes) :
    ∀ st, set_attributes target (pre ++ rest) st
      = match set_attributes target pre st with
        | .thrown e st1 => .thrown e st1
        | .ok _ st1 => set_attributes target rest st1 := by
  induction pre with
  | nil => intro st; simp [set_attributes]
  | cons p pre ih =>
    intro st
    obtain ⟨oper, a⟩ := p
    by_cases h : oper = attribute_operator.assignment
    · simp [set_attributes, h, ih]
    · simp [set_attributes, h]

/-- A list of assignments is set on the resource in order, without a throw. -/
theorem set_attributes_assignments (target : types.resource) (attrs : attributes)
    (h : all_assignment attrs) :
    ∀ st, set_attributes target attrs st
      = .ok () { st with catalog := catalog.set_all st.catalog target attrs } := by
  induction attrs with
  | nil => intro st; simp [set_attributes, catalog.set_all]
  | cons p attrs ih =>
    intro st
    obtain ⟨oper, a⟩ := p
    have hop : oper = attribute_operator.assignment := h (oper, a) (List.mem_cons_self _ _)
    have hrest : all_assignment attrs := fun q hq => h q (List.mem_cons_of_mem _ hq)
    simp [set_attributes, hop, ih hrest, catalog.set_all]

/-- Claim C16: `set_attributes` raises the evaluation error at the first attribute whose
operator is not assignment; the state it leaves has the attributes before it set and nothing
else, so that attribute (and every later one) is never set on the resource.  In a resource
expression this holds for a `+>` in the default body and for one in a titled body. -/
theorem set_attributes_only_assignment (target : types.resource) (pre post : attributes)
    (oper : attribute_operator) (a : attribute_) (st : evaluation_state)
    (hpre : all_assignment pre) (hop : oper ≠ attribute_operator.assignment) :
    set_attributes target (pre ++ (oper, a) :: post) st
      = .thrown (exception.evaluation_exception
          "illegal attribute operation '%1%': only '%2%' is supported in a resource expression.")
          { st with catalog := catalog.set_all st.catalog target pre } ∧
    resource_expression plain_collaborators (yield (value.string "notify")) .realized
        [literal_body value.defaulted [(.append, ⟨"tag", value.string "t"⟩)] 1,
         literal_body (value.string "x") [(.assignment, ⟨"message", value.string "m"⟩)] 2]
        empty_state
      = .thrown (exception.evaluation_exception
          "illegal attribute operation '%1%': only '%2%' is supported in a resource expression.")
          { empty_state with catalog := [notify "x" 2 []] } ∧
    resource_expression plain_collaborators (yield (value.string "notify")) .realized
        [literal_body (value.string "x")
          [(.assignment, ⟨"message", value.string "m"⟩), (.append, ⟨"tag", value.string "t"⟩)] 2]
        empty_state
      = .thrown (exception.evaluation_exception
          "illegal attribute operation '%1%': only '%2%' is supported in a resource expression.")
          { empty_state with catalog := [notify "x" 2 [⟨"message", value.string "m"⟩]] } := by
  refine ⟨?_, rfl, rfl⟩
  rw [set_attributes_append, set_attributes_assignments target pre hpre]
  simp [set_attributes, hop]

/-- Witness of claim C16: on `Notify[x]`, in `message => 'a', tag +> 'b', noop => true` the
first attribute is set, then the `+>` raises and neither `tag` nor `noop` is set. -/
theorem set_attributes_only_assignment_witness :
    set_attributes (types.resource.make "notify" "x")
        ([(.assignment, ⟨"message", value.string "a"⟩)] ++
          (.append, ⟨"tag", value.string "b"⟩) :: [(.assignment, ⟨"noop", value.boolean true⟩)])
        { empty_state with
          catalog := [⟨types.resource.make "notify" "x", none, ⟨"site.pp", 1⟩, false, false, []⟩] }
      = .thrown (exception.evaluation_exception
          "illegal attribute operation '%1%': only '%2%' is supported in a resource expression.")
          { empty_state with
            catalog := [⟨types.resource.make "notify" "x", none, ⟨"site.pp", 1⟩, false, false,
              [⟨"message", value.string "a"⟩]⟩] } :=
  (set_attributes_only_assignment (types.resource.make "notify" "x")
    [(.assignment, ⟨"message", value.string "a"⟩)]
    [(.assignment, ⟨"noop", value.boolean true⟩)] .append ⟨"tag", value.string "b"⟩
    { empty_state with
      catalog := [⟨types.resource.make "notify" "x", none, ⟨"site.pp", 1⟩, false, false, []⟩] }
    (by intro p hp; simp only [List.mem_singleton] at hp; subst hp; rfl)
    (by decide)).1.trans rfl

/-- A value that holds a type holds neither a string nor an array. -/
theorem as_type_excludes (v : value) (t : values.type) (h : v.as_type = some t) :
    v.as_string = none ∧ v.as_array = none := by
  unfold value.as_type at h
  unfold value.as_string value.as_array
  cases hd : v.dereference <;> simp [hd] at h ⊢

/-- Claim C13: a resource expression whose type is the string `class` or the resource type
`Class` without a title, with status virtualized or exported, raises the evaluation error in
the state left by the evaluation of the type, whatever its bodies are: no attribute is
evaluated, no resource is added and no class is declared. -/
theorem class_cannot_be_virtual_or_exported (K : collaborators) (type : run value)
    (bodies : List resource_body_thunk) (st st1 : evaluation_state) (type_value : value)
    (htype : type st = .ok type_value st1)
    (hclass : type_value.as_string = some "class" ∨
      type_value.as_type = some (.resource ⟨"Class", ""⟩)) :
    resource_expression K type .virtualized bodies st
      = .thrown (exception.evaluation_exception "classes cannot be virtual resources.") st1 ∧
    resource_expression K type .exported bodies st
      = .thrown (exception.evaluation_exception "classes cannot be exported resources.") st1 := by
  have e0 : "".isEmpty = true := by decide
  have e1 : "class".isEmpty = false := by decide
  have e2 : "Class".isEmpty = false := by decide
  have hname : resource_type_name type_value = ("class", true) ∨
      resource_type_name type_value = ("Class", true) := by
    rcases hclass with h | h
    · left; simp [resource_type_name, h]
    · right
      have hs := (as_type_excludes type_value _ h).1
      simp [resource_type_name, h, hs, types.resource.is_class, e0]
  rcases hname with h | h <;>
    exact ⟨by simp [resource_expression, htype, h, e1, e2],
      by simp [resource_expression, htype, h, e1, e2]⟩

/-- Witness of claim C13: `@class { 'c': }` raises before the title, which would fail, is
evaluated. -/
theorem class_cannot_be_virtual_or_exported_witness :
    resource_expression plain_collaborators (yield (value.string "class")) .virtualized
        [⟨false, fun st => .thrown (exception.runtime_error "title evaluated") st,
          fun _ => yield [], ⟨"site.pp", 1⟩⟩]
        empty_state
      = .thrown (exception.evaluation_exception "classes cannot be virtual resources.")
          empty_state :=
  (class_cannot_be_virtual_or_exported plain_collaborators (yield (value.string "class"))
    [⟨false, fun st => .thrown (exception.runtime_error "title evaluated") st,
      fun _ => yield [], ⟨"site.pp", 1⟩⟩]
    empty_state empty_state (value.string "class") rfl (Or.inl rfl)).1

/-- The lambda `to_resource_type` refuses every class reference. -/
theorem to_resource_type_of_class (t : values.type) (h : is_class_reference t) :
    to_resource_type t
      = .error (exception.evaluation_exception
          "cannot override attributes of a class resource.") := by
  rcases h with ⟨title, rfl⟩ | ⟨r, rfl, hr⟩
  · rfl
  · simp [to_resource_type, hr]

/-- The loop over the elements of an array reference, in two parts, runs the first part, then
the second. -/
theorem override_elements_append (K : collaborators) (context : location) (attrs : attributes)
    (pre rest : List value) :
    ∀ st, override_elements K context attrs (pre ++ rest) st
      = match override_elements K context attrs pre st with
        | .thrown e st1 => .thrown e st1
        | .ok _ st1 => override_elements K context attrs rest st1 := by
  induction pre with
  | nil => intro st; simp [override_elements]
  | cons element pre ih =>
    intro st
    simp only [List.cons_append, override_elements]
    cases element.as_type with
    | none => rfl
    | some t =>
      simp only
      cases to_resource_type t with
      | error e => rfl
      | ok target =>
        simp only
        split
        · rfl
        · cases add_override K ⟨target, context, attrs⟩ st with
          | thrown e st1 => rfl
          | ok u st1 => exact ih st1

/-- Claim C17: a resource override expression whose reference is a `Class` type or a resource
type named `Class` raises the evaluation error in the state left by the evaluation of the
reference and of the attributes, so no override is added; for an array reference with such an
element the expression raises at that element at the latest, after the elements before it
were handled, so no override is added for it. -/
theorem override_of_class_fails (K : collaborators) (reference : run value)
    (attrs : run attributes) (context : location) (st st1 st2 : evaluation_state)
    (reference_value : value) (evaluated : attributes)
    (href : reference st = .ok reference_value st1)
    (hattrs : attrs st1 = .ok evaluated st2) :
    (∀ t, reference_value.as_type = some t → is_class_reference t →
      resource_override_expression K reference attrs context st
        = .thrown (exception.evaluation_exception
            "cannot override attributes of a class resource.") st2) ∧
    (∀ (pre post : List value) (element : value) (t : values.type),
      reference_value.as_array = some (pre ++ element :: post) →
      element.as_type = some t → is_class_reference t →
      resource_override_expression K reference attrs context st
        = match override_elements K context evaluated pre st2 with
          | .thrown e st3 => .thrown e st3
          | .ok _ st3 =>
            .thrown (exception.evaluation_exception
              "cannot override attributes of a class resource.") st3) := by
  refine ⟨?_, ?_⟩
  · intro t ht hclass
    have harr := (as_type_excludes reference_value t ht).2
    have hto := to_resource_type_of_class t hclass
    rcases hclass with ⟨title, rfl⟩ | ⟨r, rfl, hr⟩ <;>
      simp [resource_override_expression, href, hattrs, harr, ht, hto]
  · intro pre post element t harr ht hclass
    have hto := to_resource_type_of_class t hclass
    simp only [resource_override_expression, href, hattrs, harr, override_elements_append]
    cases override_elements K context evaluated pre st2 with
    | thrown e st3 => rfl
    | ok u st3 => simp [override_elements, ht, hto]

/-- Witness of claim C17: `Class['c'] { ... }` raises with nothing queued, and in
`[Notify['a'], Class['c'], Notify['b']] { ... }` only the override of `Notify[a]` is queued. -/
theorem override_of_class_fails_witness :
    resource_override_expression plain_collaborators
        (yield (value.type (.klass "c"))) (yield []) ⟨"site.pp", 1⟩ empty_state
      = .thrown (exception.evaluation_exception
          "cannot override attributes of a class resource.") empty_state ∧
    resource_override_expression plain_collaborators
        (yield (value.array ([value.type (.resource ⟨"Notify", "a"⟩)] ++
          value.type (.klass "c") :: [value.type (.resource ⟨"Notify", "b"⟩)])))
        (yield []) ⟨"site.pp", 1⟩ empty_state
      = .thrown (exception.evaluation_exception
          "cannot override attributes of a class resource.")
          { empty_state with overrides := [⟨⟨"Notify", "a"⟩, ⟨"site.pp", 1⟩, []⟩] } :=
  ⟨(override_of_class_fails plain_collaborators (yield (value.type (.klass "c"))) (yield [])
      ⟨"site.pp", 1⟩ empty_state empty_state empty_state (value.type (.klass "c")) [] rfl rfl).1
      (.klass "c") rfl (Or.inl ⟨"c", rfl⟩),
    ((override_of_class_fails plain_collaborators
      (yield (value.array ([value.type (.resource ⟨"Notify", "a"⟩)] ++
        value.type (.klass "c") :: [value.type (.resource ⟨"Notify", "b"⟩)])))
      (yield []) ⟨"site.pp", 1⟩ empty_state empty_state empty_state
      (value.array ([value.type (.resource ⟨"Notify", "a"⟩)] ++
        value.type (.klass "c") :: [value.type (.resource ⟨"Notify", "b"⟩)]))
      [] rfl rfl).2
      [value.type (.resource ⟨"Notify", "a"⟩)] [value.type (.resource ⟨"Notify", "b"⟩)]
      (value.type (.klass "c")) (.klass "c") rfl rfl (Or.inl ⟨"c", rfl⟩)).trans rfl⟩

/-- Adding a type that the catalog does not hold appends the new resource. -/
theorem catalog_add_fresh (c : catalog) (t : types.resource) (container : Option types.resource)
    (context : location) (virtual exported : Bool) (h : catalog.find c t = none) :
    catalog.add c t container context virtual exported
      = some (c ++ [⟨t, container, context, virtual, exported, []⟩]) := by
  simp [catalog.add, h]

/-- Adding a type that the catalog holds returns none. -/
theorem catalog_add_duplicate (c : catalog) (t : types.resource)
    (container : Option types.resource) (context : location) (virtual exported : Bool)
    (r : resource) (h : catalog.find c t = some r) :
    catalog.add c t container context virtual exported = none := by
  simp [catalog.add, h]

/-- A catalog that does not hold the type is left alone by a write to the resource of that
type. -/
theorem catalog_modify_absent (c : catalog) (t : types.resource) (f : resource → resource)
    (h : catalog.find c t = none) : catalog.modify c t f = c := by
  unfold catalog.find at h
  rw [List.find?_eq_none] at h
  unfold catalog.modify
  have : ∀ x ∈ c, (fun r : resource => if (r.type == t) = true then f r else r) x = id x := by
    intro x hx
    have := h x hx
    simp only [Bool.not_eq_true] at this
    simp [this]
  rw [List.map_congr_left this, List.map_id]

/-- A write to the resource that was appended last, in a catalog that did not hold its type. -/
theorem catalog_modify_fresh (c : catalog) (r : resource) (f : resource → resource)
    (h : catalog.find c r.type = none) :
    catalog.modify (c ++ [r]) r.type f = c ++ [f r] := by
  have h1 := catalog_modify_absent c r.type f h
  unfold catalog.modify at h1 ⊢
  rw [List.map_append, h1]
  simp

/-- Setting attributes keeps the type of the resource. -/
theorem resource_set_type (r : resource) (a : attribute_) : (r.set a).type = r.type := rfl

/-- Setting a list of attributes on the resource that was appended last. -/
theorem catalog_set_all_fresh (c : catalog) (attrs : attributes) :
    ∀ r : resource, catalog.find c r.type = none →
      catalog.set_all (c ++ [r]) r.type attrs = c ++ [r.set_all attrs] := by
  induction attrs with
  | nil => intro r _; rfl
  | cons p attrs ih =>
    intro r h
    have h2 : catalog.find c (r.set p.2).type = none := by rw [resource_set_type]; exact h
    have := ih (r.set p.2) h2
    rw [resource_set_type] at this
    simp only [catalog.set_all, resource.set_all, List.foldl_cons] at this ⊢
    rw [catalog_modify_fresh c r _ h]
    exact this

/-- Setting a list of attributes keeps the type of the resource. -/
theorem resource_set_all_type (r : resource) (attrs : attributes) :
    (r.set_all attrs).type = r.type := by
  induction attrs generalizing r with
  | nil => rfl
  | cons p attrs ih =>
    simp only [resource.set_all, List.foldl_cons] at ih ⊢
    rw [ih, resource_set_type]

/-- Setting a list of attributes on the resource of type `t` that was appended last. -/
theorem catalog_set_all_at (c : catalog) (t : types.resource) (attrs : attributes)
    (r : resource) (hr : r.type = t) (h : catalog.find c t = none) :
    catalog.set_all (c ++ [r]) t attrs = c ++ [r.set_all attrs] := by
  subst hr
  exact catalog_set_all_fresh c attrs r h

/-- Setting two lists of attributes one after the other is setting their concatenation. -/
theorem resource_set_all_append (r : resource) (first second : attributes) :
    (r.set_all first).set_all second = r.set_all (first ++ second) := by
  simp [resource.set_all, List.foldl_append]

/-- Looking a type up in a catalog with one more resource. -/
theorem catalog_find_append_none (c : catalog) (r : resource) (t : types.resource)
    (h : catalog.find c t = none) (hne : r.type ≠ t) : catalog.find (c ++ [r]) t = none := by
  unfold catalog.find at h ⊢
  rw [List.find?_eq_none] at h ⊢
  intro x hx
  rw [List.mem_append, List.mem_singleton] at hx
  rcases hx with hx | rfl
  · exact h x hx
  · simpa using hne

/-- The callback of `create_resources` for a title that is not empty and not yet declared, with
attributes that are all assignments: the resource is appended with the default attributes set
first and the attributes of the body second, then the queued overrides are evaluated. -/
theorem declare_resource_fresh (K : collaborators) (c : creation) (body_context : location)
    (defaults body_attributes : attributes) (resource_title : String)
    (resources : List (types.resource × location)) (st : evaluation_state)
    (hne : resource_title.isEmpty = false)
    (hfresh : catalog.find st.catalog
      (types.resource.make c.type_name (effective_title K c.is_class resource_title)) = none)
    (hd : all_assignment defaults) (ha : all_assignment body_attributes) :
    declare_resource K c body_context defaults body_attributes resource_title resources st
      = match K.evaluate_overrides
            (types.resource.make c.type_name (effective_title K c.is_class resource_title))
            { st with
              catalog := st.catalog ++
                [new_resource c body_context
                  (types.resource.make c.type_name (effective_title K c.is_class resource_title))
                  (defaults ++ body_attributes)],
              defined_types := st.defined_types ++
                declared_for c [effective_title K c.is_class resource_title] } with
        | .thrown e st1 => .thrown e st1
        | .ok _ st1 =>
          .ok (resources ++
            [(types.resource.make c.type_name (effective_title K c.is_class resource_title),
              body_context)]) st1 := by
  have heff : (if c.is_class = true then K.normalize resource_title else resource_title)
      = effective_title K c.is_class resource_title := rfl
  generalize effective_title K c.is_class resource_title = title at hfresh heff
  have e1 := catalog_set_all_at st.catalog (types.resource.make c.type_name title)
    defaults
    ⟨types.resource.make c.type_name title, c.container, body_context, c.is_virtual,
      c.is_exported, []⟩ rfl hfresh
  have e2 := catalog_set_all_at st.catalog (types.resource.make c.type_name title)
    body_attributes
    ((⟨types.resource.make c.type_name title, c.container, body_context, c.is_virtual,
      c.is_exported, []⟩ : resource).set_all defaults) (resource_set_all_type _ _) hfresh
  simp only [declare_resource, hne, heff, Bool.false_eq_true, if_false,
    catalog_add_fresh _ _ _ _ _ _ hfresh, set_attributes_assignments _ _ hd,
    set_attributes_assignments _ _ ha, e1, e2, resource_set_all_append]
  cases hdf : c.definition <;> simp [new_resource, declared_for, hdf]

/-- Two resource types made from one type name are equal only for equal titles. -/
theorem make_title_injective (type_name t1 t2 : String)
    (h : types.resource.make type_name t1 = types.resource.make type_name t2) : t1 = t2 := by
  unfold types.resource.make at h
  exact (types.resource.mk.injEq _ _ _ _ ▸ h).2

/-- The calls of the callback for titles that are not empty and whose effective titles are
distinct and not yet declared, when no override is queued: one resource per title is appended,
in order, each with the default attributes set first and the attributes of the body second. -/
theorem declare_resources_fresh (K : collaborators) (c : creation) (body_context : location)
    (defaults body_attributes : attributes)
    (hd : all_assignment defaults) (ha : all_assignment body_attributes)
    (hov : ∀ t st, K.evaluate_overrides t st = .ok () st) :
    ∀ (titles : List String) (resources : List (types.resource × location))
      (st : evaluation_state),
      (∀ t ∈ titles, t.isEmpty = false) →
      (titles.map (effective_title K c.is_class)).Nodup →
      (∀ t ∈ titles, catalog.find st.catalog
        (types.resource.make c.type_name (effective_title K c.is_class t)) = none) →
      declare_resources K c body_context defaults body_attributes titles resources st
        = .ok (resources ++ (titles.map (effective_title K c.is_class)).map
              (fun t => (types.resource.make c.type_name t, body_context)))
            { st with
              catalog := st.catalog ++ (titles.map (effective_title K c.is_class)).map (fun t =>
                new_resource c body_context (types.resource.make c.type_name t)
                  (defaults ++ body_attributes)),
              defined_types := st.defined_types ++
                declared_for c (titles.map (effective_title K c.is_class)) } := by
  intro titles
  induction titles with
  | nil =>
    intro resources st _ _ _
    cases hdf : c.definition <;> simp [declare_resources, declared_for, hdf]
  | cons t titles ih =>
    intro resources st hne hnodup hfresh
    have hne_t := hne t (List.mem_cons_self _ _)
    have hfresh_t := hfresh t (List.mem_cons_self _ _)
    rw [List.map_cons, List.nodup_cons] at hnodup
    have hstep := declare_resource_fresh K c body_context defaults body_attributes t resources st
      hne_t hfresh_t hd ha
    rw [hov] at hstep
    simp only at hstep
    have hfresh_rest : ∀ u ∈ titles,
        catalog.find (st.catalog ++
          [new_resource c body_context
            (types.resource.make c.type_name (effective_title K c.is_class t))
            (defaults ++ body_attributes)])
          (types.resource.make c.type_name (effective_title K c.is_class u)) = none := by
      intro u hu
      apply catalog_find_append_none _ _ _ (hfresh u (List.mem_cons_of_mem _ hu))
      intro heq
      have htype : (new_resource c body_context
          (types.resource.make c.type_name (effective_title K c.is_class t))
          (defaults ++ body_attributes)).type
          = types.resource.make c.type_name (effective_title K c.is_class t) :=
        resource_set_all_type _ _
      rw [htype] at heq
      have := make_title_injective _ _ _ heq
      apply hnodup.1
      rw [this]
      exact List.mem_map_of_mem _ hu
    have hrec := ih
      (resources ++
        [(types.resource.make c.type_name (effective_title K c.is_class t), body_context)])
      { st with
        catalog := st.catalog ++
          [new_resource c body_context
            (types.resource.make c.type_name (effective_title K c.is_class t))
            (defaults ++ body_attributes)],
        defined_types := st.defined_types ++
          declared_for c [effective_title K c.is_class t] }
      (fun u hu => hne u (List.mem_cons_of_mem _ hu)) hnodup.2 hfresh_rest
    simp only [declare_resources, hstep, hrec]
    cases hdf : c.definition <;> simp [declared_for, hdf]

/-- The strings of a title that is an array of strings are its elements. -/
theorem title_strings_of_strings (titles : List String) :
    title_strings (value.array (titles.map value.string)) = (titles, true) := by
  have h : title_strings_list (titles.map value.string) = (titles, true) := by
    induction titles with
    | nil => simp [title_strings_list]
    | cons t titles ih => simp [title_strings_list, title_strings, ih]
  simpa [title_strings] using h

/-- Claim C11: for a type that is a class, built-in or defined, a body whose title evaluates to
an array of non-empty strings that are distinct and not yet declared for the type (for a class:
once normalised) makes `create_resources` append one resource per string, in array order, each
with the default attributes and the attributes of the body, and return the created types in that
order (every attribute being an assignment and no override being queued).  For
`notify { default: ...; ['x', 'y']: message => 'hi'; 'z': }` the expression returns
`[Notify[x], Notify[y], Notify[z]]` and the catalog holds these three resources in this
order. -/
theorem create_resources_array_title (K : collaborators) (is_class : Bool) (type_name : String)
    (status : resource_status) (body : resource_body_thunk) (defaults attrs : attributes)
    (titles : List String) (st st1 st2 : evaluation_state)
    (hknown : is_class = true ∨ (types.resource.make type_name "").is_builtin = true ∨
      (K.find_defined_type type_name st).isSome = true)
    (htitle : body.title st = .ok (value.array (titles.map value.string)) st1)
    (hattrs : body.attributes is_class st1 = .ok attrs st2)
    (hd : all_assignment defaults) (ha : all_assignment attrs)
    (hne : ∀ t ∈ titles, t.isEmpty = false)
    (hnodup : (titles.map (effective_title K is_class)).Nodup)
    (hfresh : ∀ t ∈ titles, catalog.find st2.catalog
      (types.resource.make type_name (effective_title K is_class t)) = none)
    (hov : ∀ t s, K.evaluate_overrides t s = .ok () s) :
    create_resources K is_class type_name status [body] defaults st
      = .ok ((titles.map (effective_title K is_class)).map
            (fun t => (types.resource.make type_name t, body.context)))
          { st2 with
            catalog := st2.catalog ++ (titles.map (effective_title K is_class)).map (fun t =>
              new_resource (creation_of K is_class type_name status st) body.context
                (types.resource.make type_name t) (defaults ++ attrs)),
            defined_types := st2.defined_types ++
              declared_for (creation_of K is_class type_name status st)
                (titles.map (effective_title K is_class)) } ∧
    resource_expression plain_collaborators (yield (value.string "notify")) .realized
        notify_bodies empty_state
      = .ok (value.array [value.type (.resource ⟨"Notify", "x"⟩),
            value.type (.resource ⟨"Notify", "y"⟩), value.type (.resource ⟨"Notify", "z"⟩)])
          { empty_state with
            catalog :=
              [notify "x" 2 [⟨"loglevel", value.string "info"⟩, ⟨"message", value.string "hi"⟩],
               notify "y" 2 [⟨"loglevel", value.string "info"⟩, ⟨"message", value.string "hi"⟩],
               notify "z" 3 [⟨"loglevel", value.string "info"⟩, ⟨"message", value.string "d"⟩]] } := by
  refine ⟨?_, rfl⟩
  have hlookup : (if (!is_class && !(types.resource.make type_name "").is_builtin) = true then
        match K.find_defined_type type_name st with
        | some definition => (Except.ok (some definition) : Except exception (Option String))
        | none => .error (exception.evaluation_exception "type '%1%' has not been defined.")
      else .ok none) = .ok (creation_of K is_class type_name status st).definition := by
    unfold creation_of
    cases hcl : is_class with
    | true => simp
    | false =>
      cases hb : (types.resource.make type_name "").is_builtin with
      | true => simp
      | false =>
        rcases hknown with h | h | h
        · rw [hcl] at h; cases h
        · rw [hb] at h; cases h
        · cases hf : K.find_defined_type type_name st with
          | none => rw [hf] at h; cases h
          | some d => simp
  have hloop := declare_resources_fresh K (creation_of K is_class type_name status st)
    body.context defaults attrs hd ha hov titles [] st2 hne hnodup hfresh
  have hnotdef : (value.array (titles.map value.string)).is_default = false := rfl
  simp only [create_resources, hlookup]
  have hcr : (⟨is_class, type_name, (creation_of K is_class type_name status st).definition,
      if is_class = true then none else K.current_resource st, (resource_flags status).1,
      (resource_flags status).2⟩ : creation) = creation_of K is_class type_name status st := by
    simp [creation_of]
  rw [hcr]
  have hc : (creation_of K is_class type_name status st).is_class = is_class := rfl
  have htn : (creation_of K is_class type_name status st).type_name = type_name := rfl
  simp only [hc, htn] at hloop
  simp only [create_bodies, htitle, hnotdef, Bool.false_eq_true, if_false, hc, hattrs,
    title_strings_of_strings, hloop, if_true, List.nil_append]

/-- Witness of claim C11: `notify { ['x', 'y']: message => 'hi' }` with the default attribute
`loglevel => 'info'`, in an empty catalog. -/
theorem create_resources_array_title_witness :
    create_resources plain_collaborators false "notify" .realized
        [literal_body (value.array (["x", "y"].map value.string))
          [(.assignment, ⟨"message", value.string "hi"⟩)] 2]
        [(.assignment, ⟨"loglevel", value.string "info"⟩)] empty_state
      = .ok [(⟨"Notify", "x"⟩, ⟨"site.pp", 2⟩), (⟨"Notify", "y"⟩, ⟨"site.pp", 2⟩)]
          { empty_state with
            catalog :=
              [notify "x" 2 [⟨"loglevel", value.string "info"⟩, ⟨"message", value.string "hi"⟩],
               notify "y" 2 [⟨"loglevel", value.string "info"⟩, ⟨"message", value.string "hi"⟩]] } :=
  (create_resources_array_title plain_collaborators false "notify" .realized
    (literal_body (value.array (["x", "y"].map value.string))
      [(.assignment, ⟨"message", value.string "hi"⟩)] 2)
    [(.assignment, ⟨"loglevel", value.string "info"⟩)]
    [(.assignment, ⟨"message", value.string "hi"⟩)] ["x", "y"]
    empty_state empty_state empty_state (Or.inr (Or.inl rfl)) rfl rfl
    (by intro p hp; simp only [List.mem_singleton] at hp; subst hp; rfl)
    (by intro p hp; simp only [List.mem_singleton] at hp; subst hp; rfl)
    (by decide) (by decide) (fun _ _ => rfl) (fun _ _ => rfl)).1.trans rfl

/-- Claim C12, the behaviour of the code: the resource type handed to `catalog::add` and the
one handed to `catalog::find` are both built from `rvalue_cast(resource_title)`, so on a
duplicate the lookup is made with the emptied title, finds nothing, and the code throws the
runtime error `expected previous resource.` instead of the evaluation error that reports the
previous declaration.  This holds for `notify { 'a': }` when `Notify[a]`, declared at
`site.pp:1`, is in the catalog, and for `notify { ['a', 'a']: }` in an empty catalog; in both
cases no second `Notify[a]` is added. -/
theorem duplicate_declaration_loses_location :
    catalog.find [notify "a" 1 []] (types.resource.make "notify" "a") = some (notify "a" 1 []) ∧
    resource_expression plain_collaborators (yield (value.string "notify")) .realized
        [literal_body (value.string "a") [] 7] { empty_state with catalog := [notify "a" 1 []] }
      = .thrown (exception.runtime_error "expected previous resource.")
          { empty_state with catalog := [notify "a" 1 []] } ∧
    resource_expression plain_collaborators (yield (value.string "notify")) .realized
        [literal_body (value.array [value.string "a", value.string "a"]) [] 7] empty_state
      = .thrown (exception.runtime_error "expected previous resource.")
          { empty_state with catalog := [notify "a" 7 []] } :=
  ⟨rfl, rfl, rfl⟩

/-- A write to the attributes of a resource changes neither types nor flags. -/
theorem created_with_flags_modify (old : catalog) (status : resource_status)
    (st : evaluation_state) (t : types.resource) (a : attribute_)
    (h : created_with_flags old status st) :
    created_with_flags old status
      { st with catalog := catalog.modify st.catalog t (fun r => r.set a) } := by
  intro r hr
  simp only [catalog.modify, List.mem_map] at hr
  obtain ⟨r0, hr0, rfl⟩ := hr
  have h0 := h r0 hr0
  split
  · exact h0
  · exact h0

/-- The function `set_attributes` keeps the flags of the created resources. -/
theorem set_attributes_preserves (old : catalog) (status : resource_status)
    (target : types.resource) (attrs : attributes) :
    preserves (created_with_flags old status) (set_attributes target attrs) := by
  induction attrs with
  | nil => intro st h; exact h
  | cons p attrs ih =>
    intro st h
    obtain ⟨oper, a⟩ := p
    by_cases hop : oper = attribute_operator.assignment
    · simp only [set_attributes, hop, ne_eq, not_true_eq_false, if_false]
      exact ih _ (created_with_flags_modify old status st target a h)
    · simp only [set_attributes, hop, ne_eq, not_false_eq_true, if_true]
      exact h

/-- The callback of `create_resources` keeps the flags of the created resources: the resource
it adds carries the flags fixed before the loop. -/
theorem declare_resource_preserves (K : collaborators) (c : creation) (old : catalog)
    (status : resource_status) (body_context : location) (defaults body_attributes : attributes)
    (resource_title : String) (resources : List (types.resource × location))
    (hv : c.is_virtual = (resource_flags status).1)
    (he : c.is_exported = (resource_flags status).2)
    (hK : ∀ t, preserves (created_with_flags old status) (K.evaluate_overrides t)) :
    preserves (created_with_flags old status)
      (declare_resource K c body_context defaults body_attributes resource_title resources) := by
  intro st h
  unfold declare_resource
  split
  · exact h
  · simp only
    generalize types.resource.make c.type_name
      (if c.is_class = true then K.normalize resource_title else resource_title) = type
    split
    · split <;> exact h
    · rename_i added hadd
      have hadded : created_with_flags old status { st with catalog := added } := by
        unfold catalog.add at hadd
        split at hadd
        · cases hadd
        · simp only [Option.some.injEq] at hadd
          subst hadd
          intro r hr
          simp only [List.mem_append, List.mem_singleton] at hr
          rcases hr with hr | rfl
          · exact h r hr
          · exact Or.inr ⟨hv, he⟩
      have h1 := set_attributes_preserves old status type defaults _ hadded
      split
      · rename_i e st1 heq
        rw [heq] at h1; exact h1
      · rename_i u st1 heq
        rw [heq] at h1
        have h1' : created_with_flags old status st1 := h1
        have h2 := set_attributes_preserves old status type body_attributes _ h1'
        split
        · rename_i e st2 heq2
          rw [heq2] at h2; exact h2
        · rename_i u2 st2 heq2
          rw [heq2] at h2
          have h2' : created_with_flags old status st2 := h2
          have h3 : created_with_flags old status
              (match c.definition with
               | some definition =>
                 { st2 with defined_types := st2.defined_types ++ [(type, definition)] }
               | none => st2) := by
            cases c.definition <;> exact h2'
          have h4 := hK type _ h3
          split
          · rename_i e st4 heq4
            rw [heq4] at h4; exact h4
          · rename_i u4 st4 heq4
            rw [heq4] at h4; exact h4

/-- The calls of the callback for the strings of one title keep the flags of the created
resources. -/
theorem declare_resources_preserves (K : collaborators) (c : creation) (old : catalog)
    (status : resource_status) (body_context : location) (defaults body_attributes : attributes)
    (hv : c.is_virtual = (resource_flags status).1)
    (he : c.is_exported = (resource_flags status).2)
    (hK : ∀ t, preserves (created_with_flags old status) (K.evaluate_overrides t)) :
    ∀ (titles : List String) (resources : List (types.resource × location)),
      preserves (created_with_flags old status)
        (declare_resources K c body_context defaults body_attributes titles resources) := by
  intro titles
  induction titles with
  | nil => intro resources st h; exact h
  | cons t titles ih =>
    intro resources st h
    have h1 := declare_resource_preserves K c old status body_context defaults body_attributes
      t resources hv he hK st h
    simp only [declare_resources]
    split
    · rename_i e st1 heq
      rw [heq] at h1; exact h1
    · rename_i resources1 st1 heq
      rw [heq] at h1
      exact ih resources1 st1 h1

/-- The loop of `create_resources` over the bodies keeps the flags of the created resources,
when the evaluation of the titles and attributes does. -/
theorem create_bodies_preserves (K : collaborators) (c : creation) (old : catalog)
    (status : resource_status) (defaults : attributes)
    (hv : c.is_virtual = (resource_flags status).1)
    (he : c.is_exported = (resource_flags status).2)
    (hK : ∀ t, preserves (created_with_flags old status) (K.evaluate_overrides t)) :
    ∀ (bodies : List resource_body_thunk),
      (∀ body ∈ bodies, preserves (created_with_flags old status) body.title ∧
        ∀ b, preserves (created_with_flags old status) (body.attributes b)) →
      ∀ (resources : List (types.resource × location)),
        preserves (created_with_flags old status)
          (create_bodies K c defaults bodies resources) := by
  intro bodies
  induction bodies with
  | nil => intro _ resources st h; exact h
  | cons body bodies ih =>
    intro hbodies resources st h
    have hrest := ih (fun b hb => hbodies b (List.mem_cons_of_mem _ hb))
    obtain ⟨htitle, hattrs⟩ := hbodies body (List.mem_cons_self _ _)
    have h1 := htitle st h
    simp only [create_bodies]
    split
    · rename_i e st1 heq
      rw [heq] at h1; exact h1
    · rename_i title st1 heq
      rw [heq] at h1
      have h1' : created_with_flags old status st1 := h1
      split
      · exact hrest resources st1 h1'
      · have h2 := hattrs c.is_class st1 h1'
        split
        · rename_i e st2 heq2
          rw [heq2] at h2; exact h2
        · rename_i body_attributes st2 heq2
          rw [heq2] at h2
          have h2' : created_with_flags old status st2 := h2
          have h3 := declare_resources_preserves K c old status body.context defaults
            body_attributes hv he hK (title_strings title).1 resources st2 h2'
          split
          · rename_i e st3 heq3
            rw [heq3] at h3; exact h3
          · rename_i resources1 st3 heq3
            rw [heq3] at h3
            have h3' : created_with_flags old status st3 := h3
            split
            · exact hrest resources1 st3 h3'
            · exact h3'

/-- The loop that declares the classes keeps the flags of the created resources, when
`declare_class` does. -/
theorem declare_classes_preserves (K : collaborators) (old : catalog)
    (status : resource_status)
    (hdc : ∀ name context, preserves (created_with_flags old status)
      (K.declare_class name context)) :
    ∀ resources : List (types.resource × location),
      preserves (created_with_flags old status) (declare_classes K resources) := by
  intro resources
  induction resources with
  | nil => intro st h; exact h
  | cons r resources ih =>
    intro st h
    obtain ⟨type, context⟩ := r
    have h1 := hdc type.title context st h
    simp only [declare_classes]
    split
    · rename_i e st1 heq
      rw [heq] at h1; exact h1
    · rename_i u st1 heq
      rw [heq] at h1
      exact ih st1 h1

/-- The function `create_resources` keeps the flags of the created resources. -/
theorem create_resources_preserves (K : collaborators) (old : catalog) (is_class : Bool)
    (type_name : String) (status : resource_status) (bodies : List resource_body_thunk)
    (defaults : attributes)
    (hbodies : ∀ body ∈ bodies, preserves (created_with_flags old status) body.title ∧
      ∀ b, preserves (created_with_flags old status) (body.attributes b))
    (hK : ∀ t, preserves (created_with_flags old status) (K.evaluate_overrides t)) :
    preserves (created_with_flags old status)
      (create_resources K is_class type_name status bodies defaults) := by
  intro st h
  unfold create_resources
  simp only
  split
  · exact h
  · exact create_bodies_preserves K _ old status defaults rfl rfl hK bodies hbodies [] st h

/-- The default body that `find_default_body` returns is one of the bodies, or the one it was
started with. -/
theorem find_default_body_mem :
    ∀ (bodies : List resource_body_thunk) (start body : Option resource_body_thunk),
      find_default_body bodies start = .ok body →
      body = start ∨ ∃ b ∈ bodies, body = some b ∧ b.title_is_default = true := by
  intro bodies
  induction bodies with
  | nil =>
    intro start body h
    simp only [find_default_body, Except.ok.injEq] at h
    exact Or.inl h.symm
  | cons b bodies ih =>
    intro start body h
    simp only [find_default_body] at h
    split at h
    · rcases ih start body h with h1 | ⟨x, hx, h2⟩
      · exact Or.inl h1
      · exact Or.inr ⟨x, List.mem_cons_of_mem _ hx, h2⟩
    · rename_i hdef
      simp only [Bool.not_eq_true, Bool.not_eq_false'] at hdef
      split at h
      · cases h
      · rcases ih (some b) body h with h1 | ⟨x, hx, h2⟩
        · exact Or.inr ⟨b, List.mem_cons_self _ _, h1, by simpa using hdef⟩
        · exact Or.inr ⟨x, List.mem_cons_of_mem _ hx, h2⟩

/-- Claim C14: the flags of a created resource depend on the declaration form only: bare gives
neither flag, `@` gives virtual, `@@` gives virtual and exported, so an exported resource is
virtual; and whatever the resource expression evaluates, every resource of the catalog that was
not declared before the expression carries these flags (the evaluation of its type, titles and
attributes, `evaluate_overrides` and `declare_class` creating no resource of another form). -/
theorem resources_carry_declared_flags (K : collaborators) (type : run value)
    (status : resource_status) (bodies : List resource_body_thunk) (st : evaluation_state)
    (htype : preserves (created_with_flags st.catalog status) type)
    (hbodies : ∀ body ∈ bodies, preserves (created_with_flags st.catalog status) body.title ∧
      ∀ b, preserves (created_with_flags st.catalog status) (body.attributes b))
    (hK : ∀ t, preserves (created_with_flags st.catalog status) (K.evaluate_overrides t))
    (hdc : ∀ name context, preserves (created_with_flags st.catalog status)
      (K.declare_class name context)) :
    resource_flags .realized = (false, false) ∧
    resource_flags .virtualized = (true, false) ∧
    resource_flags .exported = (true, true) ∧
    (∀ s, (resource_flags s).2 = true → (resource_flags s).1 = true) ∧
    created_with_flags st.catalog status (resource_expression K type status bodies st).state := by
  refine ⟨rfl, rfl, rfl, ?_, ?_⟩
  · intro s hs
    cases s <;> simp [resource_flags] at hs ⊢
  · have h0 : created_with_flags st.catalog status st := fun r hr => Or.inl ⟨r, hr, rfl⟩
    have h1 := htype st h0
    unfold resource_expression
    split
    · rename_i e st1 heq
      rw [heq] at h1; exact h1
    · rename_i type_value st1 heq
      rw [heq] at h1
      have h1' : created_with_flags st.catalog status st1 := h1
      simp only
      split
      · exact h1'
      · split
        · exact h1'
        · split
          · exact h1'
          · split
            · exact h1'
            · rename_i default_body hfind
              have h2 : created_with_flags st.catalog status
                  (match default_body with
                   | some body => body.attributes (resource_type_name type_value).2 st1
                   | none => completion.ok [] st1).state := by
                cases hdb : default_body with
                | none => exact h1'
                | some body =>
                  have hmem : body ∈ bodies := by
                    rw [hdb] at hfind
                    rcases find_default_body_mem bodies none (some body) hfind with h5 | h5
                    · cases h5
                    · obtain ⟨x, hx, h6, _⟩ := h5
                      simp only [Option.some.injEq] at h6
                      rw [h6]; exact hx
                  exact (hbodies body hmem).2 _ st1 h1'
              split
              · rename_i e st2 heq2
                rw [heq2] at h2; exact h2
              · rename_i defaults st2 heq2
                rw [heq2] at h2
                have h2' : created_with_flags st.catalog status st2 := h2
                have h3 := create_resources_preserves K st.catalog
                  (resource_type_name type_value).2 (resource_type_name type_value).1 status
                  bodies defaults hbodies hK st2 h2'
                split
                · rename_i e st3 heq3
                  rw [heq3] at h3; exact h3
                · rename_i resources st3 heq3
                  rw [heq3] at h3
                  have h3' : created_with_flags st.catalog status st3 := h3
                  have h4 : created_with_flags st.catalog status
                      (if (resource_type_name type_value).2 = true then
                        declare_classes K resources st3
                       else completion.ok () st3).state := by
                    split
                    · exact declare_classes_preserves K st.catalog status hdc resources st3 h3'
                    · exact h3'
                  split
                  · rename_i e st4 heq4
                    rw [heq4] at h4; exact h4
                  · rename_i u st4 heq4
                    rw [heq4] at h4; exact h4

/-- Witness of claim C14: `@@notify { 'x': }` next to an earlier bare `Notify[a]`; the new
resource is virtual and exported, the earlier one is as it was. -/
theorem resources_carry_declared_flags_witness :
    created_with_flags [notify "a" 1 []] .exported
      (resource_expression plain_collaborators (yield (value.string "notify")) .exported
        [literal_body (value.string "x") [] 2]
        { empty_state with catalog := [notify "a" 1 []] }).state ∧
    (resource_expression plain_collaborators (yield (value.string "notify")) .exported
        [literal_body (value.string "x") [] 2]
        { empty_state with catalog := [notify "a" 1 []] }).state.catalog
      = [notify "a" 1 [], ⟨⟨"Notify", "x"⟩, none, ⟨"site.pp", 2⟩, true, true, []⟩] :=
  ⟨(resources_carry_declared_flags plain_collaborators (yield (value.string "notify")) .exported
      [literal_body (value.string "x") [] 2] { empty_state with catalog := [notify "a" 1 []] }
      (fun _ h => h)
      (by
        intro body hb
        simp only [List.mem_singleton] at hb
        subst hb
        exact ⟨fun _ h => h, fun _ _ h => h⟩)
      (fun _ _ h => h) (fun _ _ _ h => h)).2.2.2.2,
    rfl⟩

/-- In a list where every attribute of a given name was replaced by `a`, the first attribute
of that name is `a`. -/
theorem find_replaced (a : attribute_) :
    ∀ l : List attribute_, l.any (fun b => b.name == a.name) = true →
      (l.map (fun b => if b.name == a.name then a else b)).find? (fun b => b.name == a.name)
        = some a := by
  intro l
  induction l with
  | nil => intro h; simp at h
  | cons x xs ih =>
    intro h
    cases hx : (x.name == a.name) with
    | true =>
      rw [List.map_cons, List.find?_cons]
      simp only [hx, if_true, beq_self_eq_true]
    | false =>
      have hxs : xs.any (fun b => b.name == a.name) = true := by
        rw [List.any_cons, hx] at h
        simpa using h
      rw [List.map_cons, List.find?_cons]
      simp only [hx, Bool.false_eq_true, if_false]
      exact ih hxs

/-- The attribute that was set last is the one found under its name. -/
theorem resource_set_find (r : resource) (a : attribute_) :
    (r.set a).attributes.find? (fun b => b.name == a.name) = some a := by
  unfold resource.set
  simp only
  split
  · rename_i hany
    exact find_replaced a r.attributes hany
  · rename_i hany
    simp only [Bool.not_eq_true] at hany
    rw [List.find?_append]
    have hnone : List.find? (fun b => b.name == a.name) r.attributes = none := by
      rw [List.find?_eq_none]
      intro x hx
      rw [List.any_eq_false] at hany
      simpa using hany x hx
    simp [hnone]

/-- The loop of `create_resources` over bodies in two parts runs the first part, then the
second. -/
theorem create_bodies_append (K : collaborators) (c : creation) (defaults : attributes)
    (pre rest : List resource_body_thunk) :
    ∀ (resources : List (types.resource × location)) (st : evaluation_state),
      create_bodies K c defaults (pre ++ rest) resources st
        = match create_bodies K c defaults pre resources st with
          | .thrown e st1 => .thrown e st1
          | .ok resources1 st1 => create_bodies K c defaults rest resources1 st1 := by
  induction pre with
  | nil => intro resources st; simp [create_bodies]
  | cons body pre ih =>
    intro resources st
    simp only [List.cons_append, create_bodies]
    cases body.title st with
    | thrown e st1 => rfl
    | ok title st1 =>
      simp only
      split
      · exact ih resources st1
      · cases body.attributes c.is_class st1 with
        | thrown e st2 => rfl
        | ok body_attributes st2 =>
          simp only
          cases declare_resources K c body.context defaults body_attributes
              (title_strings title).1 resources st2 with
          | thrown e st3 => rfl
          | ok resources1 st3 =>
            simp only
            split
            · exact ih resources1 st3
            · rfl

/-- In `create_resources` a body whose title evaluates to `default` is passed over: nothing of
it but the title is evaluated. -/
theorem create_bodies_skip_default (K : collaborators) (c : creation) (defaults : attributes)
    (d : resource_body_thunk) (rest : List resource_body_thunk)
    (resources : List (types.resource × location)) (st st1 : evaluation_state) (v : value)
    (htitle : d.title st = .ok v st1) (hv : v.is_default = true) :
    create_bodies K c defaults (d :: rest) resources st
      = create_bodies K c defaults rest resources st1 := by
  simp [create_bodies, htitle, hv]

/-- Claim C15: in a resource expression with a default body `d`, the attributes of `d` are
evaluated right after the type, before `create_resources` evaluates any title or any attribute
of another body, and `create_resources` passes over `d` wherever it stands, so they are
evaluated once; every created resource gets the default attributes first and the attributes of
its body second, and the attribute set last is the one kept under its name. -/
theorem default_attributes_first (K : collaborators) (type : run value)
    (status : resource_status) (bodies : List resource_body_thunk) (d : resource_body_thunk)
    (st st1 : evaluation_state) (type_value : value)
    (htype : type st = .ok type_value st1)
    (hname : (resource_type_name type_value).1.isEmpty = false)
    (hallowed : (resource_type_name type_value).2 = false ∨ status = .realized)
    (hdefault : find_default_body bodies none = .ok (some d)) :
    (∀ e st2, d.attributes (resource_type_name type_value).2 st1 = .thrown e st2 →
      resource_expression K type status bodies st = .thrown e st2) ∧
    (∀ defaults st2, d.attributes (resource_type_name type_value).2 st1 = .ok defaults st2 →
      resource_expression K type status bodies st
        = return_created K (resource_type_name type_value).2
            (create_resources K (resource_type_name type_value).2
              (resource_type_name type_value).1 status bodies defaults st2)) ∧
    (∀ (c : creation) (defaults : attributes) (pre post : List resource_body_thunk)
        (resources : List (types.resource × location)) (s : evaluation_state),
      (∀ s1, d.title s1 = .ok value.defaulted s1) →
      create_bodies K c defaults (pre ++ d :: post) resources s
        = create_bodies K c defaults (pre ++ post) resources s) ∧
    (∀ (c : creation) (body_context : location) (defaults body_attributes : attributes)
        (resource_title : String) (resources : List (types.resource × location))
        (s : evaluation_state),
      resource_title.isEmpty = false →
      catalog.find s.catalog
        (types.resource.make c.type_name (effective_title K c.is_class resource_title)) = none →
      all_assignment defaults → all_assignment body_attributes →
      declare_resource K c body_context defaults body_attributes resource_title resources s
        = match K.evaluate_overrides
              (types.resource.make c.type_name (effective_title K c.is_class resource_title))
              { s with
                catalog := s.catalog ++
                  [new_resource c body_context
                    (types.resource.make c.type_name
                      (effective_title K c.is_class resource_title))
                    (defaults ++ body_attributes)],
                defined_types := s.defined_types ++
                  declared_for c [effective_title K c.is_class resource_title] } with
          | .thrown e s1 => .thrown e s1
          | .ok _ s1 =>
            .ok (resources ++
              [(types.resource.make c.type_name (effective_title K c.is_class resource_title),
                body_context)]) s1) ∧
    (∀ (r : resource) (defaults earlier : attributes) (p : attribute_operator × attribute_),
      (r.set_all (defaults ++ (earlier ++ [p]))).attributes.find? (fun b => b.name == p.2.name)
        = some p.2) ∧
    resource_expression plain_collaborators (yield (value.string "notify")) .realized
        marked_bodies { empty_state with epp_streams := [[]] }
      = .ok (value.array [value.type (.resource ⟨"Notify", "x"⟩)])
          { empty_state with
            catalog := [notify "x" 1
              [⟨"message", value.string "m"⟩, ⟨"loglevel", value.string "info"⟩]],
            epp_streams := [[value.string "attributes of default", value.string "title of x",
              value.string "attributes of x", value.string "title of default"]] } := by
  have hguard1 : ((resource_type_name type_value).2 && status == resource_status.virtualized)
      = false := by
    rcases hallowed with h | h
    · simp [h]
    · simp [h]
  have hguard2 : ((resource_type_name type_value).2 && status == resource_status.exported)
      = false := by
    rcases hallowed with h | h
    · simp [h]
    · simp [h]
  refine ⟨?_, ?_, ?_, ?_, ?_, rfl⟩
  · intro e st2 hattrs
    simp [resource_expression, htype, hname, hguard1, hguard2, hdefault, hattrs]
  · intro defaults st2 hattrs
    simp only [resource_expression, htype, hname, hguard1, hguard2, hdefault, hattrs,
      Bool.false_eq_true, if_false, return_created]
  · intro c defaults pre post resources s htitle
    rw [create_bodies_append, create_bodies_append]
    cases create_bodies K c defaults pre resources s with
    | thrown e s1 => rfl
    | ok resources1 s1 =>
      exact create_bodies_skip_default K c defaults d post resources1 s1 s1 value.defaulted
        (htitle s1) rfl
  · intro c body_context defaults body_attributes resource_title resources s hne hfresh hd ha
    exact declare_resource_fresh K c body_context defaults body_attributes resource_title
      resources s hne hfresh hd ha
  · intro r defaults earlier p
    have : r.set_all (defaults ++ (earlier ++ [p]))
        = (r.set_all (defaults ++ earlier)).set p.2 := by
      simp [resource.set_all, List.foldl_append]
    rw [this]
    exact resource_set_find _ _

/-- Witness of claim C15: in `notify { default: message => 'd'; 'x': message => 'm' }` the
default attributes are the ones handed to `create_resources`. -/
theorem default_attributes_first_witness :
    resource_expression plain_collaborators (yield (value.string "notify")) .realized
        [literal_body value.defaulted [(.assignment, ⟨"message", value.string "d"⟩)] 1,
         literal_body (value.string "x") [(.assignment, ⟨"message", value.string "m"⟩)] 2]
        empty_state
      = .ok (value.array [value.type (.resource ⟨"Notify", "x"⟩)])
          { empty_state with catalog := [notify "x" 2 [⟨"message", value.string "m"⟩]] } :=
  ((default_attributes_first plain_collaborators (yield (value.string "notify")) .realized
      [literal_body value.defaulted [(.assignment, ⟨"message", value.string "d"⟩)] 1,
       literal_body (value.string "x") [(.assignment, ⟨"message", value.string "m"⟩)] 2]
      (literal_body value.defaulted [(.assignment, ⟨"message", value.string "d"⟩)] 1)
      empty_state empty_state (value.string "notify") rfl rfl (Or.inl rfl) rfl).2.1
      [(.assignment, ⟨"message", value.string "d"⟩)] empty_state rfl).trans rfl

/-! ## The logical not and the operands of the right shift -/

/-- Claim C22: the logical not returns the boolean `true` exactly when its operand holds
`undef` or `false`, and the boolean `false` for every other operand; in particular for the
integer 0, the empty string, the empty array and the empty hash. -/
theorem logical_not_truth_table (c : unary_operator_context) :
    (logical_not c = value.boolean true ↔
      (c.operand.dereference = value.undef ∨ c.operand.dereference = value.boolean false)) ∧
    (logical_not c = value.boolean false ↔
      ¬ (c.operand.dereference = value.undef ∨ c.operand.dereference = value.boolean false)) ∧
    (∀ k : location,
      logical_not ⟨value.integer 0, k⟩ = value.boolean false ∧
      logical_not ⟨value.string "", k⟩ = value.boolean false ∧
      logical_not ⟨value.array [], k⟩ = value.boolean false ∧
      logical_not ⟨value.hash [], k⟩ = value.boolean false) := by
  refine ⟨?_, ?_, fun k => ⟨rfl, rfl, rfl, rfl⟩⟩
  · unfold logical_not value.is_truthy
    cases h : c.operand.dereference <;> simp
  · unfold logical_not value.is_truthy
    cases h : c.operand.dereference <;> simp

/-- Witness of claim C22: the logical not of `undef` is `true`, and that of a variable that
holds the integer 0 is `false`. -/
theorem logical_not_truth_table_witness :
    logical_not ⟨value.undef, ⟨"site.pp", 1⟩⟩ = value.boolean true ∧
    logical_not ⟨value.variable "x" (value.integer 0), ⟨"site.pp", 1⟩⟩ = value.boolean false :=
  ⟨(logical_not_truth_table ⟨value.undef, ⟨"site.pp", 1⟩⟩).1.2 (Or.inl rfl),
    (logical_not_truth_table ⟨value.variable "x" (value.integer 0), ⟨"site.pp", 1⟩⟩).2.1.2
      (fun h => by rcases h with h | h <;> cases h)⟩

/-- Claim C21: the right shift returns a value exactly when both operands hold integers, and
then the shift of the two integers.  When the left operand holds no integer the evaluation
error cites the context of the left operand, whatever the right operand holds; when the left
operand holds an integer and the right operand does not, it cites the context of the right
operand. -/
theorem right_shift_operand_errors (c : binary_operator_context) :
    ((∃ v, right_shift c = .ok v) ↔
      ((∃ l, c.left.as_integer = some l) ∧ (∃ r, c.right.as_integer = some r))) ∧
    (∀ l r, c.left.as_integer = some l → c.right.as_integer = some r →
      right_shift c = .ok (value.integer (right_shift_integers l r))) ∧
    (c.left.as_integer = none →
      ∃ message,
        right_shift c = .error ⟨exception.evaluation_exception message, c.left_context⟩) ∧
    (∀ l, c.left.as_integer = some l → c.right.as_integer = none →
      ∃ message,
        right_shift c = .error ⟨exception.evaluation_exception message, c.right_context⟩) := by
  unfold right_shift value.as_integer
  cases hl : c.left.dereference <;> cases hr : c.right.dereference <;>
    simp [right_shift_visitor]

/-- Witness of claim C21: in `'a' >> 'b'` the error cites the left operand, in `8 >> 'b'` the
right operand, and `8 >> 2` is 2. -/
theorem right_shift_operand_errors_witness :
    (∃ message, right_shift ⟨value.string "a", ⟨"site.pp", 1⟩, value.string "b", ⟨"site.pp", 2⟩⟩ =
      .error ⟨exception.evaluation_exception message, ⟨"site.pp", 1⟩⟩) ∧
    (∃ message, right_shift ⟨value.integer 8, ⟨"site.pp", 1⟩, value.string "b", ⟨"site.pp", 2⟩⟩ =
      .error ⟨exception.evaluation_exception message, ⟨"site.pp", 2⟩⟩) ∧
    right_shift ⟨value.integer 8, ⟨"site.pp", 1⟩, value.integer 2, ⟨"site.pp", 2⟩⟩ =
      .ok (value.integer 2) :=
  ⟨(right_shift_operand_errors
      ⟨value.string "a", ⟨"site.pp", 1⟩, value.string "b", ⟨"site.pp", 2⟩⟩).2.2.1 rfl,
    (right_shift_operand_errors
      ⟨value.integer 8, ⟨"site.pp", 1⟩, value.string "b", ⟨"site.pp", 2⟩⟩).2.2.2 8 rfl rfl,
    ((right_shift_operand_errors
      ⟨value.integer 8, ⟨"site.pp", 1⟩, value.integer 2, ⟨"site.pp", 2⟩⟩).2.1 8 2 rfl rfl).trans
      (by rw [show right_shift_integers 8 2 = 2 by decide])⟩

/-! ## The types `Resource`, `Any`, `Boolean` and `Undef` -/

/-- A string is not empty exactly when `isEmpty` is false. -/
theorem isEmpty_eq_false_iff (s : String) : s.isEmpty = false ↔ s ≠ "" := by
  rw [← Bool.not_eq_true, String.isEmpty_iff]

/-- Claim C30: every value is an instance of `Any`, and every type but `Any` itself is a
specialization of `Any`. -/
theorem any_is_top :
    (∀ v : value, types.any.is_instance v = true) ∧
    (∀ t : values.type, types.any.is_specialization t = true ↔ t ≠ values.type.any) ∧
    types.any.is_specialization values.type.any = false := by
  refine ⟨fun _ => rfl, fun t => ?_, rfl⟩
  cases t <;> simp [types.any.is_specialization]

/-- Witness of claim C30: the resource type `File` is a specialization of `Any`. -/
theorem any_is_top_witness :
    types.any.is_specialization (values.type.resource (types.resource.make "file" "")) = true :=
  (any_is_top.2.1 (values.type.resource (types.resource.make "file" ""))).2
    (fun h => by cases h)

/-- Claim C25: a value is an instance of the resource type `R` exactly when it holds a resource
type `V` and either the type name of `R` is empty, or it is the type name of `V` and the title
of `R` is empty or the title of `V`.  A value that holds no type, or a type that is not a
resource type, is not an instance. -/
theorem resource_is_instance_rule (R : types.resource) (v : value) :
    (R.is_instance v = true ↔
      ∃ V : types.resource, v.as_type = some (values.type.resource V) ∧
        (R.type_name = "" ∨
          (R.type_name = V.type_name ∧ (R.title = "" ∨ R.title = V.title)))) ∧
    (v.as_type = none → R.is_instance v = false) ∧
    (∀ t, v.as_type = some t → (∀ V, t ≠ values.type.resource V) →
      R.is_instance v = false) := by
  unfold types.resource.is_instance
  cases h : v.as_type with
  | none => simp
  | some t => cases t <;> simp [String.isEmpty_iff]

/-- Witness of claim C25: the string `file` is not an instance of `File`, the type `Any` is
not one either, and `File['/tmp']` is one. -/
theorem resource_is_instance_rule_witness :
    (types.resource.make "file" "").is_instance (value.string "file") = false ∧
    (types.resource.make "file" "").is_instance (value.type values.type.any) = false ∧
    (types.resource.make "file" "").is_instance
      (value.type (values.type.resource (types.resource.make "FILE" "/tmp"))) = true :=
  ⟨(resource_is_instance_rule (types.resource.make "file" "") (value.string "file")).2.1 rfl,
    (resource_is_instance_rule (types.resource.make "file" "")
      (value.type values.type.any)).2.2 values.type.any rfl (fun _ h => by cases h),
    (resource_is_instance_rule (types.resource.make "file" "")
      (value.type (values.type.resource (types.resource.make "FILE" "/tmp")))).1.2
      ⟨types.resource.make "FILE" "/tmp", rfl, Or.inr ⟨by decide, Or.inl rfl⟩⟩⟩

/-- Claim C27: for types `T1` and `T2` among the resource types and `Any`, when `T1` is a
specialization of `T2` every instance of `T1` is an instance of `T2`. -/
theorem instance_specialization_coherence (rest : values.type → value → Bool)
    (rest2 : values.type → values.type → Bool) (T1 T2 : values.type) (v : value)
    (h1 : T1 = values.type.any ∨ ∃ r, T1 = values.type.resource r)
    (h2 : T2 = values.type.any ∨ ∃ r, T2 = values.type.resource r)
    (hs : T2.is_specialization rest2 T1 = true) (hi : T1.is_instance rest v = true) :
    T2.is_instance rest v = true := by
  rcases h2 with rfl | ⟨r2, rfl⟩
  · rfl
  · rcases h1 with rfl | ⟨r1, rfl⟩
    · simp [values.type.is_specialization, types.resource.is_specialization] at hs
    · simp only [values.type.is_specialization, types.resource.is_specialization] at hs
      simp only [values.type.is_instance, types.resource.is_instance] at hi ⊢
      cases h : v.as_type with
      | none => simp [h] at hi
      | some t =>
        cases t <;> simp [h] at hi ⊢
        rename_i V
        simp only [String.isEmpty_iff] at hs hi ⊢
        by_cases e2 : r2.type_name = ""
        · simp [e2]
        · simp [e2] at hs ⊢
          obtain ⟨hn, ht, hnt⟩ := hs
          have e1 : r1.type_name ≠ "" := hn ▸ e2
          simp [e1] at hi
          exact ⟨hn.trans hi.1, Or.inl ((String.isEmpty_iff _).1 ht)⟩

/-- Witness of claim C27: `File['/tmp']` is a specialization of `File`, the type
`File['/tmp']` is an instance of `File['/tmp']`, and so it is an instance of `File`. -/
theorem instance_specialization_coherence_witness :
    (values.type.resource (types.resource.make "file" "")).is_instance (fun _ _ => false)
      (value.type (values.type.resource (types.resource.make "file" "/tmp"))) = true :=
  instance_specialization_coherence (fun _ _ => false) (fun _ _ => false)
    (values.type.resource (types.resource.make "file" "/tmp"))
    (values.type.resource (types.resource.make "file" ""))
    (value.type (values.type.resource (types.resource.make "file" "/tmp")))
    (Or.inr ⟨_, rfl⟩) (Or.inr ⟨_, rfl⟩) (by decide) (by decide)

/-- The member `resource::is_specialization` on two resource types, as a proposition. -/
theorem resource_is_specialization_iff (a b : types.resource) :
    a.is_specialization (values.type.resource b) = true ↔
      (a.type_name = "" ∧ b.type_name ≠ "") ∨
      (a.type_name ≠ "" ∧ a.type_name = b.type_name ∧ a.title = "" ∧ b.title ≠ "") := by
  simp only [types.resource.is_specialization]
  by_cases ha : a.type_name = ""
  · simp [ha, isEmpty_eq_false_iff]
  · have ha2 : a.type_name.isEmpty = false := (isEmpty_eq_false_iff _).2 ha
    simp [ha, ha2, isEmpty_eq_false_iff, String.isEmpty_iff]

/-- The canonical form of a name is empty only for the empty name. -/
theorem canonical_chars_eq_nil (b : Bool) (l : List Char) :
    types.canonical_chars b l = [] ↔ l = [] := by
  constructor
  · intro h
    induction b, l using types.canonical_chars.induct with
    | case1 x => rfl
    | case2 x rest ih => simp [types.canonical_chars] at h
    | case3 c rest hne ih => rw [types.canonical_chars.eq_3 _ _ hne] at h; simp at h
    | case4 c rest hne ih => rw [types.canonical_chars.eq_4 _ _ hne] at h; simp at h
  · rintro rfl
    cases b <;> rfl

/-- The type name of a constructed resource type is empty only for the empty name. -/
theorem make_type_name_eq_empty (name title : String) :
    (types.resource.make name title).type_name = "" ↔ name = "" := by
  unfold types.resource.make
  constructor
  · intro h
    have h2 := congrArg String.data h
    simp only at h2
    exact String.ext ((canonical_chars_eq_nil true name.data).1 h2)
  · rintro rfl
    rfl

/-- Claim C28: `is_specialization` is strict, no type among the resource types, `Any`,
`Boolean` and `Undef` is a specialization of itself; on resource types it is asymmetric and
transitive; and `Resource` is above `Resource[name]`, which is above `Resource[name, title]`. -/
theorem is_specialization_strict (rest : values.type → values.type → Bool) :
    (∀ T : values.type,
      (T = values.type.any ∨ T = values.type.boolean ∨ T = values.type.undef ∨
        ∃ r, T = values.type.resource r) →
      T.is_specialization rest T = false) ∧
    (∀ a b : types.resource, a.is_specialization (values.type.resource b) = true →
      b.is_specialization (values.type.resource a) = false) ∧
    (∀ a b c : types.resource, a.is_specialization (values.type.resource b) = true →
      b.is_specialization (values.type.resource c) = true →
      a.is_specialization (values.type.resource c) = true) ∧
    (∀ name title : String, name ≠ "" → title ≠ "" →
      (types.resource.make "" "").is_specialization
        (values.type.resource (types.resource.make name "")) = true ∧
      (types.resource.make name "").is_specialization
        (values.type.resource (types.resource.make name title)) = true ∧
      (types.resource.make "" "").is_specialization
        (values.type.resource (types.resource.make name title)) = true) := by
  refine ⟨?_, ?_, ?_, ?_⟩
  · rintro T (rfl | rfl | rfl | ⟨r, rfl⟩)
    · rfl
    · rfl
    · rfl
    · simp only [values.type.is_specialization, types.resource.is_specialization]
      by_cases h : r.type_name.isEmpty = true <;> simp [h]
  · intro a b h
    rw [← Bool.not_eq_true]
    intro h2
    rw [resource_is_specialization_iff] at h h2
    rcases h with ⟨h1, h3⟩ | ⟨h1, h3, h4, h5⟩ <;> rcases h2 with ⟨k1, k3⟩ | ⟨k1, k3, k4, k5⟩
    · exact h3 k1
    · exact k1 (k3.trans h1)
    · exact h1 (h3.trans k1)
    · exact h5 k4
  · intro a b c h h2
    rw [resource_is_specialization_iff] at h h2 ⊢
    rcases h with ⟨h1, h3⟩ | ⟨h1, h3, h4, h5⟩ <;> rcases h2 with ⟨k1, k3⟩ | ⟨k1, k3, k4, k5⟩
    · exact absurd k1 h3
    · exact Or.inl ⟨h1, k3 ▸ k1⟩
    · exact absurd k1 (h3 ▸ h1)
    · exact absurd k4 h5
  · intro name title hn ht
    have e1 : ∀ t, (types.resource.make name t).type_name ≠ "" := fun t h =>
      hn ((make_type_name_eq_empty name t).1 h)
    refine ⟨?_, ?_, ?_⟩
    · exact (resource_is_specialization_iff _ _).2 (Or.inl ⟨rfl, e1 _⟩)
    · exact (resource_is_specialization_iff _ _).2 (Or.inr ⟨e1 _, rfl, rfl, ht⟩)
    · exact (resource_is_specialization_iff _ _).2 (Or.inl ⟨rfl, e1 _⟩)

/-- Witness of claim C28: `File` is a specialization of `Resource` and `File['/tmp']` one of
`File`, and `File` is not a specialization of `File['/tmp']`. -/
theorem is_specialization_strict_witness :
    ((types.resource.make "" "").is_specialization
        (values.type.resource (types.resource.make "file" "")) = true ∧
      (types.resource.make "file" "").is_specialization
        (values.type.resource (types.resource.make "file" "/tmp")) = true ∧
      (types.resource.make "" "").is_specialization
        (values.type.resource (types.resource.make "file" "/tmp")) = true) ∧
    (types.resource.make "file" "/tmp").is_specialization
      (values.type.resource (types.resource.make "file" "")) = false :=
  ⟨(is_specialization_strict (fun _ _ => false)).2.2.2 "file" "/tmp" (by decide) (by decide),
    (is_specialization_strict (fun _ _ => false)).2.1 (types.resource.make "file" "")
      (types.resource.make "file" "/tmp") (by decide)⟩

/-! ## The canonical form of a resource type name -/


/-- Putting a character in lower case gives a colon only for a colon. -/
theorem toLower_eq_colon (c : Char) : c.toLower = ':' ↔ c = ':' := by
  unfold Char.toLower
  by_cases h : c.toNat ≥ 65 ∧ c.toNat ≤ 90
  · simp only [h, and_self, if_true]
    have hc : c = Char.ofNat c.toNat := (Char.ofNat_toNat c).symm
    obtain ⟨h1, h2⟩ := h
    generalize c.toNat = n at *
    subst hc
    interval_cases n <;> decide
  · simp only [h, if_false]

/-- Putting a character in lower case twice is putting it in lower case once. -/
theorem toLower_toLower (c : Char) : c.toLower.toLower = c.toLower := by
  by_cases h : c.toNat ≥ 65 ∧ c.toNat ≤ 90
  · have hc : c = Char.ofNat c.toNat := (Char.ofNat_toNat c).symm
    obtain ⟨h1, h2⟩ := h
    generalize c.toNat = n at *
    subst hc
    interval_cases n <;> decide
  · have : c.toLower = c := by unfold Char.toLower; simp only [h, if_false]
    rw [this, this]

/-- Putting a character in upper case gives a colon only for a colon. -/
theorem toUpper_eq_colon (c : Char) : c.toUpper = ':' ↔ c = ':' := by
  unfold Char.toUpper
  by_cases h : c.toNat ≥ 97 ∧ c.toNat ≤ 122
  · simp only [h, and_self, if_true]
    have hc : c = Char.ofNat c.toNat := (Char.ofNat_toNat c).symm
    obtain ⟨h1, h2⟩ := h
    generalize c.toNat = n at *
    subst hc
    interval_cases n <;> decide
  · simp only [h, if_false]

/-- Putting a character in upper case, then in lower case and in upper case again, gives the
upper-case character. -/
theorem toUpper_toLower_toUpper (c : Char) : c.toUpper.toLower.toUpper = c.toUpper := by
  by_cases h : c.toNat ≥ 97 ∧ c.toNat ≤ 122
  · have hc : c = Char.ofNat c.toNat := (Char.ofNat_toNat c).symm
    obtain ⟨h1, h2⟩ := h
    generalize c.toNat = n at *
    subst hc
    interval_cases n <;> decide
  · have e : c.toUpper = c := by unfold Char.toUpper; simp only [h, if_false]
    rw [e]
    by_cases k : c.toNat ≥ 65 ∧ c.toNat ≤ 90
    · have hc : c = Char.ofNat c.toNat := (Char.ofNat_toNat c).symm
      obtain ⟨k1, k2⟩ := k
      generalize c.toNat = n at *
      subst hc
      interval_cases n <;> decide
    · have e2 : c.toLower = c := by unfold Char.toLower; simp only [k, if_false]
      rw [e2, e]

/-- The canonical form of a name is that of the name in lower case. -/
theorem canonical_chars_lower (b : Bool) (l : List Char) :
    types.canonical_chars b (l.map Char.toLower) = types.canonical_chars b l := by
  induction b, l using types.canonical_chars.induct with
  | case1 x => rfl
  | case2 x rest ih =>
    have e : Char.toLower ':' = ':' := by decide
    simp only [List.map_cons, e, types.canonical_chars.eq_2, ih]
  | case3 c rest hne ih =>
    have hne2 : ∀ rest_1, c.toLower = ':' → rest.map Char.toLower = ':' :: rest_1 → False := by
      intro rest_1 h1 h2
      cases rest with
      | nil => simp at h2
      | cons d rest2 =>
        simp only [List.map_cons, List.cons.injEq] at h2
        exact hne rest2 ((toLower_eq_colon c).1 h1) (by rw [(toLower_eq_colon d).1 h2.1])
    rw [List.map_cons, types.canonical_chars.eq_3 _ _ hne2, types.canonical_chars.eq_3 _ _ hne,
      ih, toLower_toLower]
  | case4 c rest hne ih =>
    have hne2 : ∀ rest_1, c.toLower = ':' → rest.map Char.toLower = ':' :: rest_1 → False := by
      intro rest_1 h1 h2
      cases rest with
      | nil => simp at h2
      | cons d rest2 =>
        simp only [List.map_cons, List.cons.injEq] at h2
        exact hne rest2 ((toLower_eq_colon c).1 h1) (by rw [(toLower_eq_colon d).1 h2.1])
    rw [List.map_cons, types.canonical_chars.eq_4 _ _ hne2, types.canonical_chars.eq_4 _ _ hne,
      ih, toLower_toLower]

/-- The head of a canonical name is a colon only where the head of the name is. -/
theorem canonical_chars_head (b : Bool) (l : List Char) (rest_1 : List Char)
    (h : types.canonical_chars b l = ':' :: rest_1) : ∃ rest_2, l = ':' :: rest_2 := by
  induction b, l using types.canonical_chars.induct with
  | case1 x => simp [types.canonical_chars] at h
  | case2 x rest ih => exact ⟨_, rfl⟩
  | case3 c rest hne ih =>
    rw [types.canonical_chars.eq_3 _ _ hne] at h
    simp only [List.cons.injEq] at h
    have := (toLower_eq_colon c).1 ((toUpper_eq_colon _).1 h.1)
    exact ⟨rest, by rw [this]⟩
  | case4 c rest hne ih =>
    rw [types.canonical_chars.eq_4 _ _ hne] at h
    simp only [List.cons.injEq] at h
    have := (toLower_eq_colon c).1 h.1
    exact ⟨rest, by rw [this]⟩

/-- The canonical form of a canonical name is the name itself. -/
theorem canonical_chars_idempotent (b : Bool) (l : List Char) :
    types.canonical_chars b (types.canonical_chars b l) = types.canonical_chars b l := by
  induction b, l using types.canonical_chars.induct with
  | case1 x => simp only [types.canonical_chars.eq_1]
  | case2 x rest ih => simp only [types.canonical_chars.eq_2, ih]
  | case3 c rest hne ih =>
    have hne2 : ∀ rest_1, c.toLower.toUpper = ':' →
        types.canonical_chars false rest = ':' :: rest_1 → False := by
      intro rest_1 h1 h2
      obtain ⟨rest_2, h3⟩ := canonical_chars_head _ _ _ h2
      exact hne rest_2 ((toLower_eq_colon c).1 ((toUpper_eq_colon _).1 h1)) h3
    rw [types.canonical_chars.eq_3 _ _ hne, types.canonical_chars.eq_3 _ _ hne2, ih,
      toUpper_toLower_toUpper]
  | case4 c rest hne ih =>
    have hne2 : ∀ rest_1, c.toLower = ':' →
        types.canonical_chars false rest = ':' :: rest_1 → False := by
      intro rest_1 h1 h2
      obtain ⟨rest_2, h3⟩ := canonical_chars_head _ _ _ h2
      exact hne rest_2 ((toLower_eq_colon c).1 h1) h3
    rw [types.canonical_chars.eq_4 _ _ hne, types.canonical_chars.eq_4 _ _ hne2, ih,
      toLower_toLower]


/-- Joining segments, when the first segment starts with a character. -/
theorem join_segments_cons_cons (c : Char) (segment : List Char) (segments : List (List Char)) :
    types.join_segments ((c :: segment) :: segments) =
      c :: types.join_segments (segment :: segments) := by
  cases segments <;> simp [types.join_segments]

/-- Joining segments, when the first of several segments is empty. -/
theorem join_segments_nil_cons (segment : List Char) (segments : List (List Char)) :
    types.join_segments ([] :: segment :: segments) =
      ':' :: ':' :: types.join_segments (segment :: segments) := by
  simp [types.join_segments]

/-- The source form of the canonical name against the form of the specification, for both
values of the flag. -/
theorem canonical_chars_segments (b : Bool) (l : List Char) :
    ∃ segment segments, types.split_segments (l.map Char.toLower) = segment :: segments ∧
      types.canonical_chars b l =
        types.join_segments
          ((if b then types.capitalize segment else segment) ::
            segments.map types.capitalize) := by
  induction b, l using types.canonical_chars.induct with
  | case1 x =>
    refine ⟨[], [], rfl, ?_⟩
    cases x <;> rfl
  | case2 x rest ih =>
    obtain ⟨segment, segments, h1, h2⟩ := ih
    have e : Char.toLower ':' = ':' := by decide
    refine ⟨[], segment :: segments, ?_, ?_⟩
    · simp only [List.map_cons, e, types.split_segments, h1]
    · have e2 : (if x = true then types.capitalize [] else ([] : List Char)) = [] := by
        cases x <;> rfl
      rw [types.canonical_chars.eq_2, h2, e2, List.map_cons, join_segments_nil_cons]
      rfl
  | case3 c rest hne ih =>
    obtain ⟨segment, segments, h1, h2⟩ := ih
    have hne2 : ∀ rest_1, c.toLower = ':' → rest.map Char.toLower = ':' :: rest_1 → False := by
      intro rest_1 k1 k2
      cases rest with
      | nil => simp at k2
      | cons d rest2 =>
        simp only [List.map_cons, List.cons.injEq] at k2
        exact hne rest2 ((toLower_eq_colon c).1 k1) (by rw [(toLower_eq_colon d).1 k2.1])
    refine ⟨c.toLower :: segment, segments, ?_, ?_⟩
    · rw [List.map_cons, types.split_segments.eq_3 _ _ hne2, h1]
    · rw [types.canonical_chars.eq_3 _ _ hne, h2]
      simp only [if_true, types.capitalize, join_segments_cons_cons]
      rfl
  | case4 c rest hne ih =>
    obtain ⟨segment, segments, h1, h2⟩ := ih
    have hne2 : ∀ rest_1, c.toLower = ':' → rest.map Char.toLower = ':' :: rest_1 → False := by
      intro rest_1 k1 k2
      cases rest with
      | nil => simp at k2
      | cons d rest2 =>
        simp only [List.map_cons, List.cons.injEq] at k2
        exact hne rest2 ((toLower_eq_colon c).1 k1) (by rw [(toLower_eq_colon d).1 k2.1])
    refine ⟨c.toLower :: segment, segments, ?_, ?_⟩
    · rw [List.map_cons, types.split_segments.eq_3 _ _ hne2, h1]
    · rw [types.canonical_chars.eq_4 _ _ hne, h2]
      simp only [Bool.false_eq_true, if_false, join_segments_cons_cons]

/-- Claim C26: the constructor of a resource type makes the type name canonical: the name in
lower case with the first character of every `::`-separated segment in upper case, so that
`foo::bar` and `FOO::BAR` both become `Foo::Bar`; the title is kept.  The canonical form of a
canonical name is the name itself, and names that differ only in the case of their letters
give, with the same title, equal resource types. -/
theorem canonical_type_name (name title : String) :
    (types.resource.make name title).type_name = types.canonical_by_specification name ∧
    (types.resource.make name title).title = title ∧
    types.resource.make (types.resource.make name title).type_name title =
      types.resource.make name title ∧
    (∀ other : String, types.same_up_to_case other name →
      types.resource.make other title = types.resource.make name title) ∧
    types.resource.make "foo::bar" title = ⟨"Foo::Bar", title⟩ ∧
    types.resource.make "FOO::BAR" title = ⟨"Foo::Bar", title⟩ := by
  refine ⟨?_, rfl, ?_, ?_, ?_, ?_⟩
  · obtain ⟨segment, segments, h1, h2⟩ := canonical_chars_segments true name.data
    simp only [types.resource.make, types.canonical_by_specification, h1, h2, List.map_cons,
      if_true]
  · simp only [types.resource.make, canonical_chars_idempotent]
  · intro other h
    unfold types.same_up_to_case at h
    simp only [types.resource.make]
    rw [← canonical_chars_lower true other.data, h, canonical_chars_lower]
  · simp only [types.resource.make, types.resource.mk.injEq, and_true]
    decide
  · simp only [types.resource.make, types.resource.mk.injEq, and_true]
    decide

/-- Witness of claim C26: `fiLE` and `FILE` with the title `/tmp` give the same resource
type. -/
theorem canonical_type_name_witness :
    types.resource.make "fiLE" "/tmp" = types.resource.make "FILE" "/tmp" :=
  (canonical_type_name "FILE" "/tmp").2.2.2.1 "fiLE" (by unfold types.same_up_to_case; decide)

/-! ## Parsing the display form of a resource type -/


/-- A name that matches the first group of the pattern holds no opening bracket. -/
theorem match_type_name_no_bracket (b : Bool) (l : List Char)
    (h : types.match_type_name b l = true) : ∀ c ∈ l, c ≠ '[' := by
  induction b, l using types.match_type_name.induct with
  | case1 started => simp
  | case2 x c rest ih =>
    simp only [types.match_type_name, Bool.and_eq_true] at h
    intro d hd
    simp only [List.mem_cons] at hd
    rcases hd with rfl | rfl | rfl | hd
    · decide
    · decide
    · intro e; rw [e] at h; exact absurd h.1 (by decide)
    · exact ih h.2 d hd
  | case3 c rest hne ih =>
    rw [types.match_type_name.eq_3 _ _ hne, Bool.and_eq_true] at h
    intro d hd
    simp only [List.mem_cons] at hd
    rcases hd with rfl | hd
    · intro e; rw [e] at h; exact absurd h.1 (by decide)
    · exact ih h.2 d hd
  | case4 c rest hne ih =>
    rw [types.match_type_name.eq_4 _ _ hne, Bool.and_eq_true] at h
    intro d hd
    simp only [List.mem_cons] at hd
    rcases hd with rfl | hd
    · intro e; rw [e] at h; exact absurd h.1 (by decide)
    · exact ih h.2 d hd

/-- Splitting at the first opening bracket, for a name that holds none. -/
theorem takeWhile_before_bracket (name rest : List Char) (h : ∀ c ∈ name, c ≠ '[') :
    (name ++ '[' :: rest).takeWhile (fun c => c != '[') = name ∧
    (name ++ '[' :: rest).dropWhile (fun c => c != '[') = '[' :: rest := by
  induction name with
  | nil => simp [List.takeWhile, List.dropWhile]
  | cons c name ih =>
    have hc : (c != '[') = true := by simpa using h c (List.mem_cons_self _ _)
    have := ih (fun d hd => h d (List.mem_cons_of_mem _ hd))
    simp [List.takeWhile, List.dropWhile, hc, this]

/-- The specification `name[title]` matches the pattern, with the groups `name` and `title`. -/
theorem match_specification_display (name title : List Char)
    (hname : types.match_type_name false name = true) (htitle : title ≠ [])
    (hbracket : ∀ c ∈ title, c ≠ ']') :
    types.match_specification (name ++ '[' :: (title ++ [']'])) = some (name, title) := by
  obtain ⟨h1, h2⟩ := takeWhile_before_bracket name (title ++ [']'])
    (match_type_name_no_bracket false name hname)
  have h3 : (title.all fun c => c != ']') = true := by
    simp only [List.all_eq_true, bne_iff_ne]
    exact hbracket
  have h4 : title.isEmpty = false := by
    cases title with
    | nil => exact absurd rfl htitle
    | cons c t => rfl
  simp [types.match_specification, h1, h2, hname, h3, h4]

/-- Claim C29 as stated fails on fully qualified types: the display form `File[a]b]` of the
type with the title `a]b` is not parsed at all, nor is the display form `5klogin[a]` of a type
whose name starts with a digit; the display form `File[ a]` of the type with the title ` a`
and the display form of the type whose title is `a` in single quotes are both parsed to the
type with the title `a`. -/
theorem parse_display_bracket_title :
    ((types.resource.make "file" "a]b").fully_qualified = true ∧
      types.resource.parse (types.resource.make "file" "a]b").display = none) ∧
    ((types.resource.make "5klogin" "a").fully_qualified = true ∧
      types.resource.parse (types.resource.make "5klogin" "a").display = none) ∧
    ((types.resource.make "file" " a").fully_qualified = true ∧
      types.resource.parse (types.resource.make "file" " a").display =
        some (types.resource.make "file" "a") ∧
      types.resource.make "file" "a" ≠ types.resource.make "file" " a") ∧
    ((types.resource.make "file" "'a'").fully_qualified = true ∧
      types.resource.parse (types.resource.make "file" "'a'").display =
        some (types.resource.make "file" "a") ∧
      types.resource.make "file" "a" ≠ types.resource.make "file" "'a'") := by
  decide

/-- Claim C29, amended: a resource type whose type name matches the name pattern of
`resource::parse` and whose title is not empty, holds no `]`, is left as it is by trimming
(no white space at either end) and by stripping quotes (not enclosed in a pair of quotes) is
fully qualified, and parsing its display form returns the type itself. -/
theorem parse_display_round_trip (name title : String)
    (hname : types.match_type_name false (types.resource.make name title).type_name.data = true)
    (htitle : title ≠ "")
    (hbracket : ∀ c ∈ title.data, c ≠ ']')
    (htrim : types.trim title.data = title.data)
    (hquotes : types.strip_quotes title.data = title.data) :
    (types.resource.make name title).fully_qualified = true ∧
    types.resource.parse (types.resource.make name title).display =
      some (types.resource.make name title) := by
  have hidem : types.resource.make (types.resource.make name title).type_name title =
      types.resource.make name title := by
    simp only [types.resource.make, canonical_chars_idempotent]
  generalize hr : types.resource.make name title = r at *
  have htitle_r : r.title = title := by rw [← hr]; rfl
  have hn : r.type_name ≠ "" := by
    intro h
    rw [h] at hname
    exact absurd hname (by decide)
  have ht : title.data ≠ [] := fun h => htitle (String.ext h)
  have e1 : r.type_name.isEmpty = false := (isEmpty_eq_false_iff _).2 hn
  have e2 : r.title.isEmpty = false := (isEmpty_eq_false_iff _).2 (htitle_r ▸ htitle)
  refine ⟨by simp [types.resource.fully_qualified, e1, e2], ?_⟩
  have e3 : title.isEmpty = false := (isEmpty_eq_false_iff _).2 htitle
  have hd : r.display.data = r.type_name.data ++ '[' :: (title.data ++ [']']) := by
    simp [types.resource.display, e1, e3, htitle_r, String.data_append]
  unfold types.resource.parse
  rw [hd, match_specification_display _ _ hname ht hbracket]
  simp only [htrim, hquotes]
  exact congrArg some hidem

/-- Witness of claim C29: `Foo::Bar[/etc/x y]` is parsed back to the type it displays. -/
theorem parse_display_round_trip_witness :
    types.resource.parse (types.resource.make "foo::bar" "/etc/x y").display =
      some (types.resource.make "foo::bar" "/etc/x y") :=
  (parse_display_round_trip "foo::bar" "/etc/x y" (by decide) (by decide) (by decide)
    (by decide) (by decide)).2

/-! ## The function `map` -/


/-- The results of calls in order are as many as the calls. -/
theorem call_in_order_length (f : List value → run value) (calls : List (List value)) :
    ∀ (st : evaluation_state) (vs : List value) (st2 : evaluation_state),
      call_in_order f calls st = .ok vs st2 → vs.length = calls.length := by
  induction calls with
  | nil =>
    intro st vs st2 h
    simp only [call_in_order, completion.ok.injEq] at h
    obtain ⟨rfl, _⟩ := h
    rfl
  | cons a rest ih =>
    intro st vs st2 h
    simp only [call_in_order] at h
    cases h1 : f a st with
    | thrown e st1 => rw [h1] at h; cases h
    | ok v st1 =>
      rw [h1] at h
      simp only at h
      cases h2 : call_in_order f rest st1 with
      | thrown e st3 => rw [h2] at h; cases h
      | ok ws st3 =>
        rw [h2] at h
        simp only [completion.ok.injEq] at h
        rw [← h.1, List.length_cons, List.length_cons, ih st1 ws st3 h2]

/-- Calls in order of a function without effect give its values, in the state of the start. -/
theorem call_in_order_pure (f : List value → run value) (g : List value → value)
    (hf : ∀ a st, f a st = .ok (g a) st) (calls : List (List value)) (st : evaluation_state) :
    call_in_order f calls st = .ok (calls.map g) st := by
  induction calls with
  | nil => rfl
  | cons a rest ih => simp only [call_in_order, hf, ih, List.map_cons]

/-- Calls in order of a function that returns on every call return as many results as there
are calls. -/
theorem call_in_order_returns (f : List value → run value)
    (hf : ∀ a st, ∃ v st2, f a st = .ok v st2) (calls : List (List value)) :
    ∀ st : evaluation_state, ∃ vs st2, call_in_order f calls st = .ok vs st2 ∧
      vs.length = calls.length := by
  induction calls with
  | nil => exact fun st => ⟨[], st, rfl, rfl⟩
  | cons a rest ih =>
    intro st
    obtain ⟨v, st1, h1⟩ := hf a st
    obtain ⟨vs, st2, h2, h3⟩ := ih st1
    exact ⟨v :: vs, st2, by simp only [call_in_order, h1, h2], by simp [h3]⟩

/-- The loop of `enumerate` calls the lambda in order and appends the results. -/
theorem enumerate_loop_eq (V : map_visitor) (pairs : List (Int × Int)) :
    ∀ (result : List value) (st : evaluation_state),
      V.enumerate_loop pairs result st =
        (call_in_order V.context.yield
          (pairs.map (fun p =>
            if V.lambda_parameter_count = 1 then [value.integer p.2]
            else [value.integer p.1, value.integer p.2])) st).map
          (fun vs => value.array (result ++ vs)) := by
  induction pairs with
  | nil =>
    intro result st
    simp [map_visitor.enumerate_loop, call_in_order, completion.map]
  | cons p rest ih =>
    intro result st
    obtain ⟨index, v⟩ := p
    simp only [map_visitor.enumerate_loop, List.map_cons, call_in_order]
    cases h1 : V.context.yield
        (if V.lambda_parameter_count = 1 then [value.integer v]
          else [value.integer index, value.integer v]) st with
    | thrown e st1 => rfl
    | ok y st1 =>
      simp only [ih]
      cases h2 : call_in_order V.context.yield
        (rest.map (fun p =>
            if V.lambda_parameter_count = 1 then [value.integer p.2]
            else [value.integer p.1, value.integer p.2])) st1 with
      | thrown e st2 => rfl
      | ok vs st2 => simp [completion.map]

/-- The loop over an array calls the lambda in order and appends the results. -/
theorem array_loop_eq (V : map_visitor) (elements : List value) :
    ∀ (i : Nat) (result : List value) (st : evaluation_state),
      V.array_loop i elements result st =
        (call_in_order V.context.yield
          ((elements.enumFrom i).map (fun p =>
            if V.lambda_parameter_count = 1 then [p.2]
            else [value.integer (p.1 : Int), p.2])) st).map
          (fun vs => value.array (result ++ vs)) := by
  induction elements with
  | nil =>
    intro i result st
    simp [map_visitor.array_loop, call_in_order, completion.map]
  | cons x rest ih =>
    intro i result st
    simp only [map_visitor.array_loop, List.enumFrom_cons, List.map_cons, call_in_order]
    cases h1 : V.context.yield
        (if V.lambda_parameter_count = 1 then [x] else [value.integer (i : Int), x]) st with
    | thrown e st1 => rfl
    | ok y st1 =>
      simp only [ih]
      cases h2 : call_in_order V.context.yield
        ((rest.enumFrom (i + 1)).map (fun p =>
            if V.lambda_parameter_count = 1 then [p.2]
            else [value.integer (p.1 : Int), p.2])) st1 with
      | thrown e st2 => rfl
      | ok vs st2 => simp [completion.map]

/-- The loop over a hash calls the lambda in order and appends the results. -/
theorem hash_loop_eq (V : map_visitor) (entries : List (value × value)) :
    ∀ (result : List value) (st : evaluation_state),
      V.hash_loop entries result st =
        (call_in_order V.context.yield
          (entries.map (fun p =>
            if V.lambda_parameter_count = 1 then [value.array [p.1, p.2]]
            else [p.1, p.2])) st).map
          (fun vs => value.array (result ++ vs)) := by
  induction entries with
  | nil =>
    intro result st
    simp [map_visitor.hash_loop, call_in_order, completion.map]
  | cons p rest ih =>
    intro result st
    obtain ⟨key, v⟩ := p
    simp only [map_visitor.hash_loop, List.map_cons, call_in_order]
    cases h1 : V.context.yield
        (if V.lambda_parameter_count = 1 then [value.array [key, v]] else [key, v]) st with
    | thrown e st1 => rfl
    | ok y st1 =>
      simp only [ih]
      cases h2 : call_in_order V.context.yield
        (rest.map (fun p =>
            if V.lambda_parameter_count = 1 then [value.array [p.1, p.2]]
            else [p.1, p.2])) st1 with
      | thrown e st2 => rfl
      | ok vs st2 => simp [completion.map]


/-- The calls `each` makes for the range that `map` builds for the integer `n > 0`: the range
from 0 to `n` holds `n + 1` integers. -/
theorem each_of_count (n : Int) (hn : 0 < n) :
    (types.integer.mk 0 n).each =
      (List.range (n.toNat + 1)).map (fun i : Nat => ((i : Int), (i : Int))) := by
  simp [types.integer.each, not_lt.mpr (le_of_lt hn)]

/-- The values of an array, each as the only argument of a call. -/
theorem enumFrom_map_snd (f : value → List value) (xs : List value) :
    ∀ i : Nat, (xs.enumFrom i).map (fun p => f p.2) = xs.map f := by
  induction xs with
  | nil => intro i; rfl
  | cons x rest ih => intro i; simp only [List.enumFrom_cons, List.map_cons, ih]

/-- A completion mapped to an array is an array of the results. -/
theorem completion_map_ok {α β : Type} (g : α → β) (c : completion α) (b : β)
    (st : evaluation_state) (h : c.map g = .ok b st) : ∃ a, c = .ok a st ∧ b = g a := by
  cases c with
  | ok a st1 =>
    simp only [completion.map, completion.ok.injEq] at h
    exact ⟨a, by rw [h.2], h.1.symm⟩
  | thrown e st1 => cases h

/-- The overload of `map` for an integer: for `n ≤ 0` it returns the empty array, whatever
the lambda would do, and leaves the state as it is; for `n > 0` it calls the lambda in order
for the values 0, 1, ..., `n`, each also passed as the index when the lambda has two
parameters, and a call that returns gives an array of `n + 1` results. -/
theorem map_integer_closed_range (V : map_visitor) (n : Int) (st : evaluation_state) :
    (n ≤ 0 → V.integer n st = .ok (value.array []) st) ∧
    (0 < n →
      V.integer n st =
        (call_in_order V.context.yield
          ((List.range (n.toNat + 1)).map (fun i : Nat =>
            if V.lambda_parameter_count = 1 then [value.integer (i : Int)]
            else [value.integer (i : Int), value.integer (i : Int)])) st).map value.array) ∧
    (0 < n → ∀ r st2, V.integer n st = .ok r st2 →
      ∃ vs, r = value.array vs ∧ (vs.length : Int) = n + 1) := by
  have hloop : 0 < n → V.integer n st =
      (call_in_order V.context.yield
        ((List.range (n.toNat + 1)).map (fun i : Nat =>
          if V.lambda_parameter_count = 1 then [value.integer (i : Int)]
          else [value.integer (i : Int), value.integer (i : Int)])) st).map value.array := by
    intro hn
    have hn2 : ¬ n ≤ 0 := not_le.mpr hn
    simp only [map_visitor.integer, hn2, if_false, map_visitor.enumerate, enumerate_loop_eq,
      each_of_count n hn, List.map_map, List.nil_append]
    rfl
  refine ⟨?_, hloop, ?_⟩
  · intro hn
    simp only [map_visitor.integer, hn, if_true]
  · intro hn r st2 h
    rw [hloop hn] at h
    obtain ⟨vs, h1, h2⟩ := completion_map_ok _ _ _ _ h
    refine ⟨vs, h2, ?_⟩
    rw [call_in_order_length _ _ _ _ _ h1, List.length_map, List.length_range]
    have := Int.toNat_of_nonneg (le_of_lt hn)
    push_cast
    omega

/-- Claim C23, the behaviour of the code: for the integer `n > 0` the overload hands `each`
the range `types::integer(0, n)`, which holds the integers from 0 to `n`, so the lambda is
called once more than the claim says.  `3.map |$i, $x| { ... }` calls the lambda with
`(0, 0)`, `(1, 1)`, `(2, 2)` and `(3, 3)`, as the EPP stream tells, and returns four results;
`1.map |$x| { ... }` calls it with 0 and with 1; `0.map` returns the empty array without a
call of the lambda, which would fail outside a template. -/
theorem map_integer_one_call_more :
    (recording_visitor 2).integer 3 { empty_state with epp_streams := [[]] } =
      .ok (value.array
          [value.array [value.integer 0, value.integer 0],
           value.array [value.integer 1, value.integer 1],
           value.array [value.integer 2, value.integer 2],
           value.array [value.integer 3, value.integer 3]])
        { empty_state with epp_streams :=
          [[value.array [value.integer 0, value.integer 0],
            value.array [value.integer 1, value.integer 1],
            value.array [value.integer 2, value.integer 2],
            value.array [value.integer 3, value.integer 3]]] } ∧
    (recording_visitor 1).integer 1 { empty_state with epp_streams := [[]] } =
      .ok (value.array [value.array [value.integer 0], value.array [value.integer 1]])
        { empty_state with epp_streams :=
          [[value.array [value.integer 0], value.array [value.integer 1]]] } ∧
    (recording_visitor 1).integer 0 empty_state = .ok (value.array []) empty_state :=
  ⟨rfl, rfl, rfl⟩

/-- Claim C24: for an array the function `map` calls the lambda in order, with the element
when the lambda has one parameter and with the index and the element when it has two, and a
call that returns gives an array of as many results as there are elements; for a hash it
calls the lambda once per entry, in the order of iteration, with the array of key and value
when the lambda has one parameter and with the key and the value when it has two.  Both
return when the lambda returns on every call. -/
theorem map_array_and_hash (V : map_visitor) (st : evaluation_state) :
    (V.lambda_parameter_count = 1 → ∀ xs : List value,
      V.array xs st =
        (call_in_order V.context.yield (xs.map (fun x => [x])) st).map value.array) ∧
    (V.lambda_parameter_count = 2 → ∀ xs : List value,
      V.array xs st =
        (call_in_order V.context.yield
          (xs.enum.map (fun p => [value.integer (p.1 : Int), p.2])) st).map value.array) ∧
    (∀ (xs : List value) r st2, V.array xs st = .ok r st2 →
      ∃ vs, r = value.array vs ∧ vs.length = xs.length) ∧
    (V.lambda_parameter_count = 1 → ∀ entries : List (value × value),
      V.hash entries st =
        (call_in_order V.context.yield
          (entries.map (fun p => [value.array [p.1, p.2]])) st).map value.array) ∧
    (V.lambda_parameter_count = 2 → ∀ entries : List (value × value),
      V.hash entries st =
        (call_in_order V.context.yield (entries.map (fun p => [p.1, p.2])) st).map
          value.array) ∧
    (∀ (entries : List (value × value)) r st2, V.hash entries st = .ok r st2 →
      ∃ vs, r = value.array vs ∧ vs.length = entries.length) ∧
    ((∀ a s, ∃ v s2, V.context.yield a s = .ok v s2) →
      (∀ xs : List value, ∃ vs st2,
        V.array xs st = .ok (value.array vs) st2 ∧ vs.length = xs.length) ∧
      (∀ entries : List (value × value), ∃ vs st2,
        V.hash entries st = .ok (value.array vs) st2 ∧ vs.length = entries.length)) := by
  refine ⟨?_, ?_, ?_, ?_, ?_, ?_, ?_⟩
  · intro hc xs
    simp only [map_visitor.array, array_loop_eq, hc, if_true, List.nil_append]
    rw [enumFrom_map_snd (fun x => [x])]
  · intro hc xs
    simp only [map_visitor.array, array_loop_eq, hc, OfNat.ofNat_ne_one, if_false,
      List.nil_append]
    rfl
  · intro xs r st2 h
    simp only [map_visitor.array, array_loop_eq, List.nil_append] at h
    obtain ⟨vs, h1, h2⟩ := completion_map_ok _ _ _ _ h
    refine ⟨vs, h2, ?_⟩
    rw [call_in_order_length _ _ _ _ _ h1, List.length_map, List.enumFrom_length]
  · intro hc entries
    simp only [map_visitor.hash, hash_loop_eq, hc, if_true, List.nil_append]
  · intro hc entries
    simp only [map_visitor.hash, hash_loop_eq, hc, OfNat.ofNat_ne_one, if_false,
      List.nil_append]
  · intro entries r st2 h
    simp only [map_visitor.hash, hash_loop_eq, List.nil_append] at h
    obtain ⟨vs, h1, h2⟩ := completion_map_ok _ _ _ _ h
    refine ⟨vs, h2, ?_⟩
    rw [call_in_order_length _ _ _ _ _ h1, List.length_map]
  · intro hf
    refine ⟨fun xs => ?_, fun entries => ?_⟩
    · obtain ⟨vs, st2, h1, h2⟩ := call_in_order_returns _ hf
        ((xs.enumFrom 0).map (fun p =>
          if V.lambda_parameter_count = 1 then [p.2]
          else [value.integer (p.1 : Int), p.2])) st
      refine ⟨vs, st2, ?_, ?_⟩
      · simp only [map_visitor.array, array_loop_eq, List.nil_append, h1]
        rfl
      · rw [h2, List.length_map, List.enumFrom_length]
    · obtain ⟨vs, st2, h1, h2⟩ := call_in_order_returns _ hf
        (entries.map (fun p =>
          if V.lambda_parameter_count = 1 then [value.array [p.1, p.2]]
          else [p.1, p.2])) st
      refine ⟨vs, st2, ?_, ?_⟩
      · simp only [map_visitor.hash, hash_loop_eq, List.nil_append, h1]
        rfl
      · rw [h2, List.length_map]

/-- Witness of claim C24: `['a', 'b'].map |$i, $x| { ... }` calls the lambda with `(0, 'a')`
and `(1, 'b')`, and `{'k' => 1}.map |$x| { ... }` calls it with `['k', 1]`. -/
theorem map_array_and_hash_witness :
    (recording_visitor 2).array [value.string "a", value.string "b"]
        { empty_state with epp_streams := [[]] } =
      .ok (value.array
          [value.array [value.integer 0, value.string "a"],
           value.array [value.integer 1, value.string "b"]])
        { empty_state with epp_streams :=
          [[value.array [value.integer 0, value.string "a"],
            value.array [value.integer 1, value.string "b"]]] } ∧
    (recording_visitor 1).hash [(value.string "k", value.integer 1)]
        { empty_state with epp_streams := [[]] } =
      .ok (value.array [value.array [value.array [value.string "k", value.integer 1]]])
        { empty_state with epp_streams :=
          [[value.array [value.array [value.string "k", value.integer 1]]]] } :=
  ⟨((map_array_and_hash (recording_visitor 2) { empty_state with epp_streams := [[]] }).2.1
      rfl [value.string "a", value.string "b"]).trans rfl,
    ((map_array_and_hash (recording_visitor 1) { empty_state with epp_streams := [[]] }).2.2.2.1
      rfl [(value.string "k", value.integer 1)]).trans rfl⟩

/-! ## The matcher of specifications and the pattern of `resource::parse` -/

/-- What a repeated character class accepts: characters of the class. -/
theorem accepts_any_number_one (allowed : Char → Bool) (w : List Char) :
    (pattern.any_number (.one allowed)).accepts w ↔ ∀ c ∈ w, allowed c = true := by
  constructor
  · intro h
    generalize hq : pattern.any_number (.one allowed) = q at h
    induction h with
    | zero => simp
    | more h1 h2 ih1 ih2 =>
      cases hq
      cases h1 with
      | one hc =>
        intro c hmem
        simp only [List.singleton_append, List.mem_cons] at hmem
        rcases hmem with rfl | hmem
        · exact hc
        · exact ih2 rfl c hmem
    | _ => cases hq
  · intro h
    induction w with
    | nil => exact .zero
    | cons c w ih =>
      exact .more (x := [c]) (.one (h c (List.mem_cons_self _ _)))
        (ih (fun d hd => h d (List.mem_cons_of_mem _ hd)))

/-- What `\w*` accepts: word characters. -/
theorem accepts_words_iff (w : List Char) :
    (pattern.any_number (.one types.is_word_character)).accepts w ↔
      ∀ c ∈ w, types.is_word_character c = true :=
  accepts_any_number_one types.is_word_character w

/-- A word character is not a colon. -/
theorem is_word_character_ne_colon (c : Char) (h : types.is_word_character c = true) :
    c ≠ ':' := by
  intro e; rw [e] at h; exact absurd h (by decide)

/-- An upper-case letter is not a colon. -/
theorem is_upper_letter_ne_colon (c : Char) (h : types.is_upper_letter c = true) :
    c ≠ ':' := by
  intro e; rw [e] at h; exact absurd h (by decide)

/-- An upper-case letter is a word character. -/
theorem is_word_of_is_upper (c : Char) (h : types.is_upper_letter c = true) :
    types.is_word_character c = true := by
  simp only [types.is_upper_letter] at h
  simp [types.is_word_character, Char.isAlphanum, Char.isAlpha, h]

/-- The matcher reads word characters one by one once a repetition was read. -/
theorem match_type_name_words (w y : List Char)
    (hw : ∀ c ∈ w, types.is_word_character c = true) :
    types.match_type_name true (w ++ y) = types.match_type_name true y := by
  induction w with
  | nil => rfl
  | cons c w ih =>
    have hc := hw c (List.mem_cons_self _ _)
    rw [List.cons_append, types.match_type_name.eq_3 _ _
      (fun _ _ e _ => is_word_character_ne_colon c hc e), hc, Bool.true_and]
    exact ih (fun d hd => hw d (List.mem_cons_of_mem _ hd))

/-- The matcher reads one repetition of the name pattern. -/
theorem match_type_name_segment (x : List Char) (h : types.segment_pattern.accepts x)
    (b : Bool) (y : List Char) :
    types.match_type_name b (x ++ y) = types.match_type_name true y := by
  unfold types.segment_pattern at h
  cases h with
  | sequence ho hr =>
    cases hr with
    | sequence hu hw =>
      cases hu with
      | one hu =>
        rename_i w c
        have hw2 := (accepts_words_iff w).1 hw
        cases ho with
        | absent =>
          simp only [List.nil_append, List.singleton_append, List.cons_append]
          cases b
          · rw [types.match_type_name.eq_4 _ _
              (fun _ _ e _ => is_upper_letter_ne_colon c hu e), hu, Bool.true_and]
            exact match_type_name_words w y hw2
          · rw [types.match_type_name.eq_3 _ _
              (fun _ _ e _ => is_upper_letter_ne_colon c hu e), is_word_of_is_upper c hu,
              Bool.true_and]
            exact match_type_name_words w y hw2
        | present ht =>
          cases ht
          simp only [List.singleton_append, List.cons_append, List.nil_append,
            types.match_type_name.eq_2, hu, Bool.true_and]
          exact match_type_name_words w y hw2

/-- The matcher accepts any number of repetitions once a repetition was read. -/
theorem match_type_name_segments (y : List Char)
    (h : (pattern.any_number types.segment_pattern).accepts y) :
    types.match_type_name true y = true := by
  generalize hq : pattern.any_number types.segment_pattern = q at h
  induction h with
  | zero => rfl
  | more h1 h2 ih1 ih2 =>
    cases hq
    rw [match_type_name_segment _ h1]
    exact ih2 rfl
  | _ => cases hq

/-- What the matcher accepts: after a first repetition, word characters and then any number
of repetitions; before it, what the name pattern accepts. -/
theorem match_type_name_sound (b : Bool) (l : List Char)
    (h : types.match_type_name b l = true) :
    (b = true → ∃ w y, l = w ++ y ∧ (∀ c ∈ w, types.is_word_character c = true) ∧
      (pattern.any_number types.segment_pattern).accepts y) ∧
    (b = false → types.name_pattern.accepts l) := by
  induction b, l using types.match_type_name.induct with
  | case1 started =>
    refine ⟨fun _ => ⟨[], [], rfl, by simp, .zero⟩, ?_⟩
    rintro rfl
    simp [types.match_type_name] at h
  | case2 x c rest ih =>
    simp only [types.match_type_name.eq_2, Bool.and_eq_true] at h
    obtain ⟨w, y, rfl, hw, hy⟩ := (ih h.2).1 rfl
    have hs : types.segment_pattern.accepts (':' :: ':' :: c :: w) :=
      .sequence (x := [':', ':']) (.present .text)
        (.sequence (x := [c]) (.one h.1) ((accepts_words_iff w).2 hw))
    refine ⟨fun _ => ⟨[], ':' :: ':' :: c :: (w ++ y), rfl, by simp, ?_⟩, fun _ => ?_⟩
    · exact .more (x := ':' :: ':' :: c :: w) hs hy
    · exact .many (x := ':' :: ':' :: c :: w) hs hy
  | case3 c rest hne ih =>
    rw [types.match_type_name.eq_3 _ _ hne, Bool.and_eq_true] at h
    obtain ⟨w, y, rfl, hw, hy⟩ := (ih h.2).1 rfl
    refine ⟨fun _ => ⟨c :: w, y, rfl, ?_, hy⟩, fun e => absurd e (by decide)⟩
    intro d hd
    simp only [List.mem_cons] at hd
    rcases hd with rfl | hd
    · exact h.1
    · exact hw d hd
  | case4 c rest hne ih =>
    rw [types.match_type_name.eq_4 _ _ hne, Bool.and_eq_true] at h
    obtain ⟨w, y, rfl, hw, hy⟩ := (ih h.2).1 rfl
    refine ⟨fun e => absurd e (by decide), fun _ => ?_⟩
    exact .many (x := c :: w)
      (.sequence (x := []) .absent (.sequence (x := [c]) (.one h.1) ((accepts_words_iff w).2 hw)))
      hy

/-- The matcher of type names accepts what the name pattern accepts. -/
theorem match_type_name_iff (l : List Char) :
    types.match_type_name false l = true ↔ types.name_pattern.accepts l := by
  constructor
  · exact fun h => (match_type_name_sound false l h).2 rfl
  · intro h
    unfold types.name_pattern at h
    cases h with
    | many h1 h2 =>
      rw [match_type_name_segment _ h1]
      exact match_type_name_segments _ h2


/-- What the title pattern accepts: one or more characters other than the closing bracket. -/
theorem accepts_title_iff (t : List Char) :
    types.title_pattern.accepts t ↔ t ≠ [] ∧ ∀ c ∈ t, c ≠ ']' := by
  unfold types.title_pattern
  constructor
  · intro h
    cases h with
    | many h1 h2 =>
      cases h1 with
      | one hc =>
        refine ⟨by simp, ?_⟩
        intro c hmem
        simp only [List.singleton_append, List.mem_cons] at hmem
        rcases hmem with rfl | hmem
        · simpa using hc
        · simpa using (accepts_any_number_one _ _).1 h2 c hmem
  · rintro ⟨h1, h2⟩
    cases t with
    | nil => exact absurd rfl h1
    | cons c t =>
      exact .many (x := [c]) (.one (by simpa using h2 c (List.mem_cons_self _ _)))
        ((accepts_any_number_one _ _).2
          (fun d hd => by simpa using h2 d (List.mem_cons_of_mem _ hd)))

/-- The matcher of specifications returns the two groups of the pattern of
`resource::parse`: it returns a name and a title exactly when the specification is the name,
an opening bracket, the title and a closing bracket, the name pattern accepts the name and the
title pattern accepts the title. -/
theorem match_specification_iff (s name title : List Char) :
    types.match_specification s = some (name, title) ↔
      s = name ++ '[' :: (title ++ [']']) ∧ types.name_pattern.accepts name ∧
        types.title_pattern.accepts title := by
  constructor
  · intro h
    unfold types.match_specification at h
    have hs := List.takeWhile_append_dropWhile (fun c => c != '[') s
    cases hd : s.dropWhile (fun c => c != '[') with
    | nil => rw [hd] at h; simp at h
    | cons c rest =>
      rw [hd] at h hs
      by_cases hc : c = '['
      · subst hc
        simp only at h
        split at h
        · rename_i hcond
          simp only [Bool.and_eq_true, Bool.not_eq_true', beq_iff_eq, List.all_eq_true,
            bne_iff_ne] at hcond
          obtain ⟨⟨⟨h1, h2⟩, h3⟩, h4⟩ := hcond
          simp only [Option.some.injEq, Prod.mk.injEq] at h
          obtain ⟨rfl, rfl⟩ := h
          have h5 := List.dropLast_append_getLast? _ h2
          refine ⟨?_, (match_type_name_iff _).1 h1, (accepts_title_iff _).2 ⟨?_, h4⟩⟩
          · rw [h5]; exact hs.symm
          · intro e; rw [e] at h3; simp at h3
        · cases h
      · exfalso
        revert h
        split
        · rename_i heq; simp only [List.cons.injEq] at heq; exact absurd heq.1 hc
        · intro h; cases h
  · rintro ⟨rfl, h1, h2⟩
    obtain ⟨h3, h4⟩ := (accepts_title_iff _).1 h2
    exact match_specification_display _ _ ((match_type_name_iff _).2 h1) h3 h4

/-- The matcher of specifications succeeds exactly on what the pattern of `resource::parse`
accepts. -/
theorem match_specification_accepts (s : List Char) :
    (∃ groups, types.match_specification s = some groups) ↔
      types.specification_pattern.accepts s := by
  constructor
  · rintro ⟨⟨name, title⟩, h⟩
    obtain ⟨rfl, h1, h2⟩ := (match_specification_iff _ _ _).1 h
    exact .sequence h1 (.sequence (x := ['[']) .text (.sequence h2 .text))
  · intro h
    unfold types.specification_pattern at h
    cases h with
    | sequence h1 h2 =>
      cases h2 with
      | sequence h3 h4 =>
        cases h3
        cases h4 with
        | sequence h5 h6 =>
          cases h6
          exact ⟨_, (match_specification_iff _ _ _).2 ⟨rfl, h1, h5⟩⟩

/-! ## The built-in types, the list collector and the call of `map` -/


/-- Claim C39, the behaviour of the code: the resource type constructed from `k5login`, in any
letter case, has the canonical name `K5login`, which the table of `resource::is_builtin` does
not hold: the table holds `5klogin`.  So `is_builtin` is false for it, while it is true for
`file`, `notify` and `interface` (and for the name `5klogin`). -/
theorem k5login_is_not_builtin :
    types.resource.make "k5login" "" = ⟨"K5login", ""⟩ ∧
    (types.resource.make "k5login" "").is_builtin = false ∧
    (types.resource.make "K5LOGIN" "").is_builtin = false ∧
    (types.resource.make "5klogin" "").is_builtin = true ∧
    (types.resource.make "file" "").is_builtin = true ∧
    (types.resource.make "notify" "").is_builtin = true ∧
    (types.resource.make "interface" "").is_builtin = true := by
  decide

/-- Claim C35: `detect_uncollected` returns exactly when the list is empty and raises an
evaluation error exactly when it is not; the error names the first resource type of the list
and carries the context of that entry. -/
theorem detect_uncollected_first (c : list_collector) :
    (c.detect_uncollected = .ok () ↔ c.list = []) ∧
    ((∃ e, c.detect_uncollected = .error e) ↔ c.list ≠ []) ∧
    (∀ front rest, c.list = front :: rest →
      c.detect_uncollected = .error ⟨exception.evaluation_exception
        ("resource " ++ front.1.display ++ " does not exist in the catalog."), front.2⟩) := by
  unfold list_collector.detect_uncollected
  cases h : c.list with
  | nil => simp
  | cons front rest => simp

/-- Witness of claim C35: with `File[/a]` (line 3) and `File[/b]` (line 1) pending, the error
names `File[/a]` at line 3; with nothing pending the function returns. -/
theorem detect_uncollected_first_witness :
    list_collector.detect_uncollected
        ⟨[(types.resource.make "file" "/a", ⟨"site.pp", 3⟩),
          (types.resource.make "file" "/b", ⟨"site.pp", 1⟩)]⟩ =
      .error ⟨exception.evaluation_exception "resource File[/a] does not exist in the catalog.",
        ⟨"site.pp", 3⟩⟩ ∧
    list_collector.detect_uncollected ⟨[]⟩ = .ok () :=
  ⟨((detect_uncollected_first _).2.2 _ _ rfl).trans
      (by rw [show "resource " ++ (types.resource.make "file" "/a").display ++
        " does not exist in the catalog." =
        "resource File[/a] does not exist in the catalog." by decide]),
    (detect_uncollected_first ⟨[]⟩).1.2 rfl⟩

/-- The loop of `collect` never adds an entry to the list. -/
theorem collect_loop_sublist (cr : resource → run Unit) :
    ∀ (remaining kept : List (types.resource × location)) (st : evaluation_state),
      (list_collector.collect_loop cr kept remaining st).1.list.Sublist (kept ++ remaining) := by
  intro remaining
  induction remaining with
  | nil => intro kept st; simp [list_collector.collect_loop]
  | cons entry rest ih =>
    intro kept st
    simp only [list_collector.collect_loop]
    cases hf : catalog.find st.catalog entry.1 with
    | none =>
      have := ih (kept ++ [entry]) st
      simpa using this
    | some found =>
      simp only
      cases hc : cr found st with
      | thrown e st1 => simp
      | ok u st1 =>
        simp only
        exact (ih kept st1).trans
          (List.Sublist.append_left (List.sublist_cons_self entry rest) kept)

/-- The loop of `collect`, for a `collect_resource` that keeps the resources of the catalog:
it calls `collect_resource` in order for the entries the catalog holds, and when it returns
the list holds the entries the catalog does not hold. -/
theorem collect_loop_spec (cr : resource → run Unit) (H : keeps_resources cr) :
    ∀ (remaining kept : List (types.resource × location)) (st : evaluation_state),
      (list_collector.collect_loop cr kept remaining st).2 =
        collect_in_order cr
          (remaining.filter (fun e => (catalog.find st.catalog e.1).isSome)) st ∧
      (∀ st1, (list_collector.collect_loop cr kept remaining st).2 = .ok () st1 →
        (list_collector.collect_loop cr kept remaining st).1.list =
          kept ++ remaining.filter (fun e => (catalog.find st.catalog e.1).isNone)) := by
  intro remaining
  induction remaining with
  | nil => intro kept st; simp [list_collector.collect_loop, collect_in_order]
  | cons entry rest ih =>
    intro kept st
    simp only [list_collector.collect_loop]
    cases hf : catalog.find st.catalog entry.1 with
    | none =>
      obtain ⟨h1, h2⟩ := ih (kept ++ [entry]) st
      simp only [List.filter_cons, hf, Option.isSome_none, Option.isNone_none, if_true]
      refine ⟨by simpa using h1, fun st1 h => ?_⟩
      rw [h2 st1 h]
      simp
    | some found =>
      simp only [List.filter_cons, hf, Option.isSome_some, Option.isNone_some, if_true]
      simp only [collect_in_order, hf]
      cases hc : cr found st with
      | thrown e st1 =>
        simp only
        exact ⟨trivial, fun st2 h => by cases h⟩
      | ok u st1 =>
        simp only
        obtain ⟨h1, h2⟩ := ih kept st1
        have hk := H found st st1 hc
        have e1 : rest.filter (fun e => (catalog.find st1.catalog e.1).isSome) =
            rest.filter (fun e => (catalog.find st.catalog e.1).isSome) :=
          List.filter_congr (fun e _ => hk e.1)
        have e2 : rest.filter (fun e => (catalog.find st1.catalog e.1).isNone) =
            rest.filter (fun e => (catalog.find st.catalog e.1).isNone) :=
          List.filter_congr (fun e _ => by
            have := hk e.1
            cases h3 : catalog.find st1.catalog e.1 <;>
              cases h4 : catalog.find st.catalog e.1 <;> simp_all)
        rw [e1] at h1
        rw [e2] at h2
        simp only [Bool.false_eq_true, if_false]
        exact ⟨h1, h2⟩


/-- Calls of a `collect_resource` that keeps the resources keep them. -/
theorem collect_in_order_keeps (cr : resource → run Unit) (H : keeps_resources cr) :
    ∀ (entries : List (types.resource × location)) (st st1 : evaluation_state),
      collect_in_order cr entries st = .ok () st1 →
      ∀ t : types.resource,
        (catalog.find st1.catalog t).isSome = (catalog.find st.catalog t).isSome := by
  intro entries
  induction entries with
  | nil =>
    intro st st1 h t
    simp only [collect_in_order, completion.ok.injEq, true_and] at h
    rw [h]
  | cons entry rest ih =>
    intro st st1 h t
    simp only [collect_in_order] at h
    cases hf : catalog.find st.catalog entry.1 with
    | none => rw [hf] at h; exact ih st st1 h t
    | some found =>
      rw [hf] at h
      simp only at h
      cases hc : cr found st with
      | thrown e st2 => rw [hc] at h; cases h
      | ok u st2 =>
        rw [hc] at h
        rw [ih st2 st1 h t, H found st st2 hc t]

/-- Calls of a `collect_resource` that always returns return. -/
theorem collect_in_order_returns (cr : resource → run Unit)
    (hcr : ∀ r st, ∃ st1, cr r st = .ok () st1) :
    ∀ (entries : List (types.resource × location)) (st : evaluation_state),
      ∃ st1, collect_in_order cr entries st = .ok () st1 := by
  intro entries
  induction entries with
  | nil => exact fun st => ⟨st, rfl⟩
  | cons entry rest ih =>
    intro st
    simp only [collect_in_order]
    cases hf : catalog.find st.catalog entry.1 with
    | none => exact ih st
    | some found =>
      obtain ⟨st1, h1⟩ := hcr found st
      simp only [h1]
      exact ih st1

/-- The loop of `collect` over entries the catalog does not hold keeps them all and calls
nothing. -/
theorem collect_loop_none (g : resource → run Unit) (st : evaluation_state) :
    ∀ (remaining kept : List (types.resource × location)),
      (∀ e ∈ remaining, catalog.find st.catalog e.1 = none) →
      list_collector.collect_loop g kept remaining st = (⟨kept ++ remaining⟩, .ok () st) := by
  intro remaining
  induction remaining with
  | nil => intro kept _; simp [list_collector.collect_loop]
  | cons entry rest ih =>
    intro kept h
    simp only [list_collector.collect_loop, h entry (List.mem_cons_self _ _)]
    rw [ih (kept ++ [entry]) (fun e he => h e (List.mem_cons_of_mem _ he))]
    simp

/-- Claim C33: `collect` never adds an entry to the list of the collector, and when a first
run has returned, with a `collect_resource` that neither adds resources to the catalog nor
removes any, a second run in the state the first one left returns the same list and the same
state whatever `collect_resource` would do: nothing is collected a second time. -/
theorem collect_idempotent (cr : resource → run Unit) (c : list_collector)
    (st : evaluation_state) :
    (c.collect cr st).1.list.Sublist c.list ∧
    (keeps_resources cr → ∀ st1, (c.collect cr st).2 = .ok () st1 →
      ∀ g : resource → run Unit,
        (c.collect cr st).1.collect g st1 = ((c.collect cr st).1, .ok () st1)) := by
  refine ⟨?_, ?_⟩
  · simpa [list_collector.collect] using collect_loop_sublist cr c.list [] st
  · intro H st1 h g
    obtain ⟨h1, h2⟩ := collect_loop_spec cr H c.list [] st
    have h3 := h2 st1 h
    have h4 : collect_in_order cr
        (c.list.filter (fun e => (catalog.find st.catalog e.1).isSome)) st = .ok () st1 := by
      rw [← h1]; exact h
    have hk := collect_in_order_keeps cr H _ st st1 h4
    simp only [List.nil_append] at h3
    have hnone : ∀ e ∈ (c.collect cr st).1.list, catalog.find st1.catalog e.1 = none := by
      intro e he
      rw [list_collector.collect, h3, List.mem_filter] at he
      have := hk e.1
      cases h5 : catalog.find st1.catalog e.1 with
      | none => rfl
      | some r =>
        rw [h5] at this
        have h6 := he.2
        cases h7 : catalog.find st.catalog e.1 with
        | none => rw [h7] at this; simp at this
        | some r2 => rw [h7] at h6; simp at h6
    have := collect_loop_none g st1 (c.collect cr st).1.list [] hnone
    simpa [list_collector.collect] using this

/-- Claim C34: with a `collect_resource` that neither adds resources to the catalog nor removes
any, `collect` calls `collect_resource` once for each entry whose resource the catalog holds,
in the order of the list, and when it returns the list holds exactly the entries whose resource
the catalog does not hold, in their original order; it returns when `collect_resource`
returns on every call. -/
theorem collect_pending_and_collected (cr : resource → run Unit) (H : keeps_resources cr)
    (c : list_collector) (st : evaluation_state) :
    (c.collect cr st).2 =
      collect_in_order cr (c.list.filter (fun e => (catalog.find st.catalog e.1).isSome)) st ∧
    (∀ st1, (c.collect cr st).2 = .ok () st1 →
      (c.collect cr st).1.list =
        c.list.filter (fun e => (catalog.find st.catalog e.1).isNone)) ∧
    ((∀ r s, ∃ s1, cr r s = .ok () s1) → ∃ st1, (c.collect cr st).2 = .ok () st1) := by
  obtain ⟨h1, h2⟩ := collect_loop_spec cr H c.list [] st
  refine ⟨h1, ?_, ?_⟩
  · intro st1 h
    simpa using h2 st1 h
  · intro hcr
    obtain ⟨st1, h3⟩ := collect_in_order_returns cr hcr
      (c.list.filter (fun e => (catalog.find st.catalog e.1).isSome)) st
    exact ⟨st1, by rw [list_collector.collect, h1, h3]⟩

/-- Realizing a resource keeps the resources of the catalog. -/
theorem realize_keeps_resources : keeps_resources realize := by
  intro r st st1 h t
  simp only [realize, completion.ok.injEq, true_and] at h
  rw [← h]
  simp only [catalog.find, catalog.modify, List.find?_map]
  have e : ((fun x : resource => x.type == t) ∘ fun x : resource =>
      if (x.type == r.type) = true then
        (⟨x.type, x.container, x.context, false, x.exported, x.attributes⟩ : resource)
      else x) = (fun x : resource => x.type == t) := by
    funext x
    by_cases hx : (x.type == r.type) = true <;> simp [Function.comp, hx]
  rw [e]
  cases List.find? (fun x : resource => x.type == t) st.catalog <;> rfl



/-- The loop over the strings of a string returns when the lambda returns on every call. -/
theorem string_loop_returns (V : map_visitor)
    (hf : ∀ a s, ∃ v s2, V.context.yield a s = .ok v s2) :
    ∀ (codepoints : List String) (i : Int) (result : List value) (st : evaluation_state),
      ∃ vs st2, V.string_loop i codepoints result st = .ok (value.array vs) st2 := by
  intro codepoints
  induction codepoints with
  | nil => exact fun i result st => ⟨result, st, rfl⟩
  | cons c rest ih =>
    intro i result st
    simp only [map_visitor.string_loop]
    obtain ⟨v, st1, h1⟩ := hf
      (if V.lambda_parameter_count = 1 then [value.string c]
        else [value.integer i, value.string c]) st
    simp only [h1]
    exact ih _ _ _

/-- The loop of `enumerate` returns when the lambda returns on every call. -/
theorem enumerate_loop_returns (V : map_visitor)
    (hf : ∀ a s, ∃ v s2, V.context.yield a s = .ok v s2) (pairs : List (Int × Int))
    (st : evaluation_state) :
    ∃ vs st2, V.enumerate_loop pairs [] st = .ok (value.array vs) st2 := by
  rw [enumerate_loop_eq]
  obtain ⟨vs, st2, h1, _⟩ := call_in_order_returns _ hf
    (pairs.map (fun p =>
      if V.lambda_parameter_count = 1 then [value.integer p.2]
      else [value.integer p.1, value.integer p.2])) st
  exact ⟨vs, st2, by rw [h1]; rfl⟩

/-- The loop over an array returns when the lambda returns on every call. -/
theorem array_loop_returns (V : map_visitor)
    (hf : ∀ a s, ∃ v s2, V.context.yield a s = .ok v s2) (elements : List value)
    (st : evaluation_state) :
    ∃ vs st2, V.array_loop 0 elements [] st = .ok (value.array vs) st2 := by
  rw [array_loop_eq]
  obtain ⟨vs, st2, h1, _⟩ := call_in_order_returns _ hf
    ((elements.enumFrom 0).map (fun p =>
      if V.lambda_parameter_count = 1 then [p.2]
      else [value.integer (p.1 : Int), p.2])) st
  exact ⟨vs, st2, by rw [h1]; rfl⟩

/-- The loop over a hash returns when the lambda returns on every call. -/
theorem hash_loop_returns (V : map_visitor)
    (hf : ∀ a s, ∃ v s2, V.context.yield a s = .ok v s2) (entries : List (value × value))
    (st : evaluation_state) :
    ∃ vs st2, V.hash_loop entries [] st = .ok (value.array vs) st2 := by
  rw [hash_loop_eq]
  obtain ⟨vs, st2, h1, _⟩ := call_in_order_returns _ hf
    (entries.map (fun p =>
      if V.lambda_parameter_count = 1 then [value.array [p.1, p.2]]
      else [p.1, p.2])) st
  exact ⟨vs, st2, by rw [h1]; rfl⟩

/-- Claim C36: `map` raises an evaluation error and leaves the state as it is, whatever the
lambda would do, when the number of arguments is not one, when no lambda is given, when the
lambda has neither one nor two parameters, and when the argument is not a string, an integer,
an array, a hash or an enumerable Integer type; otherwise it returns an array when the lambda
returns on every call. -/
theorem map_argument_errors (E : enumeration) (c : function_call_context)
    (st : evaluation_state) :
    (c.arguments.length ≠ 1 →
      ∃ message, map E c st = .thrown (exception.evaluation_exception message) st) ∧
    (c.lambda = none →
      ∃ message, map E c st = .thrown (exception.evaluation_exception message) st) ∧
    (∀ lambda, c.lambda = some lambda →
      lambda.parameters.length ≠ 1 → lambda.parameters.length ≠ 2 →
      ∃ message, map E c st = .thrown (exception.evaluation_exception message) st) ∧
    (∀ argument, c.arguments = [argument] → is_enumerable_argument E argument = false →
      ∃ message, map E c st = .thrown (exception.evaluation_exception message) st) ∧
    (∀ argument lambda, c.arguments = [argument] → c.lambda = some lambda →
      (lambda.parameters.length = 1 ∨ lambda.parameters.length = 2) →
      is_enumerable_argument E argument = true →
      (∀ a s, ∃ v s2, c.yield a s = .ok v s2) →
      ∃ vs st2, map E c st = .ok (value.array vs) st2) := by
  refine ⟨?_, ?_, ?_, ?_, ?_⟩
  · intro h
    unfold map
    split
    · rename_i argument heq
      rw [heq] at h
      exact absurd rfl h
    · exact ⟨_, rfl⟩
  · intro h
    unfold map
    split
    · simp only [h]
      exact ⟨_, rfl⟩
    · exact ⟨_, rfl⟩
  · intro lambda h h1 h2
    unfold map
    split
    · simp only [h]
      have : lambda.parameters.length = 0 ∨ lambda.parameters.length > 2 := by omega
      simp only [this, if_true]
      exact ⟨_, rfl⟩
    · exact ⟨_, rfl⟩
  · intro argument h hen
    unfold map
    simp only [h]
    cases hl : c.lambda with
    | none => exact ⟨_, rfl⟩
    | some lambda =>
      simp only
      split
      · exact ⟨_, rfl⟩
      · unfold is_enumerable_argument at hen
        unfold map_visitor.apply
        cases hd : argument.dereference <;> simp only [hd] at hen ⊢ <;>
          try (first | exact ⟨_, rfl⟩ | cases hen)
        rename_i t
        cases t <;> simp only [map_visitor.type] at hen ⊢ <;>
          try (first | exact ⟨_, rfl⟩ | cases hen)
        simp only [map_visitor.integer_type, hen, Bool.not_false, if_true]
        exact ⟨_, rfl⟩
  · intro argument lambda h hl hcount hen hf
    unfold map
    simp only [h, hl]
    have : ¬ (lambda.parameters.length = 0 ∨ lambda.parameters.length > 2) := by omega
    simp only [this, if_false]
    unfold is_enumerable_argument at hen
    unfold map_visitor.apply
    cases hd : argument.dereference <;> simp only [hd] at hen ⊢ <;> try cases hen
    · rename_i i
      unfold map_visitor.integer
      split
      · exact ⟨[], st, rfl⟩
      · exact enumerate_loop_returns ⟨c, lambda.parameters.length⟩ hf _ st
    · exact string_loop_returns ⟨c, lambda.parameters.length⟩ hf _ _ _ _
    · exact array_loop_returns ⟨c, lambda.parameters.length⟩ hf _ st
    · exact hash_loop_returns ⟨c, lambda.parameters.length⟩ hf _ st
    · rename_i t
      cases t <;> simp only [map_visitor.type] at hen ⊢ <;> try cases hen
      simp only [map_visitor.integer_type, hen, Bool.not_true, Bool.false_eq_true, if_false]
      exact enumerate_loop_returns ⟨c, lambda.parameters.length⟩ hf _ st

/-- Witness of claim C33: with `File['/b']` and `File['/a']` pending and only `File['/a']` in
the catalog, a first run leaves `File['/b']` pending, and a second run, even with a
`collect_resource` that always fails, leaves the list and the state as they are. -/
theorem collect_idempotent_witness :
    (pending_files.collect realize virtual_file_state).1.collect
        (fun _ st => .thrown (exception.runtime_error "collected twice.") st)
        realized_file_state =
      ((pending_files.collect realize virtual_file_state).1, .ok () realized_file_state) :=
  (collect_idempotent realize pending_files virtual_file_state).2 realize_keeps_resources
    realized_file_state rfl _

/-- Witness of claim C34: with `File['/b']` and `File['/a']` pending and only the virtual
`File['/a']` in the catalog, `collect` realizes `File['/a']` and leaves `File['/b']`
pending. -/
theorem collect_pending_and_collected_witness :
    (pending_files.collect realize virtual_file_state).1.list =
      [(types.resource.make "file" "/b", ⟨"site.pp", 1⟩)] ∧
    (pending_files.collect realize virtual_file_state).2 = .ok () realized_file_state :=
  ⟨((collect_pending_and_collected realize realize_keeps_resources pending_files
      virtual_file_state).2.1 realized_file_state rfl).trans (by decide),
    (collect_pending_and_collected realize realize_keeps_resources pending_files
      virtual_file_state).1.trans rfl⟩

/-- Witness of claim C36: inside a template, `map` without an argument, with a lambda of three
parameters or with the argument `true` raises and writes nothing to the stream, which the
lambda would do; `map` of `'ab'` with a lambda that returns its arguments returns an array. -/
theorem map_argument_errors_witness :
    (∃ message, map plain_enumeration (recording_call [] ["x"])
        { empty_state with epp_streams := [[]] } =
      .thrown (exception.evaluation_exception message)
        { empty_state with epp_streams := [[]] }) ∧
    (∃ message, map plain_enumeration (recording_call [value.integer 3] ["x", "y", "z"])
        { empty_state with epp_streams := [[]] } =
      .thrown (exception.evaluation_exception message)
        { empty_state with epp_streams := [[]] }) ∧
    (∃ message, map plain_enumeration (recording_call [value.boolean true] ["x"])
        { empty_state with epp_streams := [[]] } =
      .thrown (exception.evaluation_exception message)
        { empty_state with epp_streams := [[]] }) ∧
    (∃ vs st2, map plain_enumeration (echo_call [value.string "ab"]) empty_state =
      .ok (value.array vs) st2) :=
  ⟨(map_argument_errors plain_enumeration (recording_call [] ["x"]) _).1 (by decide),
    (map_argument_errors plain_enumeration (recording_call [value.integer 3] ["x", "y", "z"])
      _).2.2.1 _ rfl (by decide) (by decide),
    (map_argument_errors plain_enumeration (recording_call [value.boolean true] ["x"])
      _).2.2.2.1 _ rfl rfl,
    (map_argument_errors plain_enumeration (echo_call [value.string "ab"]) empty_state).2.2.2.2
      _ _ rfl rfl (Or.inl rfl) rfl (fun a s => ⟨_, _, rfl⟩)⟩

/-! ## A case expression without a match -/

/-- With `productive` set, an expression that is not productive raises the evaluation error,
whatever its evaluation would do. -/
theorem evaluate_unproductive (X : externals) (e : expression) (s : context)
    (h : X.is_productive e = false) :
    evaluate X e true s = .error (exception.evaluation_exception
      "unproductive expressions may only appear last in a block.") := by
  cases e with
  | mk p r => simp [evaluate, h]

/-- With `productive` set, a productive expression is evaluated as without it. -/
theorem evaluate_productive (X : externals) (e : expression) (s : context)
    (h : X.is_productive e = true) :
    evaluate X e true s = evaluate X e false s := by
  cases e with
  | mk p r => simp [evaluate, h]

/-- The statements are evaluated in order. -/
theorem evaluate_statements_append (X : externals) (pre post : List expression) :
    ∀ s, evaluate_statements X (pre ++ post) s =
      match evaluate_statements X pre s with
      | .error e => .error e
      | .ok (_, s1) => evaluate_statements X post s1 := by
  induction pre with
  | nil => intro s; rfl
  | cons x rest ih =>
    intro s
    simp only [List.cons_append, evaluate_statements]
    cases evaluate X x true s with
    | error e => rfl
    | ok r => exact ih r.2

/-- Statements that were all evaluated are all productive. -/
theorem evaluate_statements_productive (X : externals) (statements : List expression) :
    ∀ s u s1, evaluate_statements X statements s = .ok (u, s1) →
      ∀ e ∈ statements, X.is_productive e = true := by
  induction statements with
  | nil => intro s u s1 _ e he; simp at he
  | cons x rest ih =>
    intro s u s1 h e he
    simp only [evaluate_statements] at h
    have hx : X.is_productive x = true := by
      cases hp : X.is_productive x with
      | true => rfl
      | false => rw [evaluate_unproductive X x s hp] at h; cases h
    simp only [List.mem_cons] at he
    rcases he with rfl | he
    · exact hx
    · cases hr : evaluate X x true s with
      | error err => rw [hr] at h; cases h
      | ok r =>
        rw [hr] at h
        exact ih r.2 u s1 h e he

/-- A body with a last expression: the expressions before it are evaluated as statements, and
the value is that of the last expression, which need not be productive. -/
theorem evaluate_body_append (X : externals) (last : expression) (init : List expression) :
    ∀ (v : value) (s : context), evaluate_body X (init ++ [last]) v s =
      match evaluate_statements X init s with
      | .error e => .error e
      | .ok (_, s1) => evaluate X last false s1 := by
  induction init with
  | nil =>
    intro v s
    simp only [List.nil_append, evaluate_body, evaluate_statements, List.isEmpty_nil,
      Bool.not_true]
    cases evaluate X last false s with
    | error e => rfl
    | ok r => rfl
  | cons x rest ih =>
    intro v s
    have hne : (rest ++ [last]).isEmpty = false := by cases rest <;> rfl
    simp only [List.cons_append, evaluate_body, evaluate_statements]
    simp only [List.append_eq, hne, Bool.not_false]
    cases evaluate X x true s with
    | error e => rfl
    | ok r => exact ih r.1 r.2


/-- Claim C31: evaluated with `productive` set, an expression that is not productive raises
the evaluation error whatever the evaluation of its parts would do, and a productive one is
evaluated as without the flag.  The evaluation of a syntax tree returns only when every
statement is productive, and raises the error at the first statement that is not, once the
statements before it are evaluated.  The body of a block is undef when empty; otherwise the
expressions before the last are evaluated as statements and the value is that of the last
expression, evaluated without the flag. -/
theorem productive_is_required (X : externals) :
    (∀ e s, X.is_productive e = false →
      evaluate X e true s = .error (exception.evaluation_exception
        "unproductive expressions may only appear last in a block.")) ∧
    (∀ e s, X.is_productive e = true → evaluate X e true s = evaluate X e false s) ∧
    (∀ T tree arguments s u s1, evaluate_tree X T tree arguments s = .ok (u, s1) →
      ∀ e ∈ tree.statements, X.is_productive e = true) ∧
    (∀ pre e post s, X.is_productive e = false →
      evaluate_statements X (pre ++ e :: post) s =
        match evaluate_statements X pre s with
        | .error err => .error err
        | .ok _ => .error (exception.evaluation_exception
          "unproductive expressions may only appear last in a block.")) ∧
    (∀ s, evaluate_body X [] value.undef s = .ok (value.undef, s)) ∧
    (∀ init last v s, evaluate_body X (init ++ [last]) v s =
      match evaluate_statements X init s with
      | .error err => .error err
      | .ok (_, s1) => evaluate X last false s1) := by
  refine ⟨fun e s h => evaluate_unproductive X e s h, fun e s h => evaluate_productive X e s h,
    ?_, ?_, fun s => ?_, fun init last v s => evaluate_body_append X last init v s⟩
  · intro T tree arguments s u s1 h
    unfold evaluate_tree at h
    cases hp : tree.parameters with
    | none =>
      rw [hp] at h
      exact evaluate_statements_productive X _ s u s1 h
    | some parameters =>
      rw [hp] at h
      simp only at h
      cases h1 : T.populate parameters (arguments.getD []) (T.create_local_scope s) with
      | error err => rw [h1] at h; cases h
      | ok r =>
        rw [h1] at h
        simp only at h
        cases h2 : evaluate_statements X tree.statements r.2 with
        | error err => rw [h2] at h; cases h
        | ok r2 => exact evaluate_statements_productive X _ r.2 r2.1 r2.2 h2
  · intro pre e post s h
    rw [evaluate_statements_append]
    cases evaluate_statements X pre s with
    | error err => rfl
    | ok r =>
      simp only [evaluate_statements, evaluate_unproductive X e r.2 h]
  · simp only [evaluate_body]

/-- Witness of claim C31: an unproductive expression whose evaluation would fail otherwise
raises the productivity error; the body `$x = 1  2` has the value 2; the body `1  2` raises
the error at its first expression. -/
theorem productive_is_required_witness :
    evaluate statement_externals (atom (.other 0)) true empty_context =
      .error (exception.evaluation_exception
        "unproductive expressions may only appear last in a block.") ∧
    evaluate_body statement_externals
        [chain (.variable "x") [(.assignment, .number 1)], atom (.number 2)] value.undef
        empty_context =
      .ok (value.integer 2, ⟨[("x", value.integer 1)], []⟩) ∧
    evaluate_body statement_externals [atom (.number 1), atom (.number 2)] value.undef
        empty_context =
      .error (exception.evaluation_exception
        "unproductive expressions may only appear last in a block.") :=
  ⟨(productive_is_required statement_externals).1 (atom (.other 0)) empty_context rfl,
    ((productive_is_required statement_externals).2.2.2.2.2
      [chain (.variable "x") [(.assignment, .number 1)]] (atom (.number 2)) value.undef
      empty_context).trans rfl,
    ((productive_is_required statement_externals).2.2.2.2.2
      [atom (.number 1)] (atom (.number 2)) value.undef empty_context).trans rfl⟩

/-! ## The attributes of a resource body -/

/-- The loop over the entries of a splatted hash keeps the names in step with the
attributes and free of duplicates. -/
theorem splat_entries_names (rest : metaparameter_type → value → Bool)
    (oper : attribute_operator) (entries : List (value × value)) :
    ∀ (attrs : attributes) (names : List String) (r : attributes × List String),
      names = attribute_names attrs → names.Nodup →
      splat_entries rest oper entries attrs names = .ok r →
      r.2 = attribute_names r.1 ∧ r.2.Nodup := by
  induction entries with
  | nil =>
    intro attrs names r h1 h2 h
    simp only [splat_entries, Except.ok.injEq] at h
    rw [← h]
    exact ⟨h1, h2⟩
  | cons entry entries ih =>
    intro attrs names r h1 h2 h
    obtain ⟨key, v⟩ := entry
    simp only [splat_entries] at h
    cases hk : key.as_string with
    | none => rw [hk] at h; cases h
    | some name =>
      rw [hk] at h
      simp only at h
      by_cases hc : names.contains name = true
      · simp only [hc, if_true] at h; cases h
      · simp only [hc] at h
        cases hv : validate_attribute rest name v with
        | error e => rw [hv] at h; cases h
        | ok validated =>
          rw [hv] at h
          refine ih _ _ r ?_ ?_ h
          · simp [attribute_names, h1]
          · have hn : name ∉ names := by simpa using hc
            exact List.Nodup.append h2 (List.nodup_singleton name) (by simpa using hn)

/-- The loop over the attribute expressions keeps the names in step with the attributes and
free of duplicates, so the names of the attributes it returns are pairwise distinct. -/
theorem evaluate_attributes_loop_names (rest : metaparameter_type → value → Bool)
    (is_class : Bool) (expressions : List attribute_expression) :
    ∀ (attrs : attributes) (names : List String) (st st1 : evaluation_state)
      (result : attributes),
      names = attribute_names attrs → names.Nodup →
      evaluate_attributes_loop rest is_class expressions attrs names st = .ok result st1 →
      (attribute_names result).Nodup := by
  induction expressions with
  | nil =>
    intro attrs names st st1 result h1 h2 h
    simp only [evaluate_attributes_loop, completion.ok.injEq] at h
    rw [← h.1, ← h1]
    exact h2
  | cons expression expressions ih =>
    intro attrs names st st1 result h1 h2 h
    simp only [evaluate_attributes_loop] at h
    split at h
    · cases h
    · split at h
      · cases hs : splat_attribute rest expression attrs names st with
        | thrown e st2 => rw [hs] at h; cases h
        | ok r st2 =>
          rw [hs] at h
          simp only [splat_attribute] at hs
          cases hv : expression.value st with
          | thrown e st3 => rw [hv] at hs; cases hs
          | ok v st3 =>
            rw [hv] at hs
            simp only at hs
            cases hh : v.as_hash with
            | none => rw [hh] at hs; cases hs
            | some hash =>
              rw [hh] at hs
              simp only at hs
              cases he : splat_entries rest expression.oper hash attrs names with
              | error e => rw [he] at hs; cases hs
              | ok r2 =>
                rw [he] at hs
                simp only [completion.ok.injEq] at hs
                obtain ⟨k1, k2⟩ := splat_entries_names rest _ hash attrs names r2 h1 h2 he
                rw [hs.1] at k1 k2
                exact ih _ _ _ _ _ k1 k2 h
      · split at h
        · cases h
        · split at h
          · cases h
          · rename_i hc
            cases hv : expression.value st with
            | thrown e st3 => rw [hv] at h; cases h
            | ok v st3 =>
              rw [hv] at h
              simp only at h
              cases hval : validate_attribute rest expression.name v with
              | error e => rw [hval] at h; cases h
              | ok validated =>
                rw [hval] at h
                refine ih _ _ _ _ _ ?_ ?_ h
                · simp [attribute_names, h1]
                · have hn : expression.name ∉ names := by simpa using hc
                  exact List.Nodup.append h2 (List.nodup_singleton _) (by simpa using hn)

/-- The names of the attributes that `evaluate_attributes` returns are pairwise distinct. -/
theorem evaluate_attributes_names_distinct (rest : metaparameter_type → value → Bool)
    (is_class : Bool) (expressions : List attribute_expression) (st st1 : evaluation_state)
    (result : attributes)
    (h : evaluate_attributes rest is_class expressions st = .ok result st1) :
    (attribute_names result).Nodup :=
  evaluate_attributes_loop_names rest is_class expressions [] [] st st1 result rfl
    List.nodup_nil h

/-- Without a splat, the loop over the attribute expressions adds no attribute named `title`,
and one named `stage` only for a class. -/
theorem evaluate_attributes_loop_explicit (rest : metaparameter_type → value → Bool)
    (is_class : Bool) (expressions : List attribute_expression)
    (hsplat : ∀ e ∈ expressions, e.name ≠ "*") :
    ∀ (attrs : attributes) (names : List String) (st st1 : evaluation_state)
      (result : attributes),
      (∀ n ∈ attribute_names attrs, n ≠ "title" ∧ (n = "stage" → is_class = true)) →
      evaluate_attributes_loop rest is_class expressions attrs names st = .ok result st1 →
      ∀ n ∈ attribute_names result, n ≠ "title" ∧ (n = "stage" → is_class = true) := by
  induction expressions with
  | nil =>
    intro attrs names st st1 result h1 h
    simp only [evaluate_attributes_loop, completion.ok.injEq] at h
    rw [← h.1]
    exact h1
  | cons expression expressions ih =>
    intro attrs names st st1 result h1 h
    have hns : expression.name ≠ "*" := hsplat expression (List.mem_cons_self _ _)
    simp only [evaluate_attributes_loop, hns, if_false] at h
    split at h
    · cases h
    · rename_i ht
      split at h
      · cases h
      · rename_i hstage
        split at h
        · cases h
        · cases hv : expression.value st with
          | thrown e st3 => rw [hv] at h; cases h
          | ok v st3 =>
            rw [hv] at h
            simp only at h
            cases hval : validate_attribute rest expression.name v with
            | error e => rw [hval] at h; cases h
            | ok validated =>
              rw [hval] at h
              refine ih (fun e he => hsplat e (List.mem_cons_of_mem _ he)) _ _ _ _ _ ?_ h
              intro n hn
              simp only [attribute_names, List.map_append, List.map_cons, List.map_nil,
                List.mem_append, List.mem_singleton] at hn
              rcases hn with hn | rfl
              · exact h1 n hn
              · refine ⟨ht, fun hs => ?_⟩
                cases is_class with
                | true => rfl
                | false => simp [hs] at hstage

/-- Claim C38, the behaviour of the code: the checks for `title` and for `stage` outside a
class are made on the names written in the attribute list only.  For a body that is not a
class, the splat `* => { 'title' => 't', 'stage' => 'main' }` returns an attribute named
`title` and one named `stage`, whereas `title => 't'` and `stage => 'main'` written out raise
the evaluation errors.  (The names returned are pairwise distinct in both forms, see
`evaluate_attributes_names_distinct`.) -/
theorem splat_lets_title_through :
    evaluate_attributes (fun _ _ => true) false
        [⟨"*", .assignment,
          yield (value.hash [(value.string "title", value.string "t"),
            (value.string "stage", value.string "main")])⟩] empty_state =
      .ok [(.assignment, ⟨"title", value.string "t"⟩),
        (.assignment, ⟨"stage", value.string "main"⟩)] empty_state ∧
    evaluate_attributes (fun _ _ => true) false
        [⟨"title", .assignment, yield (value.string "t")⟩] empty_state =
      .thrown (exception.evaluation_exception "title is not a valid parameter name.")
        empty_state ∧
    evaluate_attributes (fun _ _ => true) false
        [⟨"stage", .assignment, yield (value.string "main")⟩] empty_state =
      .thrown (exception.evaluation_exception "attribute 'stage' is only valid for classes.")
        empty_state :=
  ⟨rfl, rfl, rfl⟩

/-! ## The termination of the climb and the record of the applied operators -/

/-- Without its record, the recording function is `climb_expression`. -/
theorem climb_expression_trace_erase (O : operators) :
    ∀ (fuel : Nat) (left : value) (min_precedence : Nat) (ops : List binary_thunk)
      (s : context),
      (climb_expression_trace O fuel left min_precedence ops s).map Prod.fst =
        climb_expression O fuel left min_precedence ops s := by
  intro fuel
  induction fuel with
  | zero => intro left m ops s; rfl
  | succ fuel ih =>
    intro left m ops s
    cases ops with
    | nil => rfl
    | cons e rest =>
      simp only [climb_expression_trace, climb_expression]
      split
      · split
        · rfl
        · cases hop : e.operand s with
          | error err => rfl
          | ok r =>
            obtain ⟨right, s1⟩ := r
            simp only
            have ih1 := ih right
              (get_precedence e.oper + if is_right_associative e.oper = true then 0 else 1)
              rest s1
            cases h1 : climb_expression_trace O fuel right
              (get_precedence e.oper + if is_right_associative e.oper = true then 0 else 1)
              rest s1 with
            | none =>
              rw [h1] at ih1
              simp only [Option.map_none'] at ih1
              simp only [← ih1]
              rfl
            | some p =>
              obtain ⟨r1, applied⟩ := p
              rw [h1] at ih1
              simp only [Option.map_some'] at ih1
              simp only [← ih1]
              cases r1 with
              | error err => rfl
              | ok q =>
                obtain ⟨⟨right1, rest1⟩, s2⟩ := q
                simp only
                cases hb : evaluate_binary O left e.oper right1 s2 with
                | error err => rfl
                | ok q2 =>
                  obtain ⟨left1, s3⟩ := q2
                  simp only
                  have ih2 := ih left1 m rest1 s3
                  cases h2 : climb_expression_trace O fuel left1 m rest1 s3 with
                  | none =>
                    rw [h2] at ih2
                    simp only [Option.map_none'] at ih2
                    simp only [← ih2]
                    rfl
                  | some p2 =>
                    rw [h2] at ih2
                    simp only [Option.map_some'] at ih2
                    simp only [← ih2]
                    rfl
      · rfl

/-- The records of the inner climb, of the application and of the rest of the loop make up
the record of the loop. -/
theorem record_perm (a1 a2 : List Nat) (r n1 n2 x : Nat)
    (h2 : a2.Perm (List.range' r n2)) (h1 : a1.Perm (List.range' (r + n2) n1))
    (hx : x = r + n2 + n1) :
    (a1 ++ x :: a2).Perm (List.range' r (n2 + n1 + 1)) := by
  have e : List.range' r (n2 + n1 + 1) =
      List.range' r n2 ++ (List.range' (r + n2) n1 ++ [x]) := by
    have e1 : List.range' r (n2 + n1) = List.range' r n2 ++ List.range' (r + n2) n1 := by
      rw [Nat.add_comm n2 n1]
      exact (List.range'_append_1 r n2 n1).symm
    rw [List.range'_1_concat, e1, hx, List.append_assoc, Nat.add_assoc]
  rw [e]
  have p1 : (a1 ++ x :: a2).Perm (a2 ++ (a1 ++ [x])) := by
    have : (a1 ++ x :: a2) = (a1 ++ [x]) ++ a2 := by simp
    rw [this]
    exact List.perm_append_comm
  exact p1.trans (List.Perm.append h2 (List.Perm.append h1 (List.Perm.refl _)))

theorem climb_expression_trace_record (O : operators) :
    ∀ (fuel : Nat) (left : value) (m : Nat) (ops : List binary_thunk) (s : context)
      (v : value) (rest1 : List binary_thunk) (s1 : context) (applied : List Nat),
      climb_expression_trace O fuel left m ops s = some (.ok ((v, rest1), s1), applied) →
      climb_record ops rest1 m applied := by
  intro fuel
  induction fuel with
  | zero => intro left m ops s v rest1 s1 applied h; cases h
  | succ fuel ih =>
    intro left m ops s v rest1 s1 applied h
    cases ops with
    | nil =>
      simp only [climb_expression_trace, Option.some.injEq, Prod.mk.injEq, Except.ok.injEq] at h
      obtain ⟨⟨⟨_, rfl⟩, _⟩, rfl⟩ := h
      exact ⟨[], Or.inl ⟨rfl, fun e rest2 h => by cases h⟩, by simp⟩
    | cons e rest =>
      simp only [climb_expression_trace] at h
      split at h
      · rename_i hprec
        split at h
        · rename_i hsc
          simp only [Option.some.injEq, Prod.mk.injEq, Except.ok.injEq] at h
          obtain ⟨⟨⟨_, rfl⟩, _⟩, rfl⟩ := h
          refine ⟨[], Or.inr ⟨e, rest, rfl, rfl, ?_⟩, by simp⟩
          rcases hsc with hsc | hsc
          · exact Or.inl hsc.1
          · exact Or.inr hsc.1
        · cases hop : e.operand s with
          | error err => rw [hop] at h; simp at h
          | ok r =>
            obtain ⟨right, s2⟩ := r
            rw [hop] at h
            simp only at h
            cases h1 : climb_expression_trace O fuel right
              (get_precedence e.oper + if is_right_associative e.oper = true then 0 else 1)
              rest s2 with
            | none => rw [h1] at h; cases h
            | some p =>
              obtain ⟨r1, applied1⟩ := p
              rw [h1] at h
              cases r1 with
              | error err => simp at h
              | ok q =>
                obtain ⟨⟨right1, rest2⟩, s3⟩ := q
                simp only at h
                cases hb : evaluate_binary O left e.oper right1 s3 with
                | error err => rw [hb] at h; simp at h
                | ok q2 =>
                  obtain ⟨left1, s4⟩ := q2
                  rw [hb] at h
                  simp only at h
                  cases h2 : climb_expression_trace O fuel left1 m rest2 s4 with
                  | none => rw [h2] at h; cases h
                  | some p2 =>
                    obtain ⟨r2, applied2⟩ := p2
                    rw [h2] at h
                    simp only [Option.some.injEq, Prod.mk.injEq] at h
                    obtain ⟨rfl, rfl⟩ := h
                    obtain ⟨c1, hc1, hp1⟩ := ih _ _ _ _ _ _ _ _ h1
                    obtain ⟨c2, hc2, hp2⟩ := ih _ _ _ _ _ _ _ _ h2
                    rcases hc1 with ⟨hA1, _⟩ | ⟨sc, sk, hB1, hnil, hsc⟩
                    · rcases hc2 with ⟨hA2, hhead⟩ | ⟨sc2, sk2, hB2, hnil2, hsc2⟩
                      · refine ⟨e :: c1 ++ c2, Or.inl ⟨?_, hhead⟩, ?_⟩
                        · rw [hA1, hA2]; simp
                        · have l1 : rest.length = c1.length + (c2.length + rest1.length) := by
                            rw [hA1, hA2]; simp
                          have l2 : rest2.length = c2.length + rest1.length := by
                            rw [hA2]; simp
                          have q1 : rest.length - c1.length = rest1.length + c2.length := by
                            omega
                          have q2 : rest2.length - c2.length = rest1.length := by omega
                          rw [q1] at hp1
                          rw [q2] at hp2
                          have := record_perm applied1 applied2 rest1.length c1.length
                            c2.length rest.length hp2 hp1 (by omega)
                          have q3 : (e :: rest).length - (e :: c1 ++ c2).length =
                              rest1.length := by simp; omega
                          have q4 : (e :: c1 ++ c2).length = c2.length + c1.length + 1 := by
                            simp; omega
                          rw [q3, q4]
                          exact this
                      · subst hnil2
                        refine ⟨e :: c1 ++ c2, Or.inr ⟨sc2, sk2, ?_, rfl, hsc2⟩, ?_⟩
                        · rw [hA1, hB2]; simp
                        · have l1 : rest.length = c1.length + (c2.length + (sk2.length + 1)) := by
                            rw [hA1, hB2]; simp
                          have l2 : rest2.length = c2.length + (sk2.length + 1) := by
                            rw [hB2]; simp
                          have q1 : rest.length - c1.length = (sk2.length + 1) + c2.length := by
                            omega
                          have q2 : rest2.length - c2.length = sk2.length + 1 := by omega
                          rw [q1] at hp1
                          rw [q2] at hp2
                          have := record_perm applied1 applied2 (sk2.length + 1) c1.length
                            c2.length rest.length hp2 hp1 (by omega)
                          have q3 : (e :: rest).length - (e :: c1 ++ c2).length =
                              sk2.length + 1 := by simp; omega
                          have q4 : (e :: c1 ++ c2).length = c2.length + c1.length + 1 := by
                            simp; omega
                          rw [q3, q4]
                          exact this
                    · subst hnil
                      have hc2nil : c2 = [] ∧ rest1 = [] := by
                        rcases hc2 with ⟨hA2, _⟩ | ⟨sc2, sk2, hB2, _, _⟩
                        · have := congrArg List.length hA2
                          simp at this
                          exact ⟨List.length_eq_zero.1 (by omega),
                            List.length_eq_zero.1 (by omega)⟩
                        · have := congrArg List.length hB2
                          simp at this
                          omega
                      obtain ⟨rfl, rfl⟩ := hc2nil
                      refine ⟨e :: c1, Or.inr ⟨sc, sk, ?_, rfl, hsc⟩, ?_⟩
                      · rw [hB1]; simp
                      · have l1 : rest.length = c1.length + (sk.length + 1) := by
                          rw [hB1]; simp
                        have q1 : rest.length - c1.length = (sk.length + 1) + 0 := by omega
                        rw [q1] at hp1
                        simp only [List.length_nil, Nat.sub_zero, List.range'_zero] at hp2
                        have := record_perm applied1 applied2 (sk.length + 1) c1.length
                          0 rest.length hp2 hp1 (by omega)
                        have q3 : (e :: rest).length - (e :: c1).length = sk.length + 1 := by
                          simp; omega
                        have q4 : (e :: c1).length = 0 + c1.length + 1 := by simp
                        rw [q3, q4]
                        exact this
      · rename_i hprec
        simp only [Option.some.injEq, Prod.mk.injEq, Except.ok.injEq] at h
        obtain ⟨⟨⟨_, rfl⟩, _⟩, rfl⟩ := h
        refine ⟨[], Or.inl ⟨rfl, ?_⟩, by simp⟩
        intro e2 rest2 he
        simp only [List.cons.injEq] at he
        rw [← he.1]
        omega

/-- With more fuel than binary expressions left, the recording climb returns, with the result
of `climb_expression`. -/
theorem climb_expression_trace_terminates (O : operators) (fuel : Nat) (left : value)
    (min_precedence : Nat) (ops : List binary_thunk) (s : context) (hfuel : ops.length < fuel) :
    ∃ r applied,
      climb_expression_trace O fuel left min_precedence ops s = some (r, applied) ∧
      climb_expression O fuel left min_precedence ops s = some r := by
  obtain ⟨r, hr, _⟩ := climb_expression_terminates O fuel left min_precedence ops s hfuel
  have he := climb_expression_trace_erase O fuel left min_precedence ops s
  rw [hr] at he
  cases ht : climb_expression_trace O fuel left min_precedence ops s with
  | none => rw [ht] at he; cases he
  | some p =>
    obtain ⟨r1, applied⟩ := p
    rw [ht] at he
    simp only [Option.map_some', Option.some.injEq] at he
    subst he
    exact ⟨r1, applied, rfl, hr⟩

/-- Claim C40 as stated fails on the recursive calls: a recursive call need not advance the
iterator.  In `1 + 2 - 3` the iteration for `+` makes its recursive call with the operand 2
and the minimum precedence 9 on the iterator that stands at `- 3`, and this call returns at
once with the iterator where it was, since `-` has the precedence 8; the recursive call of the
iteration for `-` is made at the end and returns the end. -/
theorem recursive_call_keeps_iterator :
    climb_expression right_operand_operators 3 (value.integer 1) 0 sum_then_difference
        empty_context =
      (match climb_expression right_operand_operators 2 (value.integer 2)
          (get_precedence .plus + 1) [⟨.minus, constant (value.integer 3)⟩] empty_context with
      | none => none
      | some (.error e) => some (.error e)
      | some (.ok ((right1, rest1), s2)) =>
        match evaluate_binary right_operand_operators (value.integer 1) .plus right1 s2 with
        | .error e => some (.error e)
        | .ok (left1, s3) => climb_expression right_operand_operators 2 left1 0 rest1 s3) ∧
    climb_expression right_operand_operators 2 (value.integer 2) (get_precedence .plus + 1)
        [⟨.minus, constant (value.integer 3)⟩] empty_context =
      some (.ok ((value.integer 2, [⟨.minus, constant (value.integer 3)⟩]), empty_context)) ∧
    climb_expression right_operand_operators 1 (value.integer 3) (get_precedence .minus + 1)
        [] empty_context =
      some (.ok ((value.integer 3, []), empty_context)) ∧
    climb_expression right_operand_operators 3 (value.integer 1) 0 sum_then_difference
        empty_context =
      some (.ok ((value.integer 3, []), empty_context)) :=
  ⟨rfl, rfl, rfl, rfl⟩

/-- Claim C40, amended: `climb_expression` terminates for every finite remainder of binary
expressions: with more fuel than binary expressions, one unit for each loop iteration, which
advances the iterator before it makes its recursive call, the function returns (the
evaluation of an operand is a total function here).  No call moves the iterator back: the
iterator a call returns is a rest of the one it was given, and a call whose loop body runs
returns an iterator strictly ahead of it.  When the call with minimum precedence 0 returns,
the iterator is at the end, and the record of the applied operators shows that the operators
of a first part of the remainder were applied exactly once each, while what follows that part,
if anything, starts with a logical operator that short-circuited and was skipped with all that
follows it. -/
theorem climb_expression_advances (O : operators) (fuel : Nat) (left : value)
    (min_precedence : Nat) (ops : List binary_thunk) (s : context) (hfuel : ops.length < fuel) :
    ∃ r applied,
      climb_expression_trace O fuel left min_precedence ops s = some (r, applied) ∧
      climb_expression O fuel left min_precedence ops s = some r ∧
      ∀ v rest1 s1, r = .ok ((v, rest1), s1) →
        rest1 <:+ ops ∧
        rest1.length ≤ ops.length ∧
        (∀ e rest, ops = e :: rest → min_precedence ≤ get_precedence e.oper →
          rest1.length < ops.length) ∧
        (min_precedence = 0 →
          rest1 = [] ∧
          ∃ consumed skipped, ops = consumed ++ skipped ∧
            applied.Perm (List.range' skipped.length consumed.length) ∧
            applied.Nodup ∧
            (skipped = [] ∨ ∃ sc rest, skipped = sc :: rest ∧
              (sc.oper = binary_operator.logical_and ∨
                sc.oper = binary_operator.logical_or))) := by
  obtain ⟨r, applied, ht, hr⟩ :=
    climb_expression_trace_terminates O fuel left min_precedence ops s hfuel
  refine ⟨r, applied, ht, hr, ?_⟩
  intro v rest1 s1 hok
  subst hok
  obtain ⟨consumed, hc, hp⟩ := climb_expression_trace_record O _ _ _ _ _ _ _ _ _ ht
  rcases hc with ⟨hA, hhead⟩ | ⟨sc, sk, hB, hnil, hsc⟩
  · have hl : ops.length = consumed.length + rest1.length := by rw [hA]; simp
    refine ⟨⟨consumed, hA.symm⟩, by omega, ?_, ?_⟩
    · intro e rest hops hprec
      cases consumed with
      | nil =>
        simp only [List.nil_append] at hA
        have := hhead e rest (hA ▸ hops)
        omega
      | cons c cs => simp only [List.length_cons] at hl; omega
    · intro hm
      have hnil : rest1 = [] := by
        cases rest1 with
        | nil => rfl
        | cons e rest2 => have := hhead e rest2 rfl; omega
      subst hnil
      refine ⟨rfl, consumed, [], hA, ?_, ?_, Or.inl rfl⟩
      · have : ops.length - consumed.length = 0 := by
          simp only [List.length_nil] at hl
          omega
        rw [this] at hp
        exact hp
      · exact hp.nodup_iff.2 (List.nodup_range' _ _)
  · subst hnil
    have hl : ops.length = consumed.length + (sk.length + 1) := by rw [hB]; simp
    refine ⟨List.nil_suffix, by simp, ?_, ?_⟩
    · intro e rest hops hprec
      simp only [List.length_nil]
      omega
    · intro hm
      refine ⟨rfl, consumed, sc :: sk, hB, ?_, ?_, Or.inr ⟨sc, sk, rfl, hsc⟩⟩
      · have : ops.length - consumed.length = (sc :: sk).length := by
          simp only [List.length_cons]; omega
        rw [this] at hp
        exact hp
      · exact hp.nodup_iff.2 (List.nodup_range' _ _)

/-- Witness of claim C40, amended: the remainder of `1 + 2 * 3 or 4 - 5`, climbed from minimum
precedence 0 with handlers that return their right operand: `*` and `+` are applied, in this
order, and `or` short-circuits, which skips `or 4 - 5`. -/
theorem climb_expression_advances_witness :
    sum_product_or_difference.length < 5 ∧
    climb_expression_trace right_operand_operators 5 (value.integer 1) 0
        sum_product_or_difference empty_context
      = some (.ok ((value.boolean true, []), empty_context), [2, 3]) ∧
    ∃ r applied,
      climb_expression_trace right_operand_operators 5 (value.integer 1) 0
          sum_product_or_difference empty_context = some (r, applied) ∧
      climb_expression right_operand_operators 5 (value.integer 1) 0
          sum_product_or_difference empty_context = some r ∧
      ∀ v rest1 s1, r = .ok ((v, rest1), s1) →
        rest1 <:+ sum_product_or_difference ∧
        rest1.length ≤ sum_product_or_difference.length ∧
        (∀ e rest, sum_product_or_difference = e :: rest → 0 ≤ get_precedence e.oper →
          rest1.length < sum_product_or_difference.length) ∧
        (0 = 0 →
          rest1 = [] ∧
          ∃ consumed skipped, sum_product_or_difference = consumed ++ skipped ∧
            applied.Perm (List.range' skipped.length consumed.length) ∧
            applied.Nodup ∧
            (skipped = [] ∨ ∃ sc rest, skipped = sc :: rest ∧
              (sc.oper = binary_operator.logical_and ∨
                sc.oper = binary_operator.logical_or))) :=
  ⟨by decide, rfl,
    climb_expression_advances right_operand_operators 5 (value.integer 1) 0
      sum_product_or_difference empty_context (by decide)⟩

/-! ## Precedence climbing and the operator-precedence tree -/

/-- The function `get_precedence` returns the precedence of the table of the specification. -/
theorem table_precedence_eq (o : binary_operator) : table_precedence o = get_precedence o := by
  cases o <;> rfl

/-- The function `is_right_associative` returns the associativity of the specification. -/
theorem table_right_associative_eq (o : binary_operator) :
    table_right_associative o = is_right_associative o := by
  cases o <;> rfl

/-- Operators of equal precedence have the same associativity: assignment is alone at its
precedence. -/
theorem equal_precedence_associativity (p o : binary_operator)
    (h : get_precedence p = get_precedence o) :
    is_right_associative p = is_right_associative o := by
  cases p <;> cases o <;> first | rfl | (exact absurd h (by decide))

/-- The condition `binds_left` in terms of `get_precedence` and `is_right_associative`. -/
theorem binds_left_iff (p o : binary_operator) :
    binds_left p o = true ↔
      get_precedence o < get_precedence p ∨
        (get_precedence p = get_precedence o ∧ is_right_associative o = false) := by
  simp [binds_left, table_precedence_eq, table_right_associative_eq]

/-- The condition `binds_right` in terms of `get_precedence` and `is_right_associative`. -/
theorem binds_right_iff (p o : binary_operator) :
    binds_right p o = true ↔
      get_precedence o < get_precedence p ∨
        (get_precedence p = get_precedence o ∧ is_right_associative o = true) := by
  simp [binds_right, table_precedence_eq, table_right_associative_eq]

/-- The climb of the right operand of `p` stops before an operator `o` that has `p` in its left
operand. -/
theorem binds_left_next (p o : binary_operator) (h : binds_left p o = true) :
    get_precedence o < next_precedence p := by
  rw [binds_left_iff] at h
  unfold next_precedence
  rcases h with h | ⟨h, ha⟩
  · split <;> omega
  · rw [equal_precedence_associativity p o h, ha]
    simp only [Bool.false_eq_true, if_false]
    omega

/-- The climb of the right operand of `o` takes every operator that may stand there. -/
theorem binds_right_next (p o : binary_operator) (h : binds_right p o = true) :
    next_precedence o ≤ get_precedence p := by
  rw [binds_right_iff] at h
  unfold next_precedence
  rcases h with h | ⟨h, ha⟩
  · split <;> omega
  · rw [ha]
    simp only [if_true]
    omega

/-- An operator that may not stand in the right operand of `o` may have `o` in its left
operand. -/
theorem not_binds_right_left (oper o : binary_operator) (h : binds_right oper o = false) :
    binds_left o oper = true := by
  have h1 : ¬ binds_right oper o = true := by simp [h]
  rw [binds_right_iff] at h1
  rw [binds_left_iff]
  by_cases hlt : get_precedence oper < get_precedence o
  · exact Or.inl hlt
  · have heq : get_precedence oper = get_precedence o := by omega
    refine Or.inr ⟨heq.symm, ?_⟩
    rw [equal_precedence_associativity oper o heq]
    cases ha : is_right_associative o
    · rfl
    · exact absurd (Or.inr ⟨heq, ha⟩) h1

/-- What may stand in the left operand of `o` may stand in the left operand of an operator that
may have `o` there. -/
theorem binds_left_trans (p o oper : binary_operator) (h : binds_left o oper = true)
    (hp : binds_left p o = true) : binds_left p oper = true := by
  rw [binds_left_iff] at h hp ⊢
  rcases hp with hp | ⟨hp, hpa⟩
  · rcases h with h | ⟨h, ha⟩
    · exact Or.inl (by omega)
    · exact Or.inl (by omega)
  · rcases h with h | ⟨h, ha⟩
    · exact Or.inl (by omega)
    · exact Or.inr ⟨by omega, ha⟩

/-- What may stand in the right operand of `o` may stand in the left operand of an operator that
may not stand in the right operand of `o`. -/
theorem binds_right_left_trans (p o oper : binary_operator) (h : binds_left o oper = true)
    (hno : binds_right oper o = false)
    (hp : binds_right p o = true) : binds_left p oper = true := by
  have h1 : ¬ binds_right oper o = true := by simp [hno]
  rw [binds_right_iff] at h1 hp
  rw [binds_left_iff] at h ⊢
  rcases hp with hp | ⟨hp, hpa⟩
  · rcases h with h | ⟨h, ha⟩
    · exact Or.inl (by omega)
    · exact Or.inl (by omega)
  · rcases h with h | ⟨h, ha⟩
    · exact Or.inl (by omega)
    · exact absurd (Or.inr ⟨h.symm, hpa⟩) h1

/-- The bound of `climb_expression` does not matter once it exceeds the number of binary
expressions left. -/
theorem climb_expression_fuel (O : operators) :
    ∀ (f1 f2 : Nat) (left : value) (m : Nat) (ops : List binary_thunk) (s : context),
      ops.length < f1 → ops.length < f2 →
      climb_expression O f1 left m ops s = climb_expression O f2 left m ops s := by
  intro f1
  induction f1 with
  | zero => intro f2 left m ops s h1; omega
  | succ f1 ih =>
    intro f2 left m ops s h1 h2
    cases f2 with
    | zero => omega
    | succ f2 =>
      cases ops with
      | nil => rfl
      | cons e rest =>
        simp only [List.length_cons] at h1 h2
        have l1 : rest.length < f1 := by omega
        have l2 : rest.length < f2 := by omega
        simp only [climb_expression]
        split
        · split
          · rfl
          · cases hop : e.operand s with
            | error err => rfl
            | ok r =>
              obtain ⟨right, s1⟩ := r
              simp only
              rw [← ih f2 right _ rest s1 l1 l2]
              obtain ⟨r1, hr1, hb1⟩ := climb_expression_terminates O f1 right
                (get_precedence e.oper + if is_right_associative e.oper = true then 0 else 1)
                rest s1 l1
              rw [hr1]
              cases r1 with
              | error err => rfl
              | ok q =>
                obtain ⟨⟨right1, rest1⟩, s2⟩ := q
                have hle := hb1 _ _ _ rfl
                simp only
                cases evaluate_binary O left e.oper right1 s2 with
                | error err => rfl
                | ok q2 =>
                  obtain ⟨left1, s3⟩ := q2
                  simp only
                  exact ih f2 _ _ _ _ (by omega) (by omega)
        · rfl

/-- The climb stops at once at the end of the remainder and before an operator below the
minimum precedence. -/
theorem climb_stop (O : operators) (left : value) (m : Nat) (more : List binary_thunk)
    (s : context) (h : ∀ e rest, more = e :: rest → get_precedence e.oper < m) :
    climb O left m more s = .ok ((left, more), s) := by
  cases more with
  | nil => rfl
  | cons e rest =>
    have := h e rest rfl
    simp only [climb, List.length_cons, climb_expression]
    rw [if_neg (by omega)]

/-- One iteration of the loop of `climb_expression` for an operator that is taken and is not a
logical operator: the operand, the climb of the rest from the next precedence, the handler of
the operator, then the loop again. -/
theorem climb_cons (O : operators) (left : value) (m : Nat) (e : binary_thunk)
    (rest : List binary_thunk) (s : context) (hprec : m ≤ get_precedence e.oper)
    (hand : e.oper ≠ binary_operator.logical_and) (hor : e.oper ≠ binary_operator.logical_or) :
    climb O left m (e :: rest) s =
      match e.operand s with
      | .error err => .error err
      | .ok (right, s1) =>
        match climb O right (next_precedence e.oper) rest s1 with
        | .error err => .error err
        | .ok ((right1, rest1), s2) =>
          match evaluate_binary O left e.oper right1 s2 with
          | .error err => .error err
          | .ok (left1, s3) => climb O left1 m rest1 s3 := by
  simp only [climb, List.length_cons, climb_expression, next_precedence]
  rw [if_pos hprec, if_neg (by simp [hand, hor])]
  cases hop : e.operand s with
  | error err => rfl
  | ok r =>
    obtain ⟨right, s1⟩ := r
    simp only
    obtain ⟨r1, hr1, hb1⟩ := climb_expression_terminates O (rest.length + 1) right
      (get_precedence e.oper + if is_right_associative e.oper = true then 0 else 1)
      rest s1 (by omega)
    rw [hr1]
    cases r1 with
    | error err => rfl
    | ok q =>
      obtain ⟨⟨right1, rest1⟩, s2⟩ := q
      have hle := hb1 _ _ _ rfl
      simp only
      cases evaluate_binary O left e.oper right1 s2 with
      | error err => rfl
      | ok q2 =>
        obtain ⟨left1, s3⟩ := q2
        simp only
        rw [climb_expression_fuel O (rest.length + 1) (rest1.length + 1) left1 m rest1 s3
          (by omega) (by omega)]

/-- The function `climb_remainder` is the climb from minimum precedence 0 without the iterator
it returns. -/
theorem climb_remainder_eq (O : operators) (result : value) (remainder : List binary_thunk)
    (s : context) :
    climb_remainder O result remainder s =
      match climb O result 0 remainder s with
      | .error e => .error e
      | .ok ((left, _), s1) => .ok (left, s1) := by
  unfold climb_remainder climb
  cases climb_expression O (remainder.length + 1) result 0 remainder s with
  | none => rfl
  | some r =>
    cases r with
    | error e => rfl
    | ok q => rfl

/-- The climb of an operator-precedence tree without logical operators: climbing the binary
expressions of the tree, from a minimum precedence that all its operators reach and before
binary expressions `more` at which every climb started inside the tree stops, is the evaluation
of the tree bottom-up, followed by the climb of `more`. -/
theorem climb_tree (O : operators) :
    ∀ (tree : operator_tree) (m : Nat) (more : List binary_thunk) (s : context),
      tree.is_precedence_tree = true →
      (∀ p ∈ tree.operator_list,
        p ≠ binary_operator.logical_and ∧ p ≠ binary_operator.logical_or) →
      (∀ p ∈ tree.operator_list, m ≤ get_precedence p) →
      (∀ e rest, more = e :: rest →
        ∀ p ∈ tree.operator_list, get_precedence e.oper < next_precedence p) →
      climb_from O tree m more s =
        match tree.evaluate O s with
        | .error e => .error e
        | .ok (w, s2) => climb O w m more s2 := by
  intro tree
  induction tree with
  | leaf operand =>
    intro m more s _ _ _ _
    simp only [climb_from, operator_tree.flatten, operator_tree.evaluate, List.nil_append]
  | node oper left right ihl ihr =>
    intro m more s hwf hfree htight hmore
    simp only [operator_tree.is_precedence_tree, Bool.and_eq_true, List.all_eq_true] at hwf
    obtain ⟨⟨⟨hL, hR⟩, hwl⟩, hwr⟩ := hwf
    simp only [operator_tree.operator_list, List.mem_append, List.mem_cons] at hfree htight hmore
    have e1 : climb_from O (.node oper left right) m more s =
        climb_from O left m (⟨oper, right.flatten.1⟩ :: (right.flatten.2 ++ more)) s := by
      simp only [climb_from, operator_tree.flatten, List.append_assoc, List.cons_append]
    rw [e1, ihl m _ s hwl (fun p hp => hfree p (Or.inl hp)) (fun p hp => htight p (Or.inl hp))
      (by
        intro e rest he p hp
        simp only [List.cons.injEq] at he
        rw [← he.1]
        exact binds_left_next p oper (hL p hp))]
    simp only [operator_tree.evaluate]
    cases hl : left.evaluate O s with
    | error err => rfl
    | ok q =>
      obtain ⟨l, s2⟩ := q
      simp only
      rw [climb_cons O l m ⟨oper, right.flatten.1⟩ _ s2 (htight oper (Or.inr (Or.inl rfl)))
        (hfree oper (Or.inr (Or.inl rfl))).1 (hfree oper (Or.inr (Or.inl rfl))).2]
      have ihr1 := ihr (next_precedence oper) more s2 hwr
        (fun p hp => hfree p (Or.inr (Or.inr hp)))
        (fun p hp => binds_right_next p oper (hR p hp))
        (fun e rest he p hp => hmore e rest he p (Or.inr (Or.inr hp)))
      have hstop : ∀ w s4, climb O w (next_precedence oper) more s4 = .ok ((w, more), s4) :=
        fun w s4 => climb_stop O w _ more s4
          (fun e rest he => hmore e rest he oper (Or.inr (Or.inl rfl)))
      simp only [climb_from] at ihr1
      cases hb : right.flatten.1 s2 with
      | error err =>
        rw [hb] at ihr1
        simp only at ihr1
        cases hr : right.evaluate O s2 with
        | error err1 =>
          rw [hr] at ihr1
          simp only [Except.error.injEq] at ihr1
          simp only [hb, ihr1]
        | ok q4 =>
          obtain ⟨r, s4⟩ := q4
          rw [hr] at ihr1
          simp only [hstop] at ihr1
          cases ihr1
      | ok q3 =>
        obtain ⟨right0, s3⟩ := q3
        rw [hb] at ihr1
        simp only at ihr1
        simp only [hb, ihr1]
        cases hr : right.evaluate O s2 with
        | error err1 => rfl
        | ok q4 =>
          obtain ⟨r, s4⟩ := q4
          simp only [hstop]

/-- Adding a binary expression to a tree adds it at the end of the expression the tree stands
for. -/
theorem insert_flatten (tree : operator_tree) (oper : binary_operator) (operand : thunk) :
    (tree.insert oper operand).flatten =
      (tree.flatten.1, tree.flatten.2 ++ [⟨oper, operand⟩]) := by
  induction tree with
  | leaf first => rfl
  | node o left right _ ihr =>
    simp only [operator_tree.insert]
    split
    · simp only [operator_tree.flatten, ihr, List.append_assoc, List.cons_append]
    · simp only [operator_tree.flatten, List.append_assoc, List.cons_append]

/-- Adding a binary expression to a tree adds its operator at the end of the operators. -/
theorem insert_operator_list (tree : operator_tree) (oper : binary_operator) (operand : thunk) :
    (tree.insert oper operand).operator_list = tree.operator_list ++ [oper] := by
  induction tree with
  | leaf first => rfl
  | node o left right _ ihr =>
    simp only [operator_tree.insert]
    split
    · simp only [operator_tree.operator_list, ihr, List.append_assoc, List.cons_append]
    · simp only [operator_tree.operator_list, List.append_assoc, List.cons_append,
        List.append_nil]

/-- Adding a binary expression at the right end of an operator-precedence tree gives an
operator-precedence tree. -/
theorem insert_precedence_tree (tree : operator_tree) (oper : binary_operator) (operand : thunk)
    (h : tree.is_precedence_tree = true) :
    (tree.insert oper operand).is_precedence_tree = true := by
  induction tree with
  | leaf first => rfl
  | node o left right _ ihr =>
    simp only [operator_tree.is_precedence_tree, Bool.and_eq_true, List.all_eq_true] at h
    obtain ⟨⟨⟨hL, hR⟩, hwl⟩, hwr⟩ := h
    simp only [operator_tree.insert]
    cases hb : binds_right oper o with
    | true =>
      simp only [if_true, operator_tree.is_precedence_tree, Bool.and_eq_true,
        List.all_eq_true, insert_operator_list, List.mem_append, List.mem_singleton]
      refine ⟨⟨⟨hL, ?_⟩, hwl⟩, ihr hwr⟩
      intro p hp
      rcases hp with hp | hp
      · exact hR p hp
      · rw [hp]; exact hb
    | false =>
      have hlo := not_binds_right_left oper o hb
      simp only [Bool.false_eq_true, if_false, operator_tree.is_precedence_tree,
        Bool.and_eq_true, List.all_eq_true, operator_tree.operator_list, List.mem_append,
        List.mem_cons]
      refine ⟨⟨⟨?_, by simp⟩, ⟨⟨⟨hL, hR⟩, hwl⟩, hwr⟩⟩, trivial⟩
      intro p hp
      rcases hp with hp | hp | hp
      · exact binds_left_trans p o oper hlo (hL p hp)
      · rw [hp]; exact hlo
      · exact binds_right_left_trans p o oper hlo hb (hR p hp)

/-- Adding binary expressions one after the other adds them at the end of the expression the
tree stands for. -/
theorem foldl_insert_flatten (remainder : List binary_thunk) :
    ∀ tree : operator_tree,
      (remainder.foldl (fun tree e => tree.insert e.oper e.operand) tree).flatten =
        (tree.flatten.1, tree.flatten.2 ++ remainder) := by
  induction remainder with
  | nil => intro tree; simp
  | cons e rest ih =>
    intro tree
    simp only [List.foldl_cons, ih, insert_flatten, List.append_assoc, List.singleton_append]

/-- Adding binary expressions one after the other to an operator-precedence tree gives an
operator-precedence tree. -/
theorem foldl_insert_precedence_tree (remainder : List binary_thunk) :
    ∀ tree : operator_tree, tree.is_precedence_tree = true →
      (remainder.foldl (fun tree e => tree.insert e.oper e.operand) tree).is_precedence_tree
        = true := by
  induction remainder with
  | nil => intro tree h; exact h
  | cons e rest ih =>
    intro tree h
    exact ih _ (insert_precedence_tree tree e.oper e.operand h)

/-- The reference tree stands for the expression it was built from. -/
theorem reference_tree_flatten (first : thunk) (remainder : List binary_thunk) :
    (reference_tree first remainder).flatten = (first, remainder) := by
  simp only [reference_tree, foldl_insert_flatten, operator_tree.flatten, List.nil_append]

/-- The reference tree is an operator-precedence tree. -/
theorem reference_tree_precedence (first : thunk) (remainder : List binary_thunk) :
    (reference_tree first remainder).is_precedence_tree = true :=
  foldl_insert_precedence_tree remainder _ rfl

/-- The operators of the expression a tree stands for are the operators of the tree. -/
theorem flatten_operators (tree : operator_tree) :
    tree.flatten.2.map (fun e => e.oper) = tree.operator_list := by
  induction tree with
  | leaf first => rfl
  | node o left right ihl ihr =>
    simp only [operator_tree.flatten, operator_tree.operator_list, List.map_append,
      List.map_cons, ihl, ihr]

/-- Suspending the operands of a remainder keeps its operators. -/
theorem remainder_thunks_operators (X : externals) (remainder : List binary_expression) :
    (remainder_thunks X remainder).map (fun e => e.oper) = remainder_operators remainder := by
  induction remainder with
  | nil => simp [remainder_thunks, remainder_operators]
  | cons e rest ih =>
    cases e with
    | mk oper operand => simp [remainder_thunks, remainder_operators, ih]

/-- An expression without logical operators in its remainder evaluates like every
operator-precedence tree that stands for it. -/
theorem evaluate_tree_of_expression (X : externals) (postfix_ : postfix_expression)
    (remainder : List binary_expression) (s : context)
    (hfree : ∀ p ∈ remainder_operators remainder,
      p ≠ binary_operator.logical_and ∧ p ≠ binary_operator.logical_or)
    (tree : operator_tree)
    (hflat : tree.flatten = (evaluate_postfix_expression X postfix_, remainder_thunks X remainder))
    (hwf : tree.is_precedence_tree = true) :
    evaluate X (.mk postfix_ remainder) false s = tree.evaluate X.handlers s := by
  have hops : tree.operator_list = remainder_operators remainder := by
    rw [← flatten_operators, hflat, remainder_thunks_operators]
  have h := climb_tree X.handlers tree 0 [] s hwf (by rw [hops]; exact hfree)
    (fun p _ => Nat.zero_le _) (fun e rest he => by cases he)
  simp only [climb_from, hflat, List.append_nil] at h
  simp only [evaluate, Bool.false_and, Bool.false_eq_true, if_false, climb_remainder_eq]
  cases hp : evaluate_postfix_expression X postfix_ s with
  | error err =>
    rw [hp] at h
    simp only at h
    cases ht : tree.evaluate X.handlers s with
    | error err1 =>
      rw [ht] at h
      simp only [Except.error.injEq] at h
      rw [h]
    | ok q =>
      obtain ⟨w, s2⟩ := q
      rw [ht] at h
      simp only [climb_stop X.handlers w 0 [] s2 (fun e rest he => by cases he)] at h
      cases h
  | ok q0 =>
    obtain ⟨result, s1⟩ := q0
    rw [hp] at h
    simp only at h
    simp only [h]
    cases ht : tree.evaluate X.handlers s with
    | error err1 => rfl
    | ok q =>
      obtain ⟨w, s2⟩ := q
      simp only [climb_stop X.handlers w 0 [] s2 (fun e rest he => by cases he)]

/-- Claim C32: precedence climbing agrees with the reference parse.  For an expression whose
remainder holds no `and` and no `or`, the tree built from the precedence table and the
associativity of the specification stands for the expression and is an operator-precedence
tree, and `evaluate` returns what the bottom-up evaluation of this tree returns, operands from
left to right; the same holds for every operator-precedence tree that stands for the
expression.  The handlers are arbitrary functions of the evaluation context, which they may
use to record their calls, so the operators are applied in the same order. -/
theorem climb_agrees_with_reference (X : externals) (postfix_ : postfix_expression)
    (remainder : List binary_expression) (s : context)
    (hfree : ∀ p ∈ remainder_operators remainder,
      p ≠ binary_operator.logical_and ∧ p ≠ binary_operator.logical_or) :
    (reference_tree (evaluate_postfix_expression X postfix_)
        (remainder_thunks X remainder)).flatten =
      (evaluate_postfix_expression X postfix_, remainder_thunks X remainder) ∧
    (reference_tree (evaluate_postfix_expression X postfix_)
        (remainder_thunks X remainder)).is_precedence_tree = true ∧
    evaluate X (.mk postfix_ remainder) false s =
      (reference_tree (evaluate_postfix_expression X postfix_)
        (remainder_thunks X remainder)).evaluate X.handlers s ∧
    ∀ tree : operator_tree,
      tree.flatten = (evaluate_postfix_expression X postfix_, remainder_thunks X remainder) →
      tree.is_precedence_tree = true →
      evaluate X (.mk postfix_ remainder) false s = tree.evaluate X.handlers s :=
  ⟨reference_tree_flatten _ _, reference_tree_precedence _ _,
    evaluate_tree_of_expression X postfix_ remainder s hfree _ (reference_tree_flatten _ _)
      (reference_tree_precedence _ _),
    fun tree hflat hwf => evaluate_tree_of_expression X postfix_ remainder s hfree tree hflat hwf⟩

/-- Witness of claim C32: `1 - 2 * 3 - 4` with handlers that record their operands: the
product is applied first, then the first difference, then the second one, and the value is the
one of the tree `(1 - (2 * 3)) - 4`. -/
theorem climb_agrees_with_reference_witness :
    (∀ p ∈ remainder_operators difference_of_product,
      p ≠ binary_operator.logical_and ∧ p ≠ binary_operator.logical_or) ∧
    evaluate recording_externals (.mk (primary (.number 1)) difference_of_product) false
        empty_context =
      .ok (value.array [value.array [value.integer 1,
            value.array [value.integer 2, value.integer 3]], value.integer 4],
        ⟨[("applied", value.array [value.integer 2, value.integer 3]),
          ("applied", value.array [value.integer 1,
            value.array [value.integer 2, value.integer 3]]),
          ("applied", value.array [value.array [value.integer 1,
            value.array [value.integer 2, value.integer 3]], value.integer 4])], []⟩) ∧
    evaluate recording_externals (.mk (primary (.number 1)) difference_of_product) false
        empty_context =
      (reference_tree (evaluate_postfix_expression recording_externals (primary (.number 1)))
        (remainder_thunks recording_externals difference_of_product)).evaluate
          recording_externals.handlers empty_context :=
  ⟨by decide, rfl,
    (climb_agrees_with_reference recording_externals (primary (.number 1))
      difference_of_product empty_context (by decide)).2.2.1⟩

end puppet
